import Mathlib

/-!
# 7days-golang: cache (geecache) and RPC (geerpc) — verification development

Shallow embedding of the Go sources into Lean 4.

Conventions of the embedding
* A Go `panic` (nil dereference, call of a nil func value, explicit `panic`) is
  the result `none` of an `Option`-valued operation.
* Go `int` / `int64` byte counts are modelled on `Int`; the sums of lengths that
  occur stay far inside the 64-bit range, so no wrap-around is modelled.
* Go `string` is `String`; `len(s)` is the number of bytes, `String.utf8ByteSize`.
* A pointer `*list.Element` is the address (`Nat`) of the element it points to.
-/

set_option autoImplicit false

namespace lru

/-! ## `self-cache/day1-lru/lru.go` -/

/-- The Go interface `Value`: anything that reports how many bytes it takes. -/
class Value (V : Type) where
  /-- `Len() int` -/
  Len : V → Int

/-- The byte length `len(key)` of a Go string, as an `int64`. -/
def strLen (s : String) : Int := (s.utf8ByteSize : Int)

/-- The test type `type String string` with `Len() = len(d)` (lru_test.go). -/
instance : Value String where
  Len := fun d => strLen d

/-- A node of `container/list` holding a `*entry`: `addr` is the identity of the
`*list.Element`, `key` and `value` are the fields of the `entry` it points to. -/
structure Element (V : Type) where
  addr : Nat
  key : String
  value : V
  deriving DecidableEq, Repr

/-- The struct `Cache`.  `ll` lists the elements front first; `cahce` is the Go map
from key to element pointer, kept as an association list; `OnEvicted` tells whether
the callback is non-nil, and `calls` records, in order, the arguments of every call
made to it (the callback is taken to return and not to call into the cache); `next`
is the address the next allocated element receives. -/
structure Cache (V : Type) where
  maxBytes : Int
  nBytes : Int
  ll : List (Element V)
  cahce : List (String × Nat)
  OnEvicted : Bool
  calls : List (String × V)
  next : Nat
  deriving DecidableEq, Repr

variable {V : Type}

/-- Embedding of `Init(maxBytes, OnEvicted)`. -/
def Init (maxBytes : Int) (OnEvicted : Bool) : Cache V :=
  { maxBytes := maxBytes, nBytes := 0, ll := [], cahce := [],
    OnEvicted := OnEvicted, calls := [], next := 0 }

/-- Map read `c.cahce[key]`. -/
def mapGet (m : List (String × Nat)) (key : String) : Option Nat :=
  m.lookup key

/-- Map deletion `delete(c.cahce, key)`. -/
def mapDelete (m : List (String × Nat)) (key : String) : List (String × Nat) :=
  m.filter (fun p => p.1 != key)

/-- Map write `c.cahce[key] = ele`. -/
def mapSet (m : List (String × Nat)) (key : String) (a : Nat) : List (String × Nat) :=
  (key, a) :: mapDelete m key

/-- Dereference of an element pointer held by the map: the element of `ll` at
address `a`.  On a cache obtained from `Init` every address held by the map is that
of a linked element (`deref_of_mapGet`), so the result `none` does not occur
there. -/
def deref (ll : List (Element V)) (a : Nat) : Option (Element V) :=
  ll.find? (fun e => e.addr == a)

/-- Embedding of `l.MoveToFront(e)`: nothing happens when `e` is not an element of the list
(or is already its front), otherwise `e` is unlinked and relinked at the front. -/
def MoveToFront (ll : List (Element V)) (a : Nat) : List (Element V) :=
  match deref ll a with
  | none => ll
  | some e => e :: ll.eraseP (fun x => x.addr == a)

/-- The assignment `ele.Value.(*entry).value = value` through the pointer `a`. -/
def setValue (ll : List (Element V)) (a : Nat) (value : V) : List (Element V) :=
  ll.map (fun e => if e.addr == a then { e with value := value } else e)

/-- The call `c.OnEvicted(key, value)`: calling a nil func value panics. -/
def callOnEvicted (c : Cache V) (key : String) (value : V) : Option (Cache V) :=
  if c.OnEvicted then some { c with calls := c.calls ++ [(key, value)] } else none

/-- Embedding of `Cache.Get`.  The `ok` declared by `if ele, ok := c.cahce[key]; ok` is a new
variable local to the `if` statement, so the result parameter `ok` keeps its zero
value `false`; the list is not touched. -/
def Get (c : Cache V) (key : String) : Option V × Bool :=
  match mapGet c.cahce key with
  | some a =>
    match deref c.ll a with
    | some ele => (some ele.value, false)
    | none => (none, false)
  | none => (none, false)

/-- Embedding of `Cache.RemoveOldest`.  On an empty list `c.ll.Back()` is nil and
`c.ll.Remove(nil)` dereferences it. -/
def RemoveOldest [Value V] (c : Cache V) : Option (Cache V) :=
  match c.ll.getLast? with
  | none => none
  | some ele =>
    callOnEvicted
      { c with
        ll := c.ll.dropLast
        cahce := mapDelete c.cahce ele.key
        nBytes := c.nBytes - (Value.Len ele.value + strLen ele.key) }
      ele.key ele.value

/-- The loop `for c.nBytes > c.maxBytes && c.maxBytes != 0 { c.RemoveOldest() }`.
Every iteration that does not panic shortens the list by one element, so
`fuel = len(ll) + 1` iterations are never used up (`evictLoop_fuel`). -/
def evictLoop [Value V] : Nat → Cache V → Option (Cache V)
  | 0, _ => none
  | fuel + 1, c =>
    if c.nBytes > c.maxBytes ∧ c.maxBytes ≠ 0 then
      match RemoveOldest c with
      | none => none
      | some c1 => evictLoop fuel c1
    else some c

/-- The block `if c.nBytes == c.maxBytes { ... }` of `Add` (lines 100-108): when
the byte count equals the capacity the back element is unlinked, its key deleted
from the map and its size subtracted, without any call of the callback.  On an
empty list `c.ll.Back()` is nil and `c.ll.Remove(nil)` dereferences it. -/
def dropIfFull [Value V] (c : Cache V) : Option (Cache V) :=
  if c.nBytes = c.maxBytes then
    match c.ll.getLast? with
    | none => none
    | some ele =>
      some { c with
        ll := c.ll.dropLast
        cahce := mapDelete c.cahce ele.key
        nBytes := c.nBytes - (Value.Len ele.value + strLen ele.key) }
  else some c

/-- Lines 111-113 of `Add`: `ele := c.ll.PushFront(&entry{key, value})`,
`c.cahce[key] = ele`, `c.nBytes += int64(value.Len()) + int64(len(key))`. -/
def pushFront [Value V] (c : Cache V) (key : String) (value : V) : Cache V :=
  { c with
    ll := { addr := c.next, key := key, value := value } :: c.ll
    cahce := mapSet c.cahce key c.next
    nBytes := c.nBytes + (Value.Len value + strLen key)
    next := c.next + 1 }

/-- Embedding of `Cache.Add`. -/
def Add [Value V] (c : Cache V) (key : String) (value : V) : Option (Cache V) :=
  match mapGet c.cahce key with
  | some a =>
    match deref c.ll a with
    | none => none
    | some ele =>
      let ll1 := MoveToFront c.ll a
      let pre_bytes := Value.Len ele.value
      some { c with
        ll := setValue ll1 a value
        nBytes := c.nBytes + (Value.Len value - pre_bytes) }
  | none =>
    match dropIfFull c with
    | none => none
    | some c1 =>
      let c2 := pushFront c1 key value
      match evictLoop (c2.ll.length + 1) c2 with
      | none => none
      | some c3 => callOnEvicted c3 key value

/-- Embedding of `Cache.Len`. -/
def Len (c : Cache V) : Int := c.ll.length

/-- One call on a cache. -/
inductive Op (V : Type) where
  | add (key : String) (value : V)
  | get (key : String)
  | removeOldest
  deriving DecidableEq, Repr

/-- Effect of one call on the cache (`none` when the call panics). -/
def step [Value V] (c : Cache V) : Op V → Option (Cache V)
  | .add k v => Add c k v
  | .get _ => some c
  | .removeOldest => RemoveOldest c

/-- A sequence of calls, left to right; `none` as soon as one of them panics. -/
def run [Value V] (c : Cache V) : List (Op V) → Option (Cache V)
  | [] => some c
  | op :: ops =>
    match step c op with
    | none => none
    | some c1 => run c1 ops

/-- Sum of `len(key) + value.Len()` over a list of elements. -/
def sumBytes [Value V] (l : List (Element V)) : Int :=
  (l.map (fun e => strLen e.key + Value.Len e.value)).sum

/-- Whether a call runs the full-cache block of `Add` (lines 100-108), which unlinks
the back element without calling the callback: an `Add` of a key that is not in the
map while `nBytes == maxBytes`. -/
def takesFullBranch (c : Cache V) : Op V → Bool
  | .add key _ => decide (mapGet c.cahce key = none ∧ c.nBytes = c.maxBytes)
  | .get _ => false
  | .removeOldest => false

/-- Representation invariant of a cache: the byte count is the sum over the linked
elements, every key and every address occurs once in the list, addresses are below
the allocation counter, and the map sends `k` to `a` exactly when the element at
address `a` is linked and carries key `k`. -/
structure WF [Value V] (c : Cache V) : Prop where
  bytes : c.nBytes = sumBytes c.ll
  keysNodup : (c.ll.map (fun e => e.key)).Nodup
  addrNodup : (c.ll.map (fun e => e.addr)).Nodup
  fresh : ∀ e ∈ c.ll, e.addr < c.next
  mapList : ∀ k a, mapGet c.cahce k = some a ↔ ∃ e ∈ c.ll, e.key = k ∧ e.addr = a
  mapNodup : (c.cahce.map Prod.fst).Nodup

/-- A run with insertions, an update, a read and a removal. -/
def accountingOps : List (Op String) :=
  [.add "key1" "123456", .get "key1", .add "k2" "k2", .add "k3" "k3", .add "k2" "v",
    .removeOldest]

/-- Final cache of the run `accountingOps` from `Init(10, cb)`. -/
def accountingDemo : Cache String :=
  { maxBytes := 10, nBytes := 3, ll := [{ addr := 1, key := "k2", value := "v" }],
    cahce := [("k2", 1)], OnEvicted := true,
    calls := [("key1", "123456"), ("k2", "k2"), ("k3", "k3"), ("k3", "k3")], next := 3 }

/-- Cache before the call used as the witness of C6 (three entries, 6 of 10 bytes). -/
def callsDemoBefore : Cache String :=
  { maxBytes := 10, nBytes := 6,
    ll := [{ addr := 2, key := "e", value := "f" }, { addr := 1, key := "c", value := "d" },
      { addr := 0, key := "a", value := "b" }],
    cahce := [("e", 2), ("c", 1), ("a", 0)], OnEvicted := true,
    calls := [("a", "b"), ("c", "d"), ("e", "f")], next := 3 }

/-- Cache after `Add("0123", "4567")` on `callsDemoBefore`: the loop has unlinked
`"a"` and then `"c"`. -/
def callsDemoAfter : Cache String :=
  { maxBytes := 10, nBytes := 10,
    ll := [{ addr := 3, key := "0123", value := "4567" }, { addr := 2, key := "e", value := "f" }],
    cahce := [("0123", 3), ("e", 2)], OnEvicted := true,
    calls := [("a", "b"), ("c", "d"), ("e", "f"), ("a", "b"), ("c", "d"), ("0123", "4567")],
    next := 4 }

end lru

namespace consistenthash

/-! ## `self-cache/day6-SingleFlight/geecache/consistenthash/consistenthash.go` -/

/-- Embedding of `type Hash func([]byte) uint32`: a function of the bytes of a string.  Its
result is read as a `uint32`, that is modulo `2^32`, where it is called. -/
abbrev Hash := String → Nat

/-- One byte folded into the running CRC-32 register (reflected polynomial of the
IEEE checksum), bit by bit. -/
def crcByte (crc : Nat) (b : UInt8) : Nat :=
  (List.range 8).foldl
    (fun r _ => if r % 2 = 1 then (r >>> 1) ^^^ 0xEDB88320 else r >>> 1)
    (crc ^^^ b.toNat)

/-- Embedding of `crc32.ChecksumIEEE`, the hash used when `New` is given a nil function. -/
def ChecksumIEEE : Hash :=
  fun s => (s.toUTF8.toList.foldl crcByte 0xFFFFFFFF) ^^^ 0xFFFFFFFF

/-- The struct `Map`: `keys` is the ring (`[]int`), `hashmap` the Go map from
virtual-node hash to real node name, kept as an association list whose first entry
for a key is the current one. -/
structure Map where
  hash : Hash
  repllicas : Int
  keys : List Int
  hashmap : List (Int × String)

/-- Embedding of `New(replicas, fn)`; `none` stands for a nil `fn`. -/
def New (replicas : Int) (fn : Option Hash) : Map :=
  { hash := fn.getD ChecksumIEEE, repllicas := replicas, keys := [], hashmap := [] }

/-- Embedding of `int(m.hash([]byte(s)))`. -/
def hashOf (m : Map) (s : String) : Int :=
  ((m.hash s % 4294967296 : Nat) : Int)

/-- Embedding of `sort.Ints`. -/
def sortInts (l : List Int) : List Int :=
  l.insertionSort (fun a b => a ≤ b)

/-- The inner loop of `Add` for one real node: for `i` from `0` below `repllicas`,
append the hash of `strconv.Itoa(i) + key` to `keys` and map it to `key`. -/
def addReplicas (m : Map) (key : String) : Map :=
  (List.range m.repllicas.toNat).foldl
    (fun m i =>
      let hash := hashOf m (toString i ++ key)
      { m with keys := m.keys ++ [hash], hashmap := (hash, key) :: m.hashmap })
    m

/-- Embedding of `Map.Add(keys ...)`. -/
def Add (m : Map) (keys : List String) : Map :=
  let m1 := keys.foldl addReplicas m
  { m1 with keys := sortInts m1.keys }

/-- The loop of `sort.Search`: `for i < j { h := int(uint(i+j) >> 1); if !f(h)
{ i = h + 1 } else { j = h } }`, returning `i`.  Each iteration shrinks `j - i`, so
`fuel = j - i` iterations are enough. -/
def searchLoop (f : Nat → Bool) : Nat → Nat → Nat → Nat
  | 0, i, _ => i
  | fuel + 1, i, j =>
    if i < j then
      let h := (i + j) / 2
      if !f h then searchLoop f fuel (h + 1) j else searchLoop f fuel i h
    else i

/-- Embedding of `sort.Search(n, f)`. -/
def Search (n : Nat) (f : Nat → Bool) : Nat :=
  searchLoop f n 0 n

/-- Map read `m.hashmap[k]`, the empty string when `k` is absent. -/
def peerAt (m : Map) (k : Int) : String :=
  (m.hashmap.lookup k).getD ""

/-- Embedding of `Map.Get`.  `Search` only probes indices below `lg`, so the default of `getD` is
never used. -/
def Get (m : Map) (key : String) : String :=
  let lg := m.keys.length
  if lg = 0 then ""
  else
    let hash := hashOf m key
    let idx := Search lg (fun i => decide (m.keys.getD i 0 ≥ hash))
    peerAt m (m.keys.getD (idx % lg) 0)

/-- The ring obtained from `New(replicas, fn)` by a sequence of `Add` calls. -/
def build (replicas : Int) (fn : Option Hash) (adds : List (List String)) : Map :=
  adds.foldl Add (New replicas fn)

/-- The hash of the test: `strconv.Atoi(string(b))` converted to `uint32`, on
strings of decimal digits. -/
def atoiHash : Hash :=
  fun s => s.toList.foldl (fun n c => 10 * n + (c.toNat - 48)) 0

/-- The hashes of the virtual nodes of the real node `key`:
`hash(strconv.Itoa(i) + key)` for `i` from `0` below `repllicas`. -/
def virtualNodes (m : Map) (key : String) : List Int :=
  (List.range m.repllicas.toNat).map (fun i => hashOf m (toString i ++ key))

/-- The hash `v` is the virtual node serving the hash `h` on the ring `K`: the smallest
element of `K` that is at least `h`, or the smallest element of `K` when none is. -/
def IsSuccessor (K : List Int) (h v : Int) : Prop :=
  v ∈ K ∧ ((h ≤ v ∧ ∀ w ∈ K, h ≤ w → v ≤ w) ∨ ((∀ w ∈ K, w < h) ∧ ∀ w ∈ K, v ≤ w))

/-- Every virtual node on the ring has an entry in the hash-to-node map. -/
def Covered (m : Map) : Prop :=
  ∀ v ∈ m.keys, ∃ q, List.lookup v m.hashmap = some q

end consistenthash

namespace singleflight

/-! ## `self-cache/day6-SingleFlight/geecache/singleflight/singleflight.go` -/

/-- The struct `Group` of the single-flight package, in a sequential model: `m`
lists the keys that have a call in flight. -/
structure Group where
  m : List String
  deriving DecidableEq, Repr

/-- Embedding of `Group.Do` run by a single caller.  `fn` acts on a state `σ` of its own and may
panic (`none`).  When `key` already has a call in flight the caller waits on its
latch; with no other caller to complete it the wait never ends (`none`).  Otherwise
the key is entered in `m`, `fn` is run, the key is deleted and the result of `fn`
returned. -/
def Do {σ R : Type} (g : Group) (key : String) (fn : σ → Option (R × σ)) (s : σ) :
    Option (R × Group × σ) :=
  if key ∈ g.m then none
  else
    let g1 : Group := { m := key :: g.m }
    match fn s with
    | none => none
    | some (r, s1) => some (r, { m := g1.m.filter (fun k => k != key) }, s1)

end singleflight

namespace continue_hash

namespace lru

/-! ## The package `continue_hash/lru` -/

variable {V : Type}

/-- Modelled from the spec: the package `continue_hash/lru` that cache.go imports is
not among the sources.  By the spec an LRU cache is an ordered sequence of (key,
value) entries, front the most recently used and back the eviction candidate, plus a
mapping from key to its position, with the attributes `maxBytes` (0 means
unbounded), `usedBytes` and an optional eviction callback.  Here `entries` is the
sequence, front first; the mapping is read off it (each key appears at most once);
`OnEvicted` tells whether a callback is configured and `calls` records its calls. -/
structure Cache (V : Type) where
  maxBytes : Int
  usedBytes : Int
  entries : List (String × V)
  OnEvicted : Bool
  calls : List (String × V)
  deriving DecidableEq, Repr

/-- Modelled from the spec: the constructor `Init(maxBytes, onEvicted)` called by
cache.go; the cache is created with a capacity and holds no entry. -/
def Init (maxBytes : Int) (OnEvicted : Bool) : Cache V :=
  { maxBytes := maxBytes, usedBytes := 0, entries := [], OnEvicted := OnEvicted, calls := [] }

/-- Modelled from the spec: `Get(key)` yields the value and whether it is a hit; on a
hit the entry is moved to the front. -/
def Get (c : Cache V) (key : String) : Option V × Cache V :=
  match c.entries.lookup key with
  | none => (none, c)
  | some v => (some v, { c with entries := (key, v) :: c.entries.filter (fun e => e.1 != key) })

/-- Modelled from the spec: `RemoveOldest()` pops the back entry, deletes it from the
map, decrements `usedBytes` by its size and invokes the eviction callback if one is
configured.  With no entry there is no back entry and nothing happens. -/
def RemoveOldest [lru.Value V] (c : Cache V) : Cache V :=
  match c.entries.getLast? with
  | none => c
  | some e =>
    { c with
      entries := c.entries.dropLast
      usedBytes := c.usedBytes - (lru.strLen e.1 + lru.Value.Len e.2)
      calls := if c.OnEvicted then c.calls ++ [e] else c.calls }

/-- Modelled from the spec: the loop of `Add`, while `maxBytes ≠ 0` and
`usedBytes > maxBytes` remove the back entry.  Every removal from a cache with
entries shortens the sequence, and without entries a removal changes nothing, so
the loop that has not ended within `len(entries) + 1` tests never ends (`none`). -/
def evictLoop [lru.Value V] : Nat → Cache V → Option (Cache V)
  | 0, _ => none
  | fuel + 1, c =>
    if c.maxBytes ≠ 0 ∧ c.usedBytes > c.maxBytes then evictLoop fuel (RemoveOldest c)
    else some c

/-- Modelled from the spec: `Add(key, value)`.  If the key exists the value is updated,
`usedBytes` adjusted by `new.Len() - old.Len()` and the entry moved to the front;
otherwise the entry is pushed to the front and `len(key) + value.Len()` added to
`usedBytes`.  Then the loop removes back entries, so that `maxBytes == 0` or
`usedBytes ≤ maxBytes` after any mutation.  An entry larger than `maxBytes` is removed
by the loop as worded, where the edge case of the spec leaves it resident; the
properties proved of the shard concern entries that fit, where the two agree. -/
def Add [lru.Value V] (c : Cache V) (key : String) (value : V) : Option (Cache V) :=
  let c1 : Cache V :=
    match c.entries.lookup key with
    | some old =>
      { c with
        entries := (key, value) :: c.entries.filter (fun e => e.1 != key)
        usedBytes := c.usedBytes + (lru.Value.Len value - lru.Value.Len old) }
    | none =>
      { c with
        entries := (key, value) :: c.entries
        usedBytes := c.usedBytes + (lru.strLen key + lru.Value.Len value) }
  evictLoop (c1.entries.length + 1) c1

/-- Modelled from the spec: `Len()` is the number of entries. -/
def Len (c : Cache V) : Int := c.entries.length

/-- Sum of `len(key) + value.Len()` over a sequence of entries. -/
def sumBytes [lru.Value V] (l : List (String × V)) : Int :=
  (l.map (fun e => lru.strLen e.1 + lru.Value.Len e.2)).sum

/-- The invariants the spec gives for an LRU cache: each key appears at most once
and `usedBytes` is the sum over the entries of `len(key) + value.Len()`. -/
structure WF [lru.Value V] (c : Cache V) : Prop where
  bytes : c.usedBytes = sumBytes c.entries
  keysNodup : (c.entries.map Prod.fst).Nodup

end lru

end continue_hash

namespace geecache

/-! ## `self-cache/day2-concurrent/byteview.go`, `self-cache/day4-hash/geecache/cache.go` -/

/-- The struct `ByteView`. -/
structure ByteView where
  b : List UInt8
  deriving DecidableEq, Repr

/-- Embedding of `ByteView.Len`. -/
def ByteView.Len (v : ByteView) : Int := v.b.length

instance : lru.Value ByteView where
  Len := ByteView.Len

/-- Modelled from the spec: `cloneBytes` is called by `getLocally` and is not among
the sources; the spec has `getLocally` wrap the bytes of the loader in a ByteView as a
defensive copy of the returned slice. -/
def cloneBytes (b : List UInt8) : List UInt8 := b

/-- A Go `error`: nil (`none`) or an error carrying a message. -/
abbrev Error := Option String

/-- The interface `Getter`: `Get(key string) ([]byte, error)`. -/
abbrev Getter := String → List UInt8 × Error

/-- The struct `cache`: the LRU store (nil until the first `add`) and its capacity;
the mutex has no effect on a single caller.  The store is a `Cache` of the package
`continue_hash/lru`, which is modelled from the spec. -/
structure cache where
  lru : Option (continue_hash.lru.Cache ByteView)
  cacheBytes : Int
  deriving DecidableEq, Repr

/-- Embedding of `cache.get`: the value, whether it is a hit, and the shard afterwards.
`c.lru.Get` is the `Get` of the store modelled from the spec; a store holds values of
type `ByteView` only, so the type assertion `val.(ByteView)` does not fail. -/
def cache.get (c : cache) (key : String) : (ByteView × Bool) × cache :=
  match c.lru with
  | none => ((⟨[]⟩, false), c)
  | some l =>
    match continue_hash.lru.Get l key with
    | (some val, l1) => ((val, true), { c with lru := some l1 })
    | (none, l1) => ((⟨[]⟩, false), { c with lru := some l1 })

/-- Embedding of `cache.add`: the LRU store is created on first use by `lru.Init(c.cacheBytes,
nil)`, then `c.lru.Add(key, value)`, both of the store modelled from the spec; `none`
when the loop of `Add` does not end. -/
def cache.add (c : cache) (key : String) (value : ByteView) : Option cache :=
  let l : continue_hash.lru.Cache ByteView :=
    match c.lru with
    | none => continue_hash.lru.Init c.cacheBytes false
    | some l => l
  match continue_hash.lru.Add l key value with
  | none => none
  | some l1 => some { c with lru := some l1 }

/-- Invariant of a shard: its store, once created, satisfies the invariants of an LRU
cache and has the capacity of the shard. -/
def cache.WF (c : cache) : Prop :=
  ∀ l, c.lru = some l → continue_hash.lru.WF l ∧ l.maxBytes = c.cacheBytes

/-- Embedding of `[]byte(s)`. -/
def bytesOf (s : String) : List UInt8 := s.toList.flatMap String.utf8EncodeChar

namespace day4

/-! ## `self-cache/day4-hash/geecache/geecache.go` -/

/-- The struct `Group`; `loads` records, in order, the keys `getter.Get` was called
with. -/
structure Group where
  name : String
  getter : Getter
  mainCache : cache
  loads : List String

/-- Embedding of `NewGroup(name, cacheBytes, getter)` on the registry `groups`; a nil getter
(`none`) panics. -/
def NewGroup (groups : List (String × Group)) (name : String) (cacheBytes : Int)
    (getter : Option Getter) : Option (Group × List (String × Group)) :=
  match getter with
  | none => none
  | some f =>
    let g : Group :=
      { name := name, getter := f, mainCache := { lru := none, cacheBytes := cacheBytes },
        loads := [] }
    some (g, (name, g) :: groups.filter (fun p => p.1 != name))

/-- Embedding of `Group.populateCache`. -/
def populateCache (g : Group) (key : String) (value : ByteView) : Option Group :=
  match g.mainCache.add key value with
  | none => none
  | some c => some { g with mainCache := c }

/-- Embedding of `Group.getLocally`. -/
def getLocally (g : Group) (key : String) : Option ((ByteView × Error) × Group) :=
  let r := g.getter key
  let g1 : Group := { g with loads := g.loads ++ [key] }
  match r.2 with
  | some e => some ((⟨[]⟩, some e), g1)
  | none =>
    let value : ByteView := { b := cloneBytes r.1 }
    match populateCache g1 key value with
    | none => none
    | some g2 => some ((value, none), g2)

/-- Embedding of `Group.load`. -/
def load (g : Group) (key : String) : Option ((ByteView × Error) × Group) :=
  getLocally g key

/-- Embedding of `Group.Get`. -/
def Get (g : Group) (key : String) : Option ((ByteView × Error) × Group) :=
  if key = "" then some ((⟨[]⟩, some "key is required"), g)
  else
    match g.mainCache.get key with
    | ((v, true), c1) => some ((v, none), { g with mainCache := c1 })
    | ((_, false), c1) => load { g with mainCache := c1 } key

/-- The loader of `TestGet`: a lookup in the map `db`. -/
def dbGetter : Getter :=
  fun key =>
    match [("Tom", "630"), ("Jack", "589"), ("Sam", "567")].lookup key with
    | some v => (bytesOf v, none)
    | none => ([], some (key ++ " key not exist"))

end day4

namespace day7

/-! ## `self-cache/day7-protobuf/geecache/geecache.go` -/

/-- Modelled from the spec: the interface `PeerGetter` of this revision and the
request and response messages it exchanges are not among the sources; by the spec a
peer getter takes the group name and the key and yields the value bytes or an
error. -/
abbrev PeerGetter := String → String → List UInt8 × Error

/-- The interface `PeerPicker`: `PickPeer(key) (peer PeerGetter, ok bool)`. -/
abbrev PeerPicker := String → Option PeerGetter

/-- The struct `Group`; `loads` records the keys `getter.Get` was called with and
`fetches` the (group, key) pairs sent to a remote peer, in order. -/
structure Group where
  name : String
  getter : Getter
  mainCache : cache
  peers : Option PeerPicker
  loader : singleflight.Group
  loads : List String
  fetches : List (String × String)

/-- Embedding of `NewGroup(name, cacheBytes, getter)` on the registry `groups`; a nil getter
(`none`) panics, before the lock is taken and the map written.  The lock `mu` is
taken to be free: `Group.Get` takes its read lock on a non-empty key and does not
release it, and `mu.Lock()` waits while a read lock is held. -/
def NewGroup (groups : List (String × Group)) (name : String) (cacheBytes : Int)
    (getter : Option Getter) : Option (Group × List (String × Group)) :=
  match getter with
  | none => none
  | some f =>
    let g : Group :=
      { name := name, getter := f, mainCache := { lru := none, cacheBytes := cacheBytes },
        peers := none, loader := { m := [] }, loads := [], fetches := [] }
    some (g, (name, g) :: groups.filter (fun p => p.1 != name))

/-- Embedding of `Group.populateCache`. -/
def populateCache (g : Group) (key : String) (value : ByteView) : Option Group :=
  match g.mainCache.add key value with
  | none => none
  | some c => some { g with mainCache := c }

/-- Embedding of `Group.getLocally`. -/
def getLocally (g : Group) (key : String) : Option ((ByteView × Error) × Group) :=
  let r := g.getter key
  let g1 : Group := { g with loads := g.loads ++ [key] }
  match r.2 with
  | some e => some ((⟨[]⟩, some e), g1)
  | none =>
    let value : ByteView := { b := cloneBytes r.1 }
    match populateCache g1 key value with
    | none => none
    | some g2 => some ((value, none), g2)

/-- Embedding of `Group.getFromPeer`. -/
def getFromPeer (g : Group) (peer : PeerGetter) (key : String) :
    (ByteView × Error) × Group :=
  let r := peer g.name key
  let g1 : Group := { g with fetches := g.fetches ++ [(g.name, key)] }
  match r.2 with
  | some e => ((⟨[]⟩, some e), g1)
  | none => (({ b := r.1 }, none), g1)

/-- The function passed to `g.loader.Do` by `load`. -/
def loadFn (key : String) (g : Group) : Option ((ByteView × Error) × Group) :=
  match g.peers with
  | none => getLocally g key
  | some pick =>
    match pick key with
    | none => getLocally g key
    | some peer =>
      match getFromPeer g peer key with
      | ((value, none), g1) => some ((value, none), g1)
      | ((_, some _), g1) => getLocally g1 key

/-- Embedding of `Group.load`. -/
def load (g : Group) (key : String) : Option ((ByteView × Error) × Group) :=
  match singleflight.Do g.loader key (loadFn key) g with
  | none => none
  | some ((viewi, err), sf, g1) =>
    let g2 : Group := { g1 with loader := sf }
    match err with
    | none => some ((viewi, none), g2)
    | some e => some ((⟨[]⟩, some e), g2)

/-- Embedding of `Group.Get`. -/
def Get (g : Group) (key : String) : Option ((ByteView × Error) × Group) :=
  if key = "" then some ((⟨[]⟩, some "key is required"), g)
  else
    match g.mainCache.get key with
    | ((v, true), c1) => some ((v, none), { g with mainCache := c1 })
    | ((_, false), c1) => load { g with mainCache := c1 } key

/-- Embedding of `Group.RegisterPeers(peers)`, where `none` is the nil interface value:
`if g.peers != nil { panic(...) }`, then `g.peers = peers`. -/
def RegisterPeers (g : Group) (peers : Option PeerPicker) : Option Group :=
  match g.peers with
  | some _ => none
  | none => some { g with peers := peers }

/-- Embedding of `GetGroup(name)` on the registry `groups`: the map read `groups[name]`,
nil (`none`) for a name without an entry. -/
def GetGroup (groups : List (String × Group)) (name : String) : Option Group :=
  groups.lookup name

/-- The loader of `TestGet`: a lookup in the map `db`. -/
def dbGetter : Getter :=
  fun key =>
    match [("Tom", "630"), ("Jack", "589"), ("Sam", "567")].lookup key with
    | some v => (bytesOf v, none)
    | none => ([], some (key ++ " key not exist"))

/-- A remote peer that answers every request with the bytes of `"630"`. -/
def scorePeer : PeerGetter :=
  fun _ _ => (bytesOf "630", none)

/-- A picker that sends every key to `scorePeer`. -/
def remotePicker : PeerPicker :=
  fun _ => some scorePeer

/-- The group `NewGroup("scores", 2048, dbGetter)` after
`RegisterPeers(remotePicker)`. -/
def remoteGroup : Group :=
  { name := "scores", getter := dbGetter, mainCache := { lru := none, cacheBytes := 2048 },
    peers := some remotePicker, loader := { m := [] }, loads := [], fetches := [] }

end day7

end geecache

namespace lru

/-- The cache after `Init(3, cb)` and `Add("a", "b")`. -/
def oversizedDemo : Cache String :=
  { maxBytes := 3, nBytes := 2, ll := [{ addr := 0, key := "a", value := "b" }],
    cahce := [("a", 0)], OnEvicted := true, calls := [("a", "b")], next := 1 }

end lru

namespace singleflight

/-- A function for `Do` that counts its runs: it returns the number of runs before
this one and adds one to the count. -/
def countingFn : Nat → Option (Nat × Nat) :=
  fun n => some (n, n + 1)

end singleflight

namespace geecache

namespace day7

/-- A remote peer whose fetch always fails. -/
def brokenPeer : PeerGetter :=
  fun _ _ => ([], some "server returned: 404 Not Found")

/-- The group `NewGroup("scores", 2048, dbGetter)` after `RegisterPeers` of a picker
that sends every key to `brokenPeer`. -/
def brokenPeerGroup : Group :=
  { name := "scores", getter := dbGetter, mainCache := { lru := none, cacheBytes := 2048 },
    peers := some (fun _ => some brokenPeer), loader := { m := [] }, loads := [],
    fetches := [] }

end day7

end geecache

namespace geecache

/-! ## `self-cache/day4-hash/geecache/http.go`, `self-cache/day5-multinodes/geecache/http.go`

In this layer `len` and string indices count characters; bytes and characters
coincide on the ASCII paths and addresses the transport deals with. -/

/-- Embedding of `strings.HasPrefix`. -/
def HasPrefix (s pre : String) : Bool :=
  pre.toList.isPrefixOf s.toList

/-- The slice expression `s[n:]`, which panics when `n` exceeds `len(s)`. -/
def sliceFrom (s : String) (n : Nat) : Option String :=
  if n ≤ s.length then some (String.mk (s.toList.drop n)) else none

/-- Embedding of `strings.SplitN(s, "/", 2)`: the whole string when it holds no
slash, otherwise the part before the first slash and the part after it. -/
def SplitN2 (s : String) : List String :=
  match s.toList.span (fun c => c != '/') with
  | (a, []) => [String.mk a]
  | (a, _ :: b) => [String.mk a, String.mk b]

/-- An HTTP response: the status code and the body written. -/
structure Response where
  status : Nat
  body : List UInt8
  deriving DecidableEq, Repr

/-- Embedding of `http.Error(w, msg, code)`: the status code and the message followed by a
newline. -/
def httpError (msg : String) (code : Nat) : Response :=
  { status := code, body := bytesOf (msg ++ "\n") }

/-- The constant `defaultBasePath`. -/
def defaultBasePath : String := "/_geecache"

namespace day4

/-- The struct `HTTPPool` of day4. -/
structure HTTPPool where
  self : String
  basePath : String
  deriving DecidableEq, Repr

/-- Embedding of `NewHTTPPool(self)`. -/
def NewHTTPPool (self : String) : HTTPPool :=
  { self := self, basePath := defaultBasePath }

/-- Embedding of `GetGroup(name)` on the registry `groups`. -/
def GetGroup (groups : List (String × Group)) (name : String) : Option Group :=
  groups.lookup name

/-- Lines 35-51 of `ServeHTTP`: the prefix check (a wrong prefix panics), the slice
`r.URL.Path[len(p.basePath):]` and the split into at most two parts; `some none`
stands for the answer 400. -/
def parseRequest (p : HTTPPool) (path : String) : Option (Option (String × String)) :=
  if !HasPrefix path p.basePath then none
  else
    match sliceFrom path p.basePath.length with
    | none => none
    | some url =>
      match SplitN2 url with
      | [groupname, key] => some (some (groupname, key))
      | _ => some none

/-- Embedding of `HTTPPool.ServeHTTP` of day4 for a request with decoded path `path`: the
response and the group after the call, `none` when the handler panics. -/
def ServeHTTP (p : HTTPPool) (groups : List (String × Group)) (path : String) :
    Option (Response × Option Group) :=
  match parseRequest p path with
  | none => none
  | some none => some (httpError "bad request" 400, none)
  | some (some (groupname, key)) =>
    match GetGroup groups groupname with
    | none => some (httpError ("no such group:" ++ groupname) 404, none)
    | some group =>
      match Get group key with
      | none => none
      | some ((_, some _), g1) => some (httpError "no such key" 500, some g1)
      | some ((view, none), g1) => some ({ status := 200, body := view.b }, some g1)

end day4

namespace day5

/-- The constant `defaultReplicas`. -/
def defaultReplicas : Int := 50

/-- The struct `httpGetter`. -/
structure httpGetter where
  baseURL : String
  deriving DecidableEq, Repr

/-- The struct `HTTPPool` of day5; `peers` is nil until `Set`. -/
structure HTTPPool where
  self : String
  basePath : String
  peers : Option consistenthash.Map
  httpGetters : List (String × httpGetter)

/-- Embedding of `NewHTTPPool(self)`. -/
def NewHTTPPool (self : String) : HTTPPool :=
  { self := self, basePath := defaultBasePath, peers := none, httpGetters := [] }

/-- Embedding of `HTTPPool.Set(peers ...)`. -/
def Set (p : HTTPPool) (peers : List String) : HTTPPool :=
  { p with
    peers := some (consistenthash.Add (consistenthash.New defaultReplicas none) peers)
    httpGetters :=
      peers.foldl (fun m peer => (peer, { baseURL := peer ++ p.basePath }) :: m) [] }

/-- Embedding of `HTTPPool.PickPeer(key)`; before `Set` the ring is nil and `p.peers.Get`
dereferences it. -/
def PickPeer (p : HTTPPool) (key : String) : Option (Option httpGetter) :=
  match p.peers with
  | none => none
  | some ring =>
    let peer := consistenthash.Get ring key
    if peer ≠ "" ∧ peer ≠ p.self then some (p.httpGetters.lookup peer) else some none

/-- The hexadecimal digit of a value below 16, upper case. -/
def hexDigit (n : Nat) : Char :=
  "0123456789ABCDEF".toList.getD n '0'

/-- Embedding of `url.QueryEscape`: letters, digits and the marks `-`, `_`, `.`, `~` are
kept, a space becomes `+`, every other byte becomes `%XX`. -/
def QueryEscape (s : String) : String :=
  String.mk (s.toList.flatMap (fun c =>
    if c.isAlphanum || c == '-' || c == '_' || c == '.' || c == '~' then [c]
    else if c == ' ' then ['+']
    else (String.utf8EncodeChar c).flatMap
      (fun b => ['%', hexDigit (b.toNat / 16), hexDigit (b.toNat % 16)])))

/-- The URL that `httpGetter.Get(group, key)` requests:
`fmt.Sprintf("%v%v/%v", h.baseURL, url.QueryEscape(group), url.QueryEscape(key))`. -/
def requestURL (h : httpGetter) (group key : String) : String :=
  h.baseURL ++ QueryEscape group ++ "/" ++ QueryEscape key

/-- Lines 51-67 of `ServeHTTP`: the prefix check (a wrong prefix panics), the slice
`r.URL.Path[len(p.basePath)+1:]` and the split into at most two parts; `some none`
stands for the answer 400. -/
def parseRequest (p : HTTPPool) (path : String) : Option (Option (String × String)) :=
  if !HasPrefix path p.basePath then none
  else
    match sliceFrom path (p.basePath.length + 1) with
    | none => none
    | some url =>
      match SplitN2 url with
      | [groupname, key] => some (some (groupname, key))
      | _ => some none

/-- Embedding of `HTTPPool.ServeHTTP` of day5 for a request with decoded path `path`.  The
group type of this revision is not among the sources: the registry lookup
`GetGroup` and the method `Group.Get` are parameters. -/
def ServeHTTP {G : Type} (p : HTTPPool) (GetGroup : String → Option G)
    (get : G → String → Option ((ByteView × Error) × G)) (path : String) :
    Option (Response × Option G) :=
  match parseRequest p path with
  | none => none
  | some none => some (httpError "bad request" 400, none)
  | some (some (groupname, key)) =>
    match GetGroup groupname with
    | none => some (httpError ("no such group:" ++ groupname) 404, none)
    | some group =>
      match get group key with
      | none => none
      | some ((_, some _), g1) => some (httpError "no such key" 500, some g1)
      | some ((view, none), g1) => some ({ status := 200, body := view.b }, some g1)

end day5

end geecache

namespace client

/-! ## `self-rpc/day2-client/client.go`

A sequential model of the client: the methods run one at a time, as they do under
the mutexes `sending` and `mu`.  The sequence counter, a `uint64`, is a `Nat`: the
`2^64` registrations that would wrap it do not occur. -/

/-- The struct `codec.Header`. -/
structure Header where
  ServiceMethod : String
  Seq : Nat
  Error : String
  deriving DecidableEq, Repr

/-- The struct `Call`: `id` is the identity of the `*Call`; the payloads `Args` and
`Reply` are left out, and the sends on `Done` are recorded by the client. -/
structure Call where
  id : Nat
  Seq : Nat
  ServiceMethod : String
  Error : Option String
  deriving DecidableEq, Repr

/-- The message of `ErrShutdown`. -/
def ErrShutdown : String := "connection is shut down"

/-- The struct `Client`.  `pending` is the Go map from sequence number to call, kept
as an association list; `delivered` records, in order, the calls sent on their
`Done` channel by `call.done()` (the channels are taken to have room); `receiving`
tells whether the goroutine started by `newClientCodec` is still in the loop of
`receive`. -/
structure Client where
  header : Header
  seq : Nat
  pending : List (Nat × Call)
  closing : Bool
  shutdown : Bool
  delivered : List Call
  receiving : Bool
  deriving DecidableEq, Repr

/-- Embedding of `newClientCodec(cc, opt)`: the counter starts at 1, the map is empty, and
the receive goroutine is started. -/
def newClientCodec : Client :=
  { header := { ServiceMethod := "", Seq := 0, Error := "" }, seq := 1, pending := [],
    closing := false, shutdown := false, delivered := [], receiving := true }

/-- Embedding of `call.done()`: the call is sent on its `Done` channel. -/
def done (c : Client) (call : Call) : Client :=
  { c with delivered := c.delivered ++ [call] }

/-- Embedding of `Client.registerCall`: the sequence number and error returned, and the
client afterwards. -/
def registerCall (c : Client) (call : Call) : (Nat × Option String) × Client :=
  if c.closing || c.shutdown then ((0, some ErrShutdown), c)
  else
    let call1 : Call := { call with Seq := c.seq }
    ((call1.Seq, none),
      { c with
        pending := (call1.Seq, call1) :: c.pending.filter (fun p => p.1 != call1.Seq)
        seq := c.seq + 1 })

/-- Embedding of `Client.removeCall`. -/
def removeCall (c : Client) (seq : Nat) : Option Call × Client :=
  (c.pending.lookup seq, { c with pending := c.pending.filter (fun p => p.1 != seq) })

/-- Embedding of `Client.terminateCalls`: `shutdown` is set and every call in `pending` gets
the error and is sent on its channel; the calls stay in the map.  The map is ranged
over in the order of the list. -/
def terminateCalls (c : Client) (err : String) : Client :=
  { c with
    shutdown := true
    pending := c.pending.map (fun p => (p.1, { p.2 with Error := some err }))
    delivered := c.delivered ++ c.pending.map (fun p => { p.2 with Error := some err }) }

/-- What the codec hands to one iteration of the loop of `receive`: a header read
without error, together with the error of `ReadBody` should the body be read, or the
error of `ReadHeader`. -/
inductive Incoming where
  | header (h : Header) (body : Option String)
  | fail (err : String)
  deriving DecidableEq, Repr

/-- One iteration of the loop of `receive`: the client afterwards and the value of
`err` the loop condition then tests. -/
def receiveStep (c : Client) : Incoming → Client × Option String
  | .fail err => (c, some err)
  | .header h body =>
    match removeCall c h.Seq with
    | (none, c1) => (c1, none)
    | (some call, c1) =>
      if h.Error ≠ "" then (done c1 { call with Error := some h.Error }, none)
      else
        match body with
        | none => (done c1 call, none)
        | some e => (done c1 { call with Error := some ("reading body" ++ e) }, some e)

/-- Embedding of `Client.send(call)`, where `write` is the error returned by `cc.Write`. -/
def send (c : Client) (call : Call) (write : Option String) : Client :=
  match registerCall c call with
  | ((_, some err), c1) => done c1 { call with Error := some err }
  | ((seq, none), c1) =>
    let c2 : Client :=
      { c1 with header := { ServiceMethod := call.ServiceMethod, Seq := seq, Error := "" } }
    match write with
    | none => c2
    | some e =>
      match removeCall c2 seq with
      | (none, c3) => c3
      | (some call1, c3) => done c3 { call1 with Error := some e }

/-- Embedding of `Client.Close`: the error returned and the client afterwards. -/
def Close (c : Client) : Option String × Client :=
  if c.closing then (some ErrShutdown, c) else (none, { c with closing := true })

/-- What happens to a client, one thing at a time: a caller runs `send` on a fresh
call, the receive goroutine runs one iteration of its loop, or a caller runs
`Close`. -/
inductive Event where
  | send (call : Call) (write : Option String)
  | incoming (inc : Incoming)
  | close
  deriving DecidableEq, Repr

/-- The effect of one event.  An iteration of the receive loop that leaves `err`
set ends the loop: `terminateCalls(err)` runs and the goroutine returns; afterwards
nothing reads the connection. -/
def stepEvent (c : Client) : Event → Client
  | .send call write => send c call write
  | .incoming inc =>
    if c.receiving then
      match receiveStep c inc with
      | (c1, none) => c1
      | (c1, some err) => { terminateCalls c1 err with receiving := false }
    else c
  | .close => (Close c).2

/-- A history of events, left to right. -/
def runEvents (c : Client) : List Event → Client
  | [] => c
  | ev :: evs => runEvents (stepEvent c ev) evs

/-- The identities of the calls handed to `send` in a history. -/
def sentIds : List Event → List Nat
  | [] => []
  | .send call _ :: evs => call.id :: sentIds evs
  | _ :: evs => sentIds evs

/-- The sequence numbers returned by the successful `registerCall`s of a history,
in order. -/
def registered (c : Client) : List Event → List Nat
  | [] => []
  | .send call write :: evs =>
    match (registerCall c call).1 with
    | (seq, none) => seq :: registered (stepEvent c (.send call write)) evs
    | (_, some _) => registered (stepEvent c (.send call write)) evs
  | ev :: evs => registered (stepEvent c ev) evs

/-- The identities of the calls in `pending`. -/
def pendingIds (c : Client) : List Nat :=
  c.pending.map (fun p => p.2.id)

/-- The identities of the calls delivered so far. -/
def deliveredIds (c : Client) : List Nat :=
  c.delivered.map (fun call => call.id)

/-- Invariant of a client with respect to the identities `S` of the calls handed to
`send` so far: the keys of `pending` are distinct and below the counter, the receive
loop runs only while `shutdown` is unset, and `S` is made up of the pending and the
delivered calls before `terminateCalls`, of the delivered calls after it. -/
structure Inv (c : Client) (S : List Nat) : Prop where
  keys : (c.pending.map Prod.fst).Nodup
  keysLt : ∀ p ∈ c.pending, p.1 < c.seq
  alive : c.receiving = true → c.shutdown = false
  live : c.shutdown = false → (pendingIds c ++ deliveredIds c).Perm S
  dead : c.shutdown = true → (deliveredIds c).Perm S

/-- A history with three calls: the second fails to be written, a reply for the
first arrives, the server goes away, and a fourth call is made afterwards. -/
def demoHistory : List Event :=
  [.send { id := 10, Seq := 0, ServiceMethod := "Foo.Sum", Error := none } none,
    .send { id := 11, Seq := 0, ServiceMethod := "Foo.Sum", Error := none } (some "broken pipe"),
    .send { id := 12, Seq := 0, ServiceMethod := "Foo.Sum", Error := none } none,
    .incoming (.header { ServiceMethod := "Foo.Sum", Seq := 1, Error := "" } none),
    .incoming (.fail "EOF"),
    .send { id := 13, Seq := 0, ServiceMethod := "Foo.Sum", Error := none } none]

end client

namespace geecache

namespace day7

/-- The group `NewGroup("scores", 2048, dbGetter)`, before any registration of
peers. -/
def scoresGroup : Group :=
  { name := "scores", getter := dbGetter, mainCache := { lru := none, cacheBytes := 2048 },
    peers := none, loader := { m := [] }, loads := [], fetches := [] }

end day7

end geecache

namespace lru

/-- A cache holding one entry whose field `OnEvicted` is nil. -/
def nilCallbackDemo : Cache String :=
  { maxBytes := 10, nBytes := 2, ll := [{ addr := 0, key := "a", value := "b" }],
    cahce := [("a", 0)], OnEvicted := false, calls := [], next := 1 }

/-- The calls of `TestOnEvicted` after `Init(10, callback)`. -/
def onEvictedOps : List (Op String) :=
  [.add "key1" "123456", .add "k2" "k2"]

end lru

namespace codec

/-! ## `self-rpc/day2-client/codec/codec.go`, `self-rpc/day1-codec/codec/gob.go` -/

/-- The constant `GobType` of the string type `Type`. -/
def GobType : String := "application/gob"

/-- The constant `JsonType` of the string type `Type`. -/
def JsonType : String := "application/json"

/-- The values of type `NewCodecFunc` the program has: the constructor `NewGobCodec` of
gob.go is the only function of that type. -/
inductive NewCodecFunc where
  | NewGobCodec
  deriving DecidableEq, Repr

/-- The variable `NewCodecFuncMap` after `init()`: a fresh map with the one entry
`NewCodecFuncMap[GobType] = NewGobCodec`.  A key without an entry reads as nil. -/
def NewCodecFuncMap : List (String × NewCodecFunc) :=
  [(GobType, .NewGobCodec)]

/-- A response body handed to `Write`: a string, or the value `invalidRequest` of
server.go, an empty struct. -/
inductive Body where
  | reply (s : String)
  | invalidRequest
  deriving DecidableEq, Repr

/-- A message written to a connection by `Write`: a header followed by a body. -/
structure Message where
  h : client.Header
  body : Body
  deriving DecidableEq, Repr

/-- Embedding of `GobCodec.Write(h, body)` on the messages written so far, the encoder
not failing: header and body are encoded, then the log line evaluates
`body.(string)`, a type assertion that panics on a body that is not a string. -/
def Write (written : List Message) (h : client.Header) (body : Body) :
    Option (List Message) :=
  match body with
  | .reply _ => some (written ++ [{ h := h, body := body }])
  | .invalidRequest => none

/-- One value on a connection as the decoder of the reading side meets it: an
encoded header or an encoded body. -/
inductive Frame where
  | header (h : client.Header)
  | body (b : String)
  deriving DecidableEq, Repr

/-- The error of the decoder on a value of another type than the one asked for. -/
def typeMismatch : String := "gob: type mismatch"

/-- Embedding of `GobCodec.ReadHeader(&h)`, that is `dec.Decode(h)`, on the values still to be read:
the next value is consumed; it is the header when it is one, at the end of the input
the error is `io.EOF`, and a body cannot be decoded into a header. -/
def ReadHeader : List Frame → Except String client.Header × List Frame
  | [] => (.error "EOF", [])
  | .header h :: rest => (.ok h, rest)
  | .body _ :: rest => (.error typeMismatch, rest)

/-- Embedding of `GobCodec.ReadBody(body)`, that is `dec.Decode(body)`: the error returned
and the values still to be read. -/
def ReadBody : List Frame → Option String × List Frame
  | [] => (some "EOF", [])
  | .body _ :: rest => (none, rest)
  | .header _ :: rest => (some typeMismatch, rest)

end codec

namespace client

/-! ## `NewClient` of `self-rpc/day2-client/client.go`, and `self-rpc/day2-client/server.go` -/

/-- The constant `MagicNumber`. -/
def MagicNumber : Int := 0x3bef5c

/-- The struct `Option` of server.go, named `Options` here. -/
structure Options where
  MagicNumber : Int
  CodecType : String
  deriving DecidableEq, Repr

/-- The variable `DefaultOption`. -/
def DefaultOption : Options :=
  { MagicNumber := MagicNumber, CodecType := codec.GobType }

/-- Embedding of `NewClient(conn, opt)`; `encode` is the error of writing the JSON form of
`opt` to the connection.  The result is the error returned or the client; a failed
write ends in `log.Panicln` (`none`). -/
def NewClient (opt : Options) (encode : Option String) : Option (Except String Client) :=
  match codec.NewCodecFuncMap.lookup opt.CodecType with
  | none => some (.error ("invalid codec type " ++ opt.CodecType))
  | some _ =>
    match encode with
    | some _ => none
    | none => some (.ok newClientCodec)

/-- The struct `request`: the header and `argv`, the string `ReadBody` decodes into;
`replyv` is computed by the handler. -/
structure request where
  h : Header
  argv : String
  deriving DecidableEq, Repr

/-- What the codec hands to one call of `readRequest`: a header read without error
together with the outcome of `ReadBody` (the string decoded, or an error), or the
error of `ReadHeader`, where `eof` tells whether it is `io.EOF` or
`io.ErrUnexpectedEOF`. -/
inductive Arriving where
  | header (h : Header) (body : Except String String)
  | fail (eof : Bool) (err : String)
  deriving Repr

/-- Embedding of `Server.readRequestHeader`: the header or the error; an error other than
the two end-of-input errors ends in `log.Panicln` (`none`). -/
def readRequestHeader : Arriving → Option (Except String Header)
  | .header h _ => some (.ok h)
  | .fail eof err => if !eof then none else some (.error err)

/-- Embedding of `Server.readRequest`: the pair `(req, err)` returned.  An error of
`ReadBody` is logged and `req, nil` is returned all the same, `argv` keeping the
empty string it was created with. -/
def readRequest (a : Arriving) : Option (Option request × Option String) :=
  match readRequestHeader a with
  | none => none
  | some (.error err) => some (none, some err)
  | some (.ok h) =>
    match a with
    | .header _ (.ok argv) => some (some { h := h, argv := argv }, none)
    | _ => some (some { h := h, argv := "" }, none)

/-- Embedding of `Server.sendResponse` on the messages written so far. -/
def sendResponse (written : List codec.Message) (h : Header) (body : codec.Body) :
    Option (List codec.Message) :=
  codec.Write written h body

/-- Embedding of `Server.handleRequest`: the reply is `fmt.Sprintf("geerpc resp %d",
req.h.Seq)`. -/
def handleRequest (written : List codec.Message) (req : request) :
    Option (List codec.Message) :=
  sendResponse written req.h (.reply ("geerpc resp " ++ toString req.h.Seq))

/-- Embedding of `Server.serveCodec` on the requests arriving on the connection, in order,
giving the messages written (`none` for a panic).  Each handler is run to its end
where the loop starts it, and the input ends with the connection closed, where
`ReadHeader` fails with `io.EOF` and the loop is left. -/
def serveCodec : List Arriving → List codec.Message → Option (List codec.Message)
  | [], written => some written
  | a :: rest, written =>
    match readRequest a with
    | none => none
    | some (req, some err) =>
      match req with
      | none => some written
      | some rq =>
        match sendResponse written { rq.h with Error := err } .invalidRequest with
        | none => none
        | some written1 => serveCodec rest written1
    | some (none, none) => none
    | some (some rq, none) =>
      match handleRequest written rq with
      | none => none
      | some written1 => serveCodec rest written1

/-- What `ServeConn` does with a connection: it returns at the options that do not
decode, at a wrong magic number, at a codec type without constructor, or after
`serveCodec`, with the messages written. -/
inductive Served where
  | optionsError
  | invalidMagic
  | invalidCodec
  | served (written : List codec.Message)
  deriving DecidableEq, Repr

/-- Embedding of `Server.ServeConn(conn)`; `decoded` is the outcome of decoding the JSON
options at the start of the connection, `reqs` the requests arriving after them. -/
def ServeConn (decoded : Except String Options) (reqs : List Arriving) : Option Served :=
  match decoded with
  | .error _ => some .optionsError
  | .ok opt =>
    if opt.MagicNumber ≠ MagicNumber then some .invalidMagic
    else
      match codec.NewCodecFuncMap.lookup opt.CodecType with
      | none => some .invalidCodec
      | some _ => (serveCodec reqs []).map .served

/-- The options of a handshake asking for the JSON codec. -/
def jsonOption : Options :=
  { MagicNumber := MagicNumber, CodecType := codec.JsonType }

/-- A request for `Foo.Sum` with sequence number 7. -/
def sumHeader : Header :=
  { ServiceMethod := "Foo.Sum", Seq := 7, Error := "" }

/-! ### The loop of `receive` on the values of a connection -/

/-- One iteration of the loop of `receive` reading from the connection `conn`: the
client afterwards, the value of `err` the loop condition then tests, and the values
still to be read. -/
def receiveOnce (c : Client) (conn : List codec.Frame) :
    (Client × Option String) × List codec.Frame :=
  match codec.ReadHeader conn with
  | (.error e, rest) => ((c, some e), rest)
  | (.ok h, rest) =>
    match removeCall c h.Seq with
    | (none, c1) => ((c1, none), rest)
    | (some call, c1) =>
      if h.Error ≠ "" then ((done c1 { call with Error := some h.Error }, none), rest)
      else
        match codec.ReadBody rest with
        | (none, rest1) => ((done c1 call, none), rest1)
        | (some e, rest1) =>
          ((done c1 { call with Error := some ("reading body" ++ e) }, some e), rest1)

/-- The loop of `receive` followed by `terminateCalls(err)`.  Every iteration that leaves
`err` nil has consumed a value, so `len(conn) + 1` iterations are never used up
(`receiveLoop_fuel`). -/
def receiveLoop : Nat → Client → List codec.Frame → Client
  | 0, c, _ => c
  | fuel + 1, c, conn =>
    match receiveOnce c conn with
    | ((c1, none), rest) => receiveLoop fuel c1 rest
    | ((c1, some err), _) => { terminateCalls c1 err with receiving := false }

/-- Embedding of `Client.receive` on a connection that delivers the values `conn` and is then
closed. -/
def receive (c : Client) (conn : List codec.Frame) : Client :=
  receiveLoop (conn.length + 1) c conn

/-- The outcome of `ReadHeader` and, should the body be read, of `ReadBody`, as one
iteration of the loop meets them. -/
def incomingOf (conn : List codec.Frame) : Incoming :=
  match codec.ReadHeader conn with
  | (.error e, _) => .fail e
  | (.ok h, rest) => .header h (codec.ReadBody rest).1

/-- A client with one call pending under sequence number 1. -/
def oneCallPending : Client :=
  send newClientCodec { id := 10, Seq := 0, ServiceMethod := "Foo.Sum", Error := none } none

/-- A connection delivering a response for sequence number 9 and then the response
for sequence number 1. -/
def strayResponse : List codec.Frame :=
  [.header { ServiceMethod := "Foo.Sum", Seq := 9, Error := "" }, .body "geerpc resp 9",
    .header { ServiceMethod := "Foo.Sum", Seq := 1, Error := "" }, .body "geerpc resp 1"]

end client

namespace singleflight

/-- How a call of `Do` by a single caller ends, with the coordinator it leaves
behind: it returns, `fn` panics and the panic leaves `Do`, or the caller waits on the
latch of a call in flight. -/
inductive Outcome (σ R : Type) where
  | returned (r : R) (g : Group) (s : σ)
  | panicked (g : Group)
  | waits (g : Group)
  deriving DecidableEq, Repr

/-- Embedding of `Group.Do` run by a single caller, as `Do` above, keeping the coordinator on every
exit.  The statements `c.wg.Done()` and `delete(g.m, key)` follow the call of `fn`
and are not deferred: a panic of `fn` leaves `Do` before them. -/
def DoOutcome {σ R : Type} (g : Group) (key : String) (fn : σ → Option (R × σ)) (s : σ) :
    Outcome σ R :=
  if key ∈ g.m then .waits g
  else
    let g1 : Group := { m := key :: g.m }
    match fn s with
    | none => .panicked g1
    | some (r, s1) => .returned r { m := g1.m.filter (fun k => k != key) } s1

/-- A function for `Do` that panics. -/
def panickingFn : Nat → Option (Nat × Nat) :=
  fun _ => none

end singleflight

namespace geecache

namespace day4

/-- A sequence of `Get` calls on a group, left to right, the results dropped; `none`
as soon as one of them does not return. -/
def getAll (g : Group) : List String → Option Group
  | [] => some g
  | key :: keys =>
    match Get g key with
    | none => none
    | some (_, g1) => getAll g1 keys

/-- Invariant of a group: the shard is well formed and every entry of its store
holds the bytes the loader returns, without error, for the key of the entry. -/
def Inv (g : Group) : Prop :=
  g.mainCache.WF ∧
    ∀ l, g.mainCache.lru = some l → ∀ e ∈ l.entries, g.getter e.1 = (e.2.b, none)

/-- The group `NewGroup("scores", 2048, loader)` of `TestGet`. -/
def scoresGroup : Group :=
  { name := "scores", getter := dbGetter, mainCache := { lru := none, cacheBytes := 2048 },
    loads := [] }

/-- The group `scoresGroup` after `Get("Jack")`. -/
def scoresAfterJack : Group :=
  { name := "scores", getter := dbGetter,
    mainCache :=
      { lru := some { maxBytes := 2048, usedBytes := 7,
                      entries := [("Jack", { b := bytesOf "589" })],
                      OnEvicted := false, calls := [] },
        cacheBytes := 2048 },
    loads := ["Jack"] }

end day4

end geecache

/-! ## Properties of the LRU store -/

namespace lru

variable {V : Type}

theorem mapGet_mapDelete (m : List (String × Nat)) (key k : String) :
    mapGet (mapDelete m key) k = if k = key then none else mapGet m k := by
  induction m with
  | nil => simp [mapGet, mapDelete]
  | cons p m ih =>
    obtain ⟨k1, a1⟩ := p
    simp only [mapGet, mapDelete] at ih ⊢
    by_cases h1 : k1 = key
    · subst h1
      simp only [List.filter_cons, bne_self_eq_false, Bool.false_eq_true, if_false, ih]
      by_cases h2 : k = k1
      · simp [h2]
      · have : (k == k1) = false := by simpa using h2
        simp [h2, List.lookup_cons, this]
    · have hne : (k1 != key) = true := by simpa using h1
      simp only [List.filter_cons, hne, if_true, List.lookup_cons, ih]
      by_cases h2 : k = k1
      · subst h2
        simp [h1]
      · have : (k == k1) = false := by simpa using h2
        simp [this]

theorem mapGet_mapSet (m : List (String × Nat)) (key k : String) (a : Nat) :
    mapGet (mapSet m key a) k = if k = key then some a else mapGet m k := by
  have h := mapGet_mapDelete m key k
  simp only [mapGet, mapSet, List.lookup_cons] at h ⊢
  by_cases h2 : k = key
  · subst h2
    simp
  · have : (k == key) = false := by simpa using h2
    simp [this, h, h2]

theorem mapDelete_keys_nodup (m : List (String × Nat)) (key : String)
    (h : (m.map Prod.fst).Nodup) : ((mapDelete m key).map Prod.fst).Nodup :=
  h.sublist ((List.filter_sublist m).map Prod.fst)

theorem mapDelete_key_not_mem (m : List (String × Nat)) (key : String) :
    key ∉ (mapDelete m key).map Prod.fst := by
  simp [mapDelete, List.mem_map, List.mem_filter]

theorem mapSet_keys_nodup (m : List (String × Nat)) (key : String) (a : Nat)
    (h : (m.map Prod.fst).Nodup) : ((mapSet m key a).map Prod.fst).Nodup := by
  simp only [mapSet, List.map_cons, List.nodup_cons]
  exact ⟨mapDelete_key_not_mem m key, mapDelete_keys_nodup m key h⟩

theorem sumBytes_append [Value V] (l₁ l₂ : List (Element V)) :
    sumBytes (l₁ ++ l₂) = sumBytes l₁ + sumBytes l₂ := by
  simp [sumBytes, List.sum_append]

theorem sumBytes_cons [Value V] (e : Element V) (l : List (Element V)) :
    sumBytes (e :: l) = (strLen e.key + Value.Len e.value) + sumBytes l := by
  simp [sumBytes]

theorem WF_Init [Value V] (maxBytes : Int) (cb : Bool) :
    WF (Init maxBytes cb : Cache V) := by
  constructor <;> simp [Init, sumBytes, mapGet]

theorem WF_callOnEvicted [Value V] (c c1 : Cache V) (k : String) (v : V)
    (h : callOnEvicted c k v = some c1) (wf : WF c) : WF c1 := by
  unfold callOnEvicted at h
  split at h
  · cases h
    exact ⟨wf.bytes, wf.keysNodup, wf.addrNodup, wf.fresh, wf.mapList, wf.mapNodup⟩
  · cases h

/-- Unlinking the back element, deleting its key from the map and subtracting its
size (the body shared by `RemoveOldest` and the full-cache branch of `Add`)
preserves the invariant. -/
theorem WF_dropBack [Value V] (c : Cache V) (ele : Element V)
    (hl : c.ll.getLast? = some ele) (wf : WF c) :
    WF { c with
      ll := c.ll.dropLast
      cahce := mapDelete c.cahce ele.key
      nBytes := c.nBytes - (Value.Len ele.value + strLen ele.key) } := by
  have hsplit : c.ll.dropLast ++ [ele] = c.ll :=
    List.dropLast_append_getLast? ele (by simp [hl])
  have hb := wf.bytes
  have hk := wf.keysNodup
  have ha := wf.addrNodup
  have hf := wf.fresh
  have hm := wf.mapList
  rw [← hsplit] at hb hk ha hf hm
  rw [List.map_append, List.nodup_append] at hk ha
  refine ⟨?_, hk.1, ha.1, ?_, ?_, mapDelete_keys_nodup _ _ wf.mapNodup⟩
  · show c.nBytes - (Value.Len ele.value + strLen ele.key) = sumBytes c.ll.dropLast
    rw [hb, sumBytes_append, sumBytes_cons]
    simp [sumBytes]
    ring
  · intro e he
    exact hf e (List.mem_append_left _ he)
  · intro k a
    show mapGet (mapDelete c.cahce ele.key) k = some a ↔ _
    rw [mapGet_mapDelete]
    have hdisj := hk.2.2
    constructor
    · intro h
      split at h
      · cases h
      · rename_i hne
        obtain ⟨e, he, hek, hea⟩ := (hm k a).1 h
        rcases List.mem_append.1 he with he | he
        · exact ⟨e, he, hek, hea⟩
        · simp at he
          subst he
          exact absurd hek.symm hne
    · rintro ⟨e, he, hek, hea⟩
      have hne : k ≠ ele.key := by
        intro heq
        apply hdisj (a := k)
        · exact List.mem_map.2 ⟨e, he, hek⟩
        · simp [heq]
      rw [if_neg hne]
      exact (hm k a).2 ⟨e, List.mem_append_left _ he, hek, hea⟩

theorem WF_RemoveOldest [Value V] (c c1 : Cache V)
    (h : RemoveOldest c = some c1) (wf : WF c) : WF c1 := by
  unfold RemoveOldest at h
  split at h
  · cases h
  · rename_i ele hl
    exact WF_callOnEvicted _ _ _ _ h (WF_dropBack c ele hl wf)

theorem WF_evictLoop [Value V] (fuel : Nat) (c c1 : Cache V)
    (h : evictLoop fuel c = some c1) (wf : WF c) : WF c1 := by
  induction fuel generalizing c with
  | zero => simp [evictLoop] at h
  | succ n ih =>
    unfold evictLoop at h
    split at h
    · split at h
      · cases h
      · rename_i c2 h2
        exact ih c2 h (WF_RemoveOldest c c2 h2 wf)
    · cases h
      exact wf

/-- A pointer found by `deref` splits the list around the element it points to;
when addresses are distinct no other element has that address. -/
theorem deref_split (ll : List (Element V)) (a : Nat) (ele : Element V)
    (h : deref ll a = some ele) (hnd : (ll.map (fun e => e.addr)).Nodup) :
    ∃ as bs, ll = as ++ ele :: bs ∧ ele.addr = a ∧
      (∀ x ∈ as, x.addr ≠ a) ∧ (∀ x ∈ bs, x.addr ≠ a) := by
  unfold deref at h
  obtain ⟨hp, as, bs, hll, has⟩ := List.find?_eq_some.1 h
  have hea : ele.addr = a := by simpa using hp
  refine ⟨as, bs, hll, hea, ?_, ?_⟩
  · intro x hx
    have := has x hx
    simpa using this
  · intro x hx hxa
    rw [hll, List.map_append, List.map_cons, List.nodup_append] at hnd
    have h1 := hnd.2.1
    rw [List.nodup_cons] at h1
    apply h1.1
    rw [hea, ← hxa]
    exact List.mem_map.2 ⟨x, hx, rfl⟩

theorem setValue_id (l : List (Element V)) (a : Nat) (value : V)
    (h : ∀ x ∈ l, x.addr ≠ a) : setValue l a value = l := by
  unfold setValue
  conv_rhs => rw [← List.map_id l]
  apply List.map_congr_left
  intro x hx
  have : (x.addr == a) = false := by simpa using h x hx
  simp [this]

/-- The list after the update branch of `Add`: the element found through the map is
relinked at the front carrying the new value, the others keep their order. -/
theorem update_ll (as bs : List (Element V)) (a : Nat) (ele : Element V) (value : V)
    (hea : ele.addr = a) (has : ∀ x ∈ as, x.addr ≠ a) (hbs : ∀ x ∈ bs, x.addr ≠ a) :
    setValue (MoveToFront (as ++ ele :: bs) a) a value =
      { ele with value := value } :: (as ++ bs) := by
  have hfind : deref (as ++ ele :: bs) a = some ele := by
    unfold deref
    rw [List.find?_eq_some]
    refine ⟨by simp [hea], as, bs, rfl, ?_⟩
    intro x hx
    simpa using has x hx
  have her : (as ++ ele :: bs).eraseP (fun x => x.addr == a) = as ++ bs := by
    rw [List.eraseP_append_right]
    · simp [List.eraseP_cons, hea]
    · intro b hb
      simpa using has b hb
  unfold MoveToFront
  rw [hfind]
  simp only [her]
  have hall : ∀ x ∈ as ++ bs, x.addr ≠ a := by
    intro x hx
    rcases List.mem_append.1 hx with hx | hx
    · exact has x hx
    · exact hbs x hx
  show setValue (ele :: (as ++ bs)) a value = _
  have : setValue (ele :: (as ++ bs)) a value
      = (if ele.addr == a then { ele with value := value } else ele) :: setValue (as ++ bs) a value := by
    simp [setValue]
  rw [this, setValue_id _ _ _ hall]
  simp [hea]

theorem WF_Add [Value V] (c c1 : Cache V) (key : String) (value : V)
    (h : Add c key value = some c1) (wf : WF c) : WF c1 := by
  unfold Add at h
  split at h
  · -- the key is resident
    rename_i a hget
    split at h
    · cases h
    · rename_i ele hd
      obtain ⟨as, bs, hll, hea, has, hbs⟩ := deref_split c.ll a ele hd wf.addrNodup
      have hkey : ele.key = key := by
        obtain ⟨e, he, hek, hea2⟩ := (wf.mapList key a).1 hget
        have hmem : ele ∈ c.ll := by rw [hll]; simp
        have : e = ele := by
          have hinj := List.inj_on_of_nodup_map wf.addrNodup
          exact hinj he hmem (by rw [hea2, hea])
        rw [← this]; exact hek
      simp only [Option.some.injEq] at h
      subst h
      have hb := wf.bytes
      have hk := wf.keysNodup
      have ha := wf.addrNodup
      have hf := wf.fresh
      have hm := wf.mapList
      rw [hll] at hb hk ha hf hm
      refine ⟨?_, ?_, ?_, ?_, ?_, wf.mapNodup⟩
      · show c.nBytes + (Value.Len value - Value.Len ele.value)
          = sumBytes (setValue (MoveToFront c.ll a) a value)
        rw [hll, update_ll as bs a ele value hea has hbs, hb]
        simp only [sumBytes_append, sumBytes_cons]
        ring
      · show ((setValue (MoveToFront c.ll a) a value).map (fun e => e.key)).Nodup
        rw [hll, update_ll as bs a ele value hea has hbs]
        have hp : (as ++ ele :: bs).map (fun e => e.key)
            |>.Perm (({ ele with value := value } :: (as ++ bs)).map (fun e => e.key)) := by
          simp only [List.map_append, List.map_cons]
          exact List.perm_middle
        exact hp.nodup_iff.1 hk
      · show ((setValue (MoveToFront c.ll a) a value).map (fun e => e.addr)).Nodup
        rw [hll, update_ll as bs a ele value hea has hbs]
        have hp : (as ++ ele :: bs).map (fun e => e.addr)
            |>.Perm (({ ele with value := value } :: (as ++ bs)).map (fun e => e.addr)) := by
          simp only [List.map_append, List.map_cons]
          exact List.perm_middle
        exact hp.nodup_iff.1 ha
      · intro e he
        change e ∈ setValue (MoveToFront c.ll a) a value at he
        rw [hll, update_ll as bs a ele value hea has hbs] at he
        show e.addr < c.next
        rcases List.mem_cons.1 he with he | he
        · subst he
          exact hf ele (by simp)
        · apply hf e
          rcases List.mem_append.1 he with he | he
          · simp [he]
          · simp [he]
      · intro k a1
        show mapGet c.cahce k = some a1 ↔
          ∃ e ∈ setValue (MoveToFront c.ll a) a value, e.key = k ∧ e.addr = a1
        rw [hll, update_ll as bs a ele value hea has hbs, hm k a1]
        constructor
        · rintro ⟨e, he, hek, hea1⟩
          rcases List.mem_append.1 he with he | he
          · exact ⟨e, by simp [he], hek, hea1⟩
          · rcases List.mem_cons.1 he with he | he
            · subst he
              exact ⟨{ e with value := value }, by simp, hek, hea1⟩
            · exact ⟨e, by simp [he], hek, hea1⟩
        · rintro ⟨e, he, hek, hea1⟩
          rcases List.mem_cons.1 he with he | he
          · subst he
            exact ⟨ele, by simp, hek, hea1⟩
          · rcases List.mem_append.1 he with he | he
            · exact ⟨e, by simp [he], hek, hea1⟩
            · exact ⟨e, by simp [he], hek, hea1⟩
  · -- the key is not resident
    rename_i hget
    split at h
    · cases h
    · rename_i c0 hfull
      have hc0 : WF c0 ∧ mapGet c0.cahce key = none := by
        unfold dropIfFull at hfull
        split at hfull
        · split at hfull
          · cases hfull
          · rename_i ele hl
            cases hfull
            refine ⟨WF_dropBack c ele hl wf, ?_⟩
            show mapGet (mapDelete c.cahce ele.key) key = none
            rw [mapGet_mapDelete, hget]
            simp
        · cases hfull
          exact ⟨wf, hget⟩
      obtain ⟨wf0, hget0⟩ := hc0
      simp only at h
      split at h
      · cases h
      · rename_i c3 hloop
        refine WF_callOnEvicted _ _ _ _ h (WF_evictLoop _ _ _ hloop ?_)
        have hnk : ∀ e ∈ c0.ll, e.key ≠ key := by
          intro e he hek
          have := (wf0.mapList key e.addr).2 ⟨e, he, hek, rfl⟩
          rw [hget0] at this
          cases this
        refine ⟨?_, ?_, ?_, ?_, ?_, mapSet_keys_nodup _ _ _ wf0.mapNodup⟩
        · show c0.nBytes + (Value.Len value + strLen key) = sumBytes (_ :: c0.ll)
          rw [sumBytes_cons, wf0.bytes]
          ring
        · show ((_ :: c0.ll).map (fun e => e.key)).Nodup
          rw [List.map_cons, List.nodup_cons]
          refine ⟨?_, wf0.keysNodup⟩
          intro hmem
          obtain ⟨e, he, hek⟩ := List.mem_map.1 hmem
          exact hnk e he hek
        · show ((_ :: c0.ll).map (fun e => e.addr)).Nodup
          rw [List.map_cons, List.nodup_cons]
          refine ⟨?_, wf0.addrNodup⟩
          intro hmem
          obtain ⟨e, he, hea⟩ := List.mem_map.1 hmem
          have := wf0.fresh e he
          simp only at hea
          omega
        · intro e he
          show e.addr < c0.next + 1
          rcases List.mem_cons.1 he with he | he
          · subst he
            simp
          · have := wf0.fresh e he
            omega
        · intro k a1
          show mapGet (mapSet c0.cahce key c0.next) k = some a1 ↔
            ∃ e ∈ (_ :: c0.ll), e.key = k ∧ e.addr = a1
          rw [mapGet_mapSet]
          constructor
          · intro hh
            split at hh
            · rename_i hk
              simp only [Option.some.injEq] at hh
              exact ⟨_, List.mem_cons_self _ _, hk.symm, hh⟩
            · obtain ⟨e, he, hek, hea⟩ := (wf0.mapList k a1).1 hh
              exact ⟨e, List.mem_cons_of_mem _ he, hek, hea⟩
          · rintro ⟨e, he, hek, hea⟩
            rcases List.mem_cons.1 he with he | he
            · subst he
              simp only at hek hea
              simp [hek.symm, hea]
            · have hne : k ≠ key := by
                intro hk
                exact hnk e he (hek.trans hk)
              rw [if_neg hne]
              exact (wf0.mapList k a1).2 ⟨e, he, hek, hea⟩

theorem WF_step [Value V] (c c1 : Cache V) (op : Op V)
    (h : step c op = some c1) (wf : WF c) : WF c1 := by
  cases op with
  | add k v => exact WF_Add c c1 k v h wf
  | get k =>
    simp only [step, Option.some.injEq] at h
    exact h ▸ wf
  | removeOldest => exact WF_RemoveOldest c c1 h wf

theorem WF_run [Value V] (ops : List (Op V)) (c c1 : Cache V)
    (h : run c ops = some c1) (wf : WF c) : WF c1 := by
  induction ops generalizing c with
  | nil =>
    simp only [run, Option.some.injEq] at h
    exact h ▸ wf
  | cons op ops ih =>
    unfold run at h
    split at h
    · cases h
    · rename_i c2 h2
      exact ih c2 h (WF_step c c2 op h2 wf)

/-- On a well-formed cache a pointer read from the map points to a linked element
carrying the key it was read under. -/
theorem deref_of_mapGet [Value V] (c : Cache V) (key : String) (a : Nat) (wf : WF c)
    (h : mapGet c.cahce key = some a) :
    ∃ e, deref c.ll a = some e ∧ e.key = key ∧ e.addr = a := by
  obtain ⟨e, he, hek, hea⟩ := (wf.mapList key a).1 h
  cases hd : deref c.ll a with
  | none =>
    unfold deref at hd
    have := (List.find?_eq_none.1 hd) e he
    simp [hea] at this
  | some e1 =>
    obtain ⟨as, bs, hll, hea1, -, -⟩ := deref_split c.ll a e1 hd wf.addrNodup
    have hmem : e1 ∈ c.ll := by rw [hll]; simp
    have : e = e1 := List.inj_on_of_nodup_map wf.addrNodup he hmem (by rw [hea, hea1])
    exact ⟨e1, rfl, this ▸ hek, hea1⟩

theorem RemoveOldest_spec [Value V] (c c1 : Cache V) (h : RemoveOldest c = some c1) :
    ∃ e, c.ll = c1.ll ++ [e] ∧ c1.calls = c.calls ++ [(e.key, e.value)] ∧
      c1.nBytes = c.nBytes - (Value.Len e.value + strLen e.key) ∧
      c1.maxBytes = c.maxBytes ∧ c1.cahce = mapDelete c.cahce e.key := by
  unfold RemoveOldest callOnEvicted at h
  split at h
  · cases h
  · rename_i ele hl
    split at h
    · cases h
      exact ⟨ele, (List.dropLast_append_getLast? ele (by simp [hl])).symm, rfl, rfl, rfl, rfl⟩
    · cases h

/-- The fuel handed to the eviction loop is never the reason it stops: any two
amounts of fuel above the length of the list give the same result. -/
theorem evictLoop_fuel [Value V] (n m : Nat) (c : Cache V)
    (hn : c.ll.length < n) (hm : c.ll.length < m) : evictLoop n c = evictLoop m c := by
  induction n generalizing m c with
  | zero => omega
  | succ n ih =>
    cases m with
    | zero => omega
    | succ m =>
      unfold evictLoop
      split
      · cases hr : RemoveOldest c with
        | none => rfl
        | some c2 =>
          obtain ⟨e, hll, -⟩ := RemoveOldest_spec c c2 hr
          have hlen : c.ll.length = c2.ll.length + 1 := by rw [hll]; simp
          exact ih m c2 (by omega) (by omega)
      · rfl

/-- When the eviction loop returns, its exit condition holds, the elements it
removed are a suffix of the list, and the callback received them back first. -/
theorem evictLoop_spec [Value V] (n : Nat) (c c1 : Cache V) (h : evictLoop n c = some c1) :
    ¬ (c1.nBytes > c1.maxBytes ∧ c1.maxBytes ≠ 0) ∧ c1.maxBytes = c.maxBytes ∧
    ∃ removed, c.ll = c1.ll ++ removed ∧
      c1.calls = c.calls ++ removed.reverse.map (fun e => (e.key, e.value)) := by
  induction n generalizing c with
  | zero => simp [evictLoop] at h
  | succ n ih =>
    unfold evictLoop at h
    split at h
    · split at h
      · cases h
      · rename_i c2 h2
        obtain ⟨e, hll, hcalls, -, hmax, -⟩ := RemoveOldest_spec c c2 h2
        obtain ⟨hex, hmax1, r, hr, hrc⟩ := ih c2 h
        refine ⟨hex, hmax1.trans hmax, r ++ [e], ?_, ?_⟩
        · rw [hll, hr, List.append_assoc]
        · rw [hrc, hcalls]
          simp
    · rename_i hcond
      cases h
      exact ⟨hcond, rfl, [], by simp, by simp⟩

/-- The insertion branch of `Add` does keep the byte count within the capacity. -/
theorem Add_insert_within_capacity [Value V] (c c1 : Cache V) (key : String) (value : V)
    (hget : mapGet c.cahce key = none) (h : Add c key value = some c1) :
    c1.maxBytes = 0 ∨ c1.nBytes ≤ c1.maxBytes := by
  unfold Add at h
  rw [hget] at h
  simp only at h
  split at h
  · cases h
  · split at h
    · cases h
    · rename_i c3 hloop
      obtain ⟨hex, -⟩ := evictLoop_spec _ _ _ hloop
      unfold callOnEvicted at h
      split at h
      · cases h
        show c3.maxBytes = 0 ∨ c3.nBytes ≤ c3.maxBytes
        by_cases h0 : c3.maxBytes = 0
        · exact Or.inl h0
        · right
          by_contra hlt
          exact hex ⟨by omega, h0⟩
      · cases h

/-- The method `Get` never reports a hit. -/
theorem Get_ok_false (c : Cache V) (key : String) : (Get c key).2 = false := by
  unfold Get
  split
  · split <;> rfl
  · rfl

/-! ### The claims about the LRU store -/

/-- C1. For a cache created by `Init` with a non-nil callback and any sequence of
`Add`, `Get` and `RemoveOldest` calls that all return, `nBytes` is the sum of
`len(key) + value.Len()` over the linked entries, the map holds a key exactly when
an entry with that key is linked (and points to it), and no key occurs twice in the
list or in the map. -/
theorem lru_byte_accounting_invariant [Value V] (maxBytes : Int) (ops : List (Op V))
    (c : Cache V) (h : run (Init maxBytes true) ops = some c) :
    c.nBytes = sumBytes c.ll ∧
    (∀ k a, mapGet c.cahce k = some a ↔ ∃ e ∈ c.ll, e.key = k ∧ e.addr = a) ∧
    (c.ll.map (fun e => e.key)).Nodup ∧ (c.cahce.map Prod.fst).Nodup := by
  have wf := WF_run ops _ c h (WF_Init maxBytes true)
  exact ⟨wf.bytes, wf.mapList, wf.keysNodup, wf.mapNodup⟩

/-- Witness of C1 on the run `accountingOps`. -/
theorem lru_byte_accounting_invariant_witness :
    run (Init 10 true) accountingOps = some accountingDemo ∧
    (accountingDemo.nBytes = sumBytes accountingDemo.ll ∧
    (∀ k a, mapGet accountingDemo.cahce k = some a ↔
      ∃ e ∈ accountingDemo.ll, e.key = k ∧ e.addr = a) ∧
    (accountingDemo.ll.map (fun e => e.key)).Nodup ∧
    (accountingDemo.cahce.map Prod.fst).Nodup) :=
  ⟨by decide, lru_byte_accounting_invariant 10 accountingOps accountingDemo (by decide)⟩

/-- C2 (the code departs from the claim). `Init(10, cb)`, `Add("a", "1")`, then the
update `Add("a", "0123456789ABC")` returns with `maxBytes = 10` and `nBytes = 14`:
the update branch of `Add` has no eviction loop. -/
theorem add_update_exceeds_capacity :
    ∃ c : Cache String,
      run (Init 10 true) [.add "a" "1", .add "a" "0123456789ABC"] = some c ∧
      c.maxBytes = 10 ∧ c.nBytes = 14 ∧ ¬ (c.maxBytes = 0 ∨ c.nBytes ≤ c.maxBytes) :=
  ⟨_, rfl, by decide, by decide, by decide⟩

/-- C3 (the code departs from the claim). After `Init(100, cb)` and
`Add("key1", "1234")`, `Get("key1")` returns the value `"1234"` with `ok = false`. -/
theorem get_after_add_reports_miss :
    ∃ c : Cache String,
      run (Init 100 true) [.add "key1" "1234"] = some c ∧
      strLen "key1" + Value.Len "1234" ≤ c.maxBytes ∧
      Get c "key1" = (some "1234", false) :=
  ⟨_, rfl, by decide, by decide⟩

/-- C4 (the code departs from the claim). After `Add("a", "1")` and `Add("b", "2")`
the key `"a"` is resident; `Get("a")` finds its value and leaves the cache as it
was, with `"b"` at the front and `"a"` at the back. -/
theorem get_does_not_promote :
    ∃ c : Cache String,
      run (Init 100 true) [.add "a" "1", .add "b" "2"] = some c ∧
      (Get c "a").1 = some "1" ∧
      run c [.get "a"] = some c ∧
      c.ll.map (fun e => e.key) = ["b", "a"] :=
  ⟨_, rfl, by decide, by decide, by decide⟩

/-- C5 (the code departs from the claim). With `Init(8, nil)` the first call
`Add("k1", "v1")` already panics: after the insertion `Add` calls the nil
callback. -/
theorem add_with_nil_callback_panics :
    run (Init 8 false) [Op.add "k1" "v1"] = none := by
  decide

/-- The full-cache block of `Add` at work: after `Init(4, cb)` and `Add("ab", "cd")`
the cache is exactly full, and `Add("", "")`, an entry of size zero, unlinks `"ab"`
without any call of the callback for it. -/
theorem full_branch_unlinks_silently :
    ∃ c : Cache String,
      run (Init 4 true) [.add "ab" "cd", .add "" ""] = some c ∧
      c.ll.map (fun e => e.key) = [""] ∧ c.nBytes = 0 ∧
      c.calls = [("ab", "cd"), ("", "")] :=
  ⟨_, rfl, by decide, by decide, by decide⟩

/-- C6, counterexample. After `Init(10, cb)` and `Add("key1", "123456")` nothing has
been removed, `"key1"` is resident, and the callback has been invoked with it. -/
theorem callback_invoked_for_resident_entry :
    ∃ c : Cache String,
      run (Init 10 true) [.add "key1" "123456"] = some c ∧
      c.ll.map (fun e => e.key) = ["key1"] ∧
      c.calls = [("key1", "123456")] :=
  ⟨_, rfl, by decide, by decide⟩

/-- C6, amended. For a call that returns and does not run the full-cache block of
`Add`: `RemoveOldest` invokes the callback once, with the key and value of the back
entry it unlinks; `Add` of a resident key invokes nothing; `Add` of a key that is not
resident invokes it once for every entry the overflow loop unlinks, back first, and
then once more with the key and value just inserted, whether or not that entry is
still linked. -/
theorem onEvicted_calls_of_step [Value V] (c c1 : Cache V) (op : Op V)
    (h : step c op = some c1) (hfull : takesFullBranch c op = false) :
    (op = .removeOldest →
      ∃ e, c.ll = c1.ll ++ [e] ∧ c1.calls = c.calls ++ [(e.key, e.value)]) ∧
    (∀ key value, op = .add key value → mapGet c.cahce key ≠ none →
      c1.calls = c.calls) ∧
    (∀ key value, op = .add key value → mapGet c.cahce key = none →
      ∃ removed,
        { addr := c.next, key := key, value := value } :: c.ll = c1.ll ++ removed ∧
        c1.calls = c.calls ++ removed.reverse.map (fun e => (e.key, e.value))
          ++ [(key, value)]) := by
  refine ⟨?_, ?_, ?_⟩
  · intro hop
    subst hop
    obtain ⟨e, hll, hcalls, -⟩ := RemoveOldest_spec c c1 h
    exact ⟨e, hll, hcalls⟩
  · intro key value hop hget
    subst hop
    simp only [step] at h
    unfold Add at h
    cases hg : mapGet c.cahce key with
    | none => exact absurd hg hget
    | some a =>
      rw [hg] at h
      simp only at h
      split at h
      · cases h
      · cases h
        rfl
  · intro key value hop hget
    subst hop
    simp only [step] at h
    unfold Add at h
    rw [hget] at h
    simp only at h
    have hne : c.nBytes ≠ c.maxBytes := by
      intro heq
      simp [takesFullBranch, hget, heq] at hfull
    have hd : dropIfFull c = some c := by
      unfold dropIfFull
      rw [if_neg hne]
    rw [hd] at h
    simp only at h
    split at h
    · cases h
    · rename_i c3 hloop
      obtain ⟨-, -, removed, hll, hcalls⟩ := evictLoop_spec _ _ _ hloop
      unfold callOnEvicted at h
      split at h
      · cases h
        exact ⟨removed, hll, by rw [hcalls]; rfl⟩
      · cases h

/-- Witness of C6 (amended): an `Add` whose overflow loop unlinks two entries. -/
theorem onEvicted_calls_of_step_witness :
    step callsDemoBefore (.add "0123" "4567") = some callsDemoAfter ∧
    takesFullBranch callsDemoBefore (.add "0123" "4567") = false ∧
    mapGet callsDemoBefore.cahce "0123" = none ∧
    ∃ removed, { addr := 3, key := "0123", value := "4567" } :: callsDemoBefore.ll
        = callsDemoAfter.ll ++ removed ∧
      callsDemoAfter.calls = callsDemoBefore.calls
        ++ removed.reverse.map (fun e => (e.key, e.value)) ++ [("0123", "4567")] :=
  ⟨by decide, by decide, by decide,
    (onEvicted_calls_of_step callsDemoBefore callsDemoAfter (.add "0123" "4567")
      (by decide) (by decide)).2.2 "0123" "4567" rfl (by decide)⟩

end lru



/-! ## Properties of the consistent-hash ring -/

namespace consistenthash

/-- Invariant of the binary search of `sort.Search` on a monotone predicate. -/
theorem searchLoop_spec (f : Nat → Bool) (n : Nat)
    (hmono : ∀ i j, i ≤ j → j < n → f i = true → f j = true) :
    ∀ fuel i j, i ≤ j → j ≤ n → j - i ≤ fuel →
      (∀ k, k < i → f k = false) → (∀ k, j ≤ k → k < n → f k = true) →
      searchLoop f fuel i j ≤ n ∧
      (∀ k, k < searchLoop f fuel i j → f k = false) ∧
      (∀ k, searchLoop f fuel i j ≤ k → k < n → f k = true) := by
  intro fuel
  induction fuel with
  | zero =>
    intro i j hij hjn hfuel hlo hhi
    have : i = j := by omega
    subst this
    exact ⟨hjn, hlo, hhi⟩
  | succ fuel ih =>
    intro i j hij hjn hfuel hlo hhi
    unfold searchLoop
    by_cases hlt : i < j
    · rw [if_pos hlt]
      have hh1 : i ≤ (i + j) / 2 := by omega
      have hh2 : (i + j) / 2 < j := by omega
      cases hf : f ((i + j) / 2) with
      | false =>
        simp only [hf, Bool.not_false, if_true]
        apply ih ((i + j) / 2 + 1) j (by omega) hjn (by omega) _ hhi
        intro k hk
        cases hfk : f k with
        | false => rfl
        | true =>
          have := hmono k ((i + j) / 2) (by omega) (by omega) hfk
          rw [hf] at this
          cases this
      | true =>
        simp only [hf, Bool.not_true, Bool.false_eq_true, if_false]
        apply ih i ((i + j) / 2) hh1 (by omega) (by omega) hlo
        intro k hk hkn
        exact hmono ((i + j) / 2) k hk hkn hf
    · rw [if_neg hlt]
      have : i = j := by omega
      subst this
      exact ⟨hjn, hlo, hhi⟩

/-- The function `sort.Search` returns the least index at which a monotone predicate holds, or
`n` when it holds nowhere. -/
theorem Search_spec (f : Nat → Bool) (n : Nat)
    (hmono : ∀ i j, i ≤ j → j < n → f i = true → f j = true) :
    Search n f ≤ n ∧ (∀ k, k < Search n f → f k = false) ∧
      (∀ k, Search n f ≤ k → k < n → f k = true) := by
  unfold Search
  apply searchLoop_spec f n hmono n 0 n (Nat.zero_le _) (Nat.le_refl _) (by omega)
  · intro k hk
    omega
  · intro k hk hkn
    omega

theorem sorted_getD_le (K : List Int) (hs : K.Sorted (fun a b => a ≤ b))
    (i j : Nat) (hij : i ≤ j) (hj : j < K.length) :
    K.getD i 0 ≤ K.getD j 0 := by
  have hi : i < K.length := by omega
  rw [List.getD_eq_getElem K 0 hi, List.getD_eq_getElem K 0 hj]
  rcases Nat.eq_or_lt_of_le hij with h | h
  · subst h
    exact le_refl _
  · exact (List.pairwise_iff_getElem.1 hs) i j hi hj h

theorem getD_mem (K : List Int) (i : Nat) (hi : i < K.length) : K.getD i 0 ∈ K := by
  rw [List.getD_eq_getElem K 0 hi]
  exact List.getElem_mem hi

theorem mem_getD (K : List Int) (w : Int) (hw : w ∈ K) :
    ∃ i, i < K.length ∧ K.getD i 0 = w := by
  obtain ⟨i, hi, hiw⟩ := List.mem_iff_getElem.1 hw
  exact ⟨i, hi, by rw [List.getD_eq_getElem K 0 hi]; exact hiw⟩

/-- On a sorted non-empty ring `Get` returns the node mapped to the successor of the
hash of the key. -/
theorem Get_successor (m : Map) (key : String)
    (hs : m.keys.Sorted (fun a b => a ≤ b)) (hne : m.keys ≠ []) :
    ∃ v, IsSuccessor m.keys (hashOf m key) v ∧ Get m key = peerAt m v := by
  have hlen : 0 < m.keys.length := List.length_pos.2 hne
  have hmono : ∀ i j, i ≤ j → j < m.keys.length →
      decide (m.keys.getD i 0 ≥ hashOf m key) = true →
      decide (m.keys.getD j 0 ≥ hashOf m key) = true := by
    intro i j hij hj hfi
    have h1 := sorted_getD_le m.keys hs i j hij hj
    simp only [ge_iff_le, decide_eq_true_eq] at hfi ⊢
    exact le_trans hfi h1
  obtain ⟨hr, hlo, hhi⟩ :=
    Search_spec (fun i => decide (m.keys.getD i 0 ≥ hashOf m key)) m.keys.length hmono
  have hget : Get m key = peerAt m (m.keys.getD
      (Search m.keys.length (fun i => decide (m.keys.getD i 0 ≥ hashOf m key))
        % m.keys.length) 0) := by
    unfold Get
    simp only
    rw [if_neg (by omega)]
  rw [hget]
  generalize Search m.keys.length (fun i => decide (m.keys.getD i 0 ≥ hashOf m key)) = r
    at hr hlo hhi
  rcases Nat.lt_or_ge r m.keys.length with hlt | hge
  · rw [Nat.mod_eq_of_lt hlt]
    refine ⟨_, ⟨getD_mem _ _ hlt, Or.inl ⟨?_, ?_⟩⟩, rfl⟩
    · have := hhi r (Nat.le_refl _) hlt
      simpa using this
    · intro w hw hhw
      obtain ⟨i, hi, hiw⟩ := mem_getD _ _ hw
      rcases Nat.lt_or_ge i r with hir | hir
      · have := hlo i hir
        simp only [ge_iff_le, decide_eq_false_iff_not, not_le] at this
        omega
      · rw [← hiw]
        exact sorted_getD_le m.keys hs r i hir hi
  · have hreq : r = m.keys.length := by omega
    rw [hreq, Nat.mod_self]
    refine ⟨_, ⟨getD_mem _ _ hlen, Or.inr ⟨?_, ?_⟩⟩, rfl⟩
    · intro w hw
      obtain ⟨i, hi, hiw⟩ := mem_getD _ _ hw
      have := hlo i (by omega)
      simp only [ge_iff_le, decide_eq_false_iff_not, not_le] at this
      omega
    · intro w hw
      obtain ⟨i, hi, hiw⟩ := mem_getD _ _ hw
      rw [← hiw]
      exact sorted_getD_le m.keys hs 0 i (Nat.zero_le _) hi

/-- The successor of a hash on a ring is unique. -/
theorem IsSuccessor_unique (K : List Int) (h v v1 : Int)
    (hv : IsSuccessor K h v) (hv1 : IsSuccessor K h v1) : v = v1 := by
  obtain ⟨hm, hc⟩ := hv
  obtain ⟨hm1, hc1⟩ := hv1
  rcases hc with ⟨hge, hmin⟩ | ⟨hall, hmin⟩
  · rcases hc1 with ⟨hge1, hmin1⟩ | ⟨hall1, hmin1⟩
    · exact le_antisymm (hmin v1 hm1 hge1) (hmin1 v hm hge)
    · have := hall1 v hm
      omega
  · rcases hc1 with ⟨hge1, hmin1⟩ | ⟨hall1, hmin1⟩
    · have := hall v1 hm1
      omega
    · exact le_antisymm (hmin v1 hm1) (hmin1 v hm)

/-- A successor on a larger ring that lies on the smaller ring is the successor
there. -/
theorem IsSuccessor_of_subset (K K1 : List Int) (h v : Int) (hsub : ∀ w ∈ K, w ∈ K1)
    (hv : IsSuccessor K1 h v) (hmem : v ∈ K) : IsSuccessor K h v := by
  obtain ⟨-, hc⟩ := hv
  refine ⟨hmem, ?_⟩
  rcases hc with ⟨hge, hmin⟩ | ⟨hall, hmin⟩
  · exact Or.inl ⟨hge, fun w hw hhw => hmin w (hsub w hw) hhw⟩
  · exact Or.inr ⟨fun w hw => hall w (hsub w hw), fun w hw => hmin w (hsub w hw)⟩

theorem lookup_const_append (L : List Int) (p : String) (M : List (Int × String))
    (v : Int) :
    List.lookup v (L.map (fun h => (h, p)) ++ M) = if v ∈ L then some p else List.lookup v M := by
  induction L with
  | nil => simp
  | cons a L ih =>
    simp only [List.map_cons, List.cons_append, List.lookup_cons, List.mem_cons]
    by_cases hva : v = a
    · subst hva
      simp
    · have : (v == a) = false := by simpa using hva
      simp only [this, ih, hva, false_or]

/-- The inner loop of `Add` for one real node appends its virtual nodes to the ring
and maps each of them to that node. -/
theorem addReplicas_eq (m : Map) (key : String) :
    addReplicas m key =
      { m with
        keys := m.keys ++ virtualNodes m key
        hashmap := ((virtualNodes m key).reverse.map (fun h => (h, key))) ++ m.hashmap } := by
  unfold addReplicas virtualNodes
  generalize m.repllicas.toNat = n
  induction n with
  | zero => simp
  | succ n ih =>
    rw [List.range_succ, List.foldl_append, ih]
    simp [hashOf]

theorem addReplicas_hash (m : Map) (key : String) : (addReplicas m key).hash = m.hash := by
  rw [addReplicas_eq]

theorem addReplicas_repllicas (m : Map) (key : String) :
    (addReplicas m key).repllicas = m.repllicas := by
  rw [addReplicas_eq]

theorem lookup_addReplicas (m : Map) (key : String) (v : Int) :
    List.lookup v (addReplicas m key).hashmap =
      if v ∈ virtualNodes m key then some key else List.lookup v m.hashmap := by
  rw [addReplicas_eq]
  simp only
  rw [lookup_const_append]
  simp

theorem mem_sortInts (l : List Int) (v : Int) : v ∈ sortInts l ↔ v ∈ l :=
  (List.perm_insertionSort _ l).mem_iff

theorem sorted_sortInts (l : List Int) : (sortInts l).Sorted (fun a b => a ≤ b) :=
  List.sorted_insertionSort _ l

theorem Covered_addReplicas (m : Map) (key : String) (h : Covered m) :
    Covered (addReplicas m key) := by
  intro v hv
  rw [lookup_addReplicas]
  by_cases hmem : v ∈ virtualNodes m key
  · exact ⟨key, by rw [if_pos hmem]⟩
  · rw [if_neg hmem]
    apply h
    rw [addReplicas_eq] at hv
    simp only [List.mem_append] at hv
    rcases hv with hv | hv
    · exact hv
    · exact absurd hv hmem

theorem Covered_foldl (keys : List String) (m : Map) (h : Covered m) :
    Covered (keys.foldl addReplicas m) := by
  induction keys generalizing m with
  | nil => exact h
  | cons k ks ih => exact ih _ (Covered_addReplicas m k h)

theorem Add_invariant (m : Map) (keys : List String) (h : Covered m) :
    (Add m keys).keys.Sorted (fun a b => a ≤ b) ∧ Covered (Add m keys) := by
  refine ⟨sorted_sortInts _, ?_⟩
  intro v hv
  have hv1 : v ∈ (keys.foldl addReplicas m).keys := (mem_sortInts _ v).1 hv
  exact Covered_foldl keys m h v hv1

theorem build_invariant (replicas : Int) (fn : Option Hash) (adds : List (List String)) :
    (build replicas fn adds).keys.Sorted (fun a b => a ≤ b) ∧
      Covered (build replicas fn adds) := by
  unfold build
  have h0 : (New replicas fn).keys.Sorted (fun a b => a ≤ b) ∧ Covered (New replicas fn) := by
    constructor
    · simp [New]
    · intro v hv
      simp [New] at hv
  generalize New replicas fn = m at h0
  induction adds generalizing m with
  | nil => exact h0
  | cons a as ih => exact ih _ (Add_invariant m a h0.2)

/-! ### The claims about the consistent-hash ring -/

/-- C7. On a ring built by `New` and any sequence of `Add` calls: with no virtual
node `Get` returns the empty string; otherwise it returns the real node mapped to
the smallest virtual-node hash that is at least the hash of the key, or, when no
virtual-node hash is that large, the node mapped to the smallest virtual-node hash
of the ring. -/
theorem ring_get_successor (replicas : Int) (fn : Option Hash) (adds : List (List String))
    (key : String) :
    ((build replicas fn adds).keys = [] → Get (build replicas fn adds) key = "") ∧
    ((build replicas fn adds).keys ≠ [] →
      ∃ v ∈ (build replicas fn adds).keys,
        List.lookup v (build replicas fn adds).hashmap
          = some (Get (build replicas fn adds) key) ∧
        ((hashOf (build replicas fn adds) key ≤ v ∧
            ∀ w ∈ (build replicas fn adds).keys,
              hashOf (build replicas fn adds) key ≤ w → v ≤ w) ∨
          ((∀ w ∈ (build replicas fn adds).keys,
              w < hashOf (build replicas fn adds) key) ∧
            ∀ w ∈ (build replicas fn adds).keys, v ≤ w))) := by
  obtain ⟨hs, hc⟩ := build_invariant replicas fn adds
  generalize build replicas fn adds = m at hs hc
  constructor
  · intro h0
    unfold Get
    simp [h0]
  · intro hne
    obtain ⟨v, ⟨hmem, hsucc⟩, hget⟩ := Get_successor m key hs hne
    refine ⟨v, hmem, ?_, hsucc⟩
    obtain ⟨q, hq⟩ := hc v hmem
    rw [hget, peerAt, hq]
    rfl

/-- The scenario of `TestHashing`: three replicas, decimal hash, nodes 6, 4, 2, and
the lookups of the keys 2, 11, 23, 27 before and after node 8 is added. -/
theorem ring_test_hashing :
    (build 3 (some atoiHash) [["6", "4", "2"]]).keys = [2, 4, 6, 12, 14, 16, 22, 24, 26] ∧
    ["2", "11", "23", "27"].map (Get (build 3 (some atoiHash) [["6", "4", "2"]]))
      = ["2", "2", "4", "2"] ∧
    ["2", "11", "23", "27"].map (Get (build 3 (some atoiHash) [["6", "4", "2"], ["8"]]))
      = ["2", "2", "4", "8"] :=
  ⟨by decide, by decide, by decide⟩

/-- C8. On a ring built by `New` and any sequence of `Add` calls, adding the real
node `p` leaves every key either on the node it had or moves it to `p`. -/
theorem ring_add_moves_only_to_new_peer (replicas : Int) (fn : Option Hash)
    (adds : List (List String)) (p key : String) :
    Get (Add (build replicas fn adds) [p]) key = Get (build replicas fn adds) key ∨
    Get (Add (build replicas fn adds) [p]) key = p := by
  obtain ⟨hs, -⟩ := build_invariant replicas fn adds
  generalize build replicas fn adds = m at hs
  have hkeys : (Add m [p]).keys = sortInts (m.keys ++ virtualNodes m p) := by
    simp [Add, addReplicas_eq]
  have hhash : hashOf (Add m [p]) key = hashOf m key := by
    simp [Add, hashOf, addReplicas_hash]
  have hpeer : ∀ v, peerAt (Add m [p]) v
      = if v ∈ virtualNodes m p then p else peerAt m v := by
    intro v
    have : (Add m [p]).hashmap = (addReplicas m p).hashmap := by simp [Add]
    unfold peerAt
    rw [this, lookup_addReplicas]
    split <;> rfl
  have hmem : ∀ w, w ∈ (Add m [p]).keys ↔ w ∈ m.keys ∨ w ∈ virtualNodes m p := by
    intro w
    rw [hkeys, mem_sortInts, List.mem_append]
  have hs1 : (Add m [p]).keys.Sorted (fun a b => a ≤ b) := by
    rw [hkeys]
    exact sorted_sortInts _
  by_cases hne1 : (Add m [p]).keys = []
  · -- no virtual node after the call, so none before it
    have hne : m.keys = [] := by
      cases hk : m.keys with
      | nil => rfl
      | cons a l =>
        have : a ∈ (Add m [p]).keys := (hmem a).2 (Or.inl (by rw [hk]; simp))
        rw [hne1] at this
        cases this
    left
    unfold Get
    simp [hne1, hne]
  · obtain ⟨v1, hsucc1, hget1⟩ := Get_successor (Add m [p]) key hs1 hne1
    rw [hget1, hpeer v1]
    by_cases hv : v1 ∈ virtualNodes m p
    · right
      rw [if_pos hv]
    · left
      rw [if_neg hv]
      have hv1 : v1 ∈ m.keys := by
        rcases (hmem v1).1 hsucc1.1 with h | h
        · exact h
        · exact absurd h hv
      have hne : m.keys ≠ [] := List.ne_nil_of_mem hv1
      obtain ⟨v, hsucc, hget⟩ := Get_successor m key hs hne
      rw [hget]
      rw [hhash] at hsucc1
      have hsucc2 : IsSuccessor m.keys (hashOf m key) v1 :=
        IsSuccessor_of_subset m.keys (Add m [p]).keys _ v1
          (fun w hw => (hmem w).2 (Or.inl hw)) hsucc1 hv1
      rw [IsSuccessor_unique m.keys _ v v1 hsucc hsucc2]

end consistenthash

/-! ## Properties of the group -/

namespace lru

variable {V : Type}

theorem evictLoop_OnEvicted [Value V] (n : Nat) (c c1 : Cache V)
    (h : evictLoop n c = some c1) : c1.OnEvicted = c.OnEvicted := by
  induction n generalizing c with
  | zero => simp [evictLoop] at h
  | succ n ih =>
    unfold evictLoop at h
    split at h
    · split at h
      · cases h
      · rename_i c2 h2
        rw [ih c2 h]
        unfold RemoveOldest callOnEvicted at h2
        split at h2
        · cases h2
        · split at h2
          · cases h2
            rfl
          · cases h2
    · cases h
      rfl

theorem dropIfFull_OnEvicted [Value V] (c c1 : Cache V)
    (h : dropIfFull c = some c1) : c1.OnEvicted = c.OnEvicted := by
  unfold dropIfFull at h
  split at h
  · split at h
    · cases h
    · cases h
      rfl
  · cases h
    rfl

/-- A call `Add` of a key that is not in the map panics when the callback is nil. -/
theorem Add_absent_key_nil_callback [Value V] (c : Cache V) (key : String) (value : V)
    (hcb : c.OnEvicted = false) (hget : mapGet c.cahce key = none) :
    Add c key value = none := by
  unfold Add
  rw [hget]
  simp only
  cases hd : dropIfFull c with
  | none => rfl
  | some c1 =>
    simp only
    cases hl : evictLoop ((pushFront c1 key value).ll.length + 1) (pushFront c1 key value) with
    | none => rfl
    | some c3 =>
      simp only
      have h1 : c3.OnEvicted = false := by
        rw [evictLoop_OnEvicted _ _ _ hl]
        show c1.OnEvicted = false
        rw [dropIfFull_OnEvicted c c1 hd, hcb]
      simp [callOnEvicted, h1]

end lru

/-! ## The LRU store modelled from the spec -/

namespace continue_hash

namespace lru

variable {V : Type}

theorem store_sumBytes_cons [lru.Value V] (e : String × V) (l : List (String × V)) :
    sumBytes (e :: l) = (lru.strLen e.1 + lru.Value.Len e.2) + sumBytes l := by
  simp [sumBytes]

theorem store_sumBytes_append [lru.Value V] (l₁ l₂ : List (String × V)) :
    sumBytes (l₁ ++ l₂) = sumBytes l₁ + sumBytes l₂ := by
  simp [sumBytes, List.sum_append]

theorem store_WF_Init [lru.Value V] (maxBytes : Int) (cb : Bool) :
    WF (Init maxBytes cb : Cache V) := by
  constructor <;> simp [Init, sumBytes]

theorem store_RemoveOldest_spec [lru.Value V] (c : Cache V) (wf : WF c) :
    WF (RemoveOldest c) ∧ (RemoveOldest c).maxBytes = c.maxBytes ∧
      (RemoveOldest c).entries = c.entries.dropLast := by
  unfold RemoveOldest
  cases hl : c.entries.getLast? with
  | none =>
    have hnil : c.entries = [] := by simpa using hl
    refine ⟨wf, rfl, ?_⟩
    simp [hnil]
  | some e =>
    have hsplit : c.entries.dropLast ++ [e] = c.entries :=
      List.dropLast_append_getLast? e (by simp [hl])
    have hb := wf.bytes
    have hk := wf.keysNodup
    rw [← hsplit] at hb hk
    rw [List.map_append, List.nodup_append] at hk
    refine ⟨⟨?_, hk.1⟩, rfl, rfl⟩
    show c.usedBytes - (lru.strLen e.1 + lru.Value.Len e.2) = sumBytes c.entries.dropLast
    rw [hb, store_sumBytes_append, store_sumBytes_cons]
    simp [sumBytes]

theorem store_evictLoop_spec [lru.Value V] (fuel : Nat) (c c1 : Cache V) (wf : WF c)
    (h : evictLoop fuel c = some c1) :
    WF c1 ∧ c1.maxBytes = c.maxBytes ∧ c1.entries.Sublist c.entries ∧
      (c1.maxBytes = 0 ∨ c1.usedBytes ≤ c1.maxBytes) := by
  induction fuel generalizing c with
  | zero => simp [evictLoop] at h
  | succ fuel ih =>
    unfold evictLoop at h
    split at h
    · obtain ⟨w1, m1, e1⟩ := store_RemoveOldest_spec c wf
      obtain ⟨w2, m2, e2, b2⟩ := ih (RemoveOldest c) w1 h
      refine ⟨w2, m2.trans m1, ?_, b2⟩
      rw [e1] at e2
      exact e2.trans (List.dropLast_sublist _)
    · rename_i hcond
      have hc : c = c1 := Option.some.inj h
      subst hc
      refine ⟨wf, rfl, List.Sublist.refl _, ?_⟩
      by_cases h0 : c.maxBytes = 0
      · exact Or.inl h0
      · right
        by_contra hgt
        exact hcond ⟨h0, by omega⟩

theorem store_filter_keys_nodup (l : List (String × V)) (key : String)
    (h : (l.map Prod.fst).Nodup) :
    ((l.filter (fun e => e.1 != key)).map Prod.fst).Nodup :=
  (List.Sublist.map _ (List.filter_sublist l)).nodup h

theorem store_filter_key_not_mem (l : List (String × V)) (key : String) :
    key ∉ (l.filter (fun e => e.1 != key)).map Prod.fst := by
  simp [List.mem_map, List.mem_filter]

theorem store_filter_absent (l : List (String × V)) (key : String)
    (h : key ∉ l.map Prod.fst) : l.filter (fun e => e.1 != key) = l := by
  rw [List.filter_eq_self]
  intro e he
  have : e.1 ≠ key := by
    intro heq
    exact h (List.mem_map.2 ⟨e, he, heq⟩)
  simpa using this

theorem store_lookup_none (l : List (String × V)) (key : String) :
    l.lookup key = none ↔ key ∉ l.map Prod.fst := by
  induction l with
  | nil => simp
  | cons e l ih =>
    obtain ⟨k, v⟩ := e
    by_cases hk : key = k
    · subst hk
      simp [List.lookup_cons]
    · have hne : (key == k) = false := by simpa using hk
      simp only [List.lookup_cons, hne, ih, List.map_cons, List.mem_cons, hk, false_or]

theorem store_lookup_mem (l : List (String × V)) (key : String) (v : V)
    (h : l.lookup key = some v) : (key, v) ∈ l := by
  induction l with
  | nil => simp at h
  | cons e l ih =>
    obtain ⟨k, w⟩ := e
    by_cases hk : key = k
    · subst hk
      simp [List.lookup_cons] at h
      subst h
      exact List.mem_cons_self _ _
    · have hne : (key == k) = false := by simpa using hk
      simp only [List.lookup_cons, hne] at h
      exact List.mem_cons_of_mem _ (ih h)

/-- Taking the entry of a key out of a sequence without repeated keys lowers the sum
by the size of that entry. -/
theorem store_sumBytes_filter [lru.Value V] (l : List (String × V)) (key : String) (v : V)
    (hn : (l.map Prod.fst).Nodup) (h : l.lookup key = some v) :
    sumBytes l = (lru.strLen key + lru.Value.Len v) +
      sumBytes (l.filter (fun e => e.1 != key)) := by
  induction l with
  | nil => simp at h
  | cons e l ih =>
    obtain ⟨k, w⟩ := e
    rw [List.map_cons, List.nodup_cons] at hn
    by_cases hk : key = k
    · subst hk
      simp [List.lookup_cons] at h
      subst h
      have hf : (key != key) = false := by simp
      rw [List.filter_cons, store_sumBytes_cons]
      simp only [hf]
      rw [store_filter_absent l key hn.1]
      simp
    · have hne : (key == k) = false := by simpa using hk
      simp only [List.lookup_cons, hne] at h
      have hkn : (k != key) = true := by
        simp only [bne_iff_ne, ne_eq]
        exact fun heq => hk heq.symm
      rw [List.filter_cons, store_sumBytes_cons]
      simp only [hkn, if_true]
      rw [store_sumBytes_cons, ih hn.2 h]
      ring

/-- The cache `Add` hands to its loop: the entry is at the front and the invariant
holds. -/
theorem store_Add_front [lru.Value V] (c : Cache V) (key : String) (value : V) (wf : WF c) :
    ∃ c1 rest, Add c key value = evictLoop (c1.entries.length + 1) c1 ∧ WF c1 ∧
      c1.maxBytes = c.maxBytes ∧ c1.entries = (key, value) :: rest ∧
      rest.Sublist c.entries := by
  unfold Add
  cases hl : c.entries.lookup key with
  | none =>
    refine ⟨_, c.entries, rfl, ⟨?_, ?_⟩, rfl, rfl, List.Sublist.refl _⟩
    · show c.usedBytes + _ = sumBytes ((key, value) :: c.entries)
      rw [store_sumBytes_cons, wf.bytes]
      ring
    · show (((key, value) :: c.entries).map Prod.fst).Nodup
      rw [List.map_cons, List.nodup_cons]
      exact ⟨(store_lookup_none _ _).1 hl, wf.keysNodup⟩
  | some old =>
    refine ⟨_, c.entries.filter (fun e => e.1 != key), rfl, ⟨?_, ?_⟩, rfl, rfl,
      List.filter_sublist _⟩
    · show c.usedBytes + _ = sumBytes ((key, value) :: c.entries.filter (fun e => e.1 != key))
      rw [store_sumBytes_cons, wf.bytes, store_sumBytes_filter c.entries key old wf.keysNodup hl]
      ring
    · show (((key, value) :: c.entries.filter (fun e => e.1 != key)).map Prod.fst).Nodup
      rw [List.map_cons, List.nodup_cons]
      exact ⟨store_filter_key_not_mem _ _, store_filter_keys_nodup _ _ wf.keysNodup⟩

theorem store_Add_spec [lru.Value V] (c c1 : Cache V) (key : String) (value : V) (wf : WF c)
    (h : Add c key value = some c1) :
    WF c1 ∧ c1.maxBytes = c.maxBytes ∧
      (∀ e ∈ c1.entries, e = (key, value) ∨ e ∈ c.entries) ∧
      (c1.maxBytes = 0 ∨ c1.usedBytes ≤ c1.maxBytes) := by
  obtain ⟨c0, rest, hadd, wf0, hm0, he0, hsub⟩ := store_Add_front c key value wf
  rw [hadd] at h
  obtain ⟨w1, m1, s1, b1⟩ := store_evictLoop_spec _ c0 c1 wf0 h
  refine ⟨w1, m1.trans hm0, ?_, b1⟩
  intro e he
  have := s1.subset he
  rw [he0] at this
  rcases List.mem_cons.1 this with h1 | h1
  · exact Or.inl h1
  · exact Or.inr (hsub.subset h1)

/-- The loop of `Add` keeps a front entry that fits the capacity. -/
theorem store_evictLoop_keeps_front [lru.Value V]
    (fuel : Nat) (c : Cache V) (e : String × V) (rest : List (String × V))
    (wf : WF c) (he : c.entries = e :: rest) (hf : rest.length < fuel)
    (hfit : c.maxBytes = 0 ∨ lru.strLen e.1 + lru.Value.Len e.2 ≤ c.maxBytes) :
    ∃ c1 rest1, evictLoop fuel c = some c1 ∧ c1.entries = e :: rest1 := by
  induction fuel generalizing c rest with
  | zero => omega
  | succ fuel ih =>
    unfold evictLoop
    by_cases hcond : c.maxBytes ≠ 0 ∧ c.usedBytes > c.maxBytes
    · rw [if_pos hcond]
      have hfit1 : lru.strLen e.1 + lru.Value.Len e.2 ≤ c.maxBytes := by
        rcases hfit with h0 | h1
        · exact absurd h0 hcond.1
        · exact h1
      have hne : rest ≠ [] := by
        intro hnil
        have hb := wf.bytes
        rw [he, hnil, store_sumBytes_cons] at hb
        simp [sumBytes] at hb
        omega
      obtain ⟨w1, m1, e1⟩ := store_RemoveOldest_spec c wf
      have e2 : (RemoveOldest c).entries = e :: rest.dropLast := by
        rw [e1, he]
        cases rest with
        | nil => exact absurd rfl hne
        | cons r rs => rfl
      have hlen : rest.dropLast.length < fuel := by
        rw [List.length_dropLast]
        have : 0 < rest.length := List.length_pos.2 hne
        omega
      exact ih (RemoveOldest c) rest.dropLast w1 e2 hlen (by rw [m1]; exact hfit)
    · rw [if_neg hcond]
      exact ⟨c, rest, rfl, he⟩

/-- An entry that fits the capacity is resident at the front after `Add`. -/
theorem store_Add_fits [lru.Value V]
    (c : Cache V) (key : String) (value : V) (wf : WF c)
    (hfit : c.maxBytes = 0 ∨ lru.strLen key + lru.Value.Len value ≤ c.maxBytes) :
    ∃ c1 rest, Add c key value = some c1 ∧ c1.entries = (key, value) :: rest := by
  obtain ⟨c0, rest, hadd, wf0, hm0, he0, -⟩ := store_Add_front c key value wf
  rw [hadd]
  exact store_evictLoop_keeps_front _ c0 (key, value) rest wf0 he0
    (by rw [he0, List.length_cons]; omega) (by rw [hm0]; exact hfit)

theorem store_Get_miss (c : Cache V) (key : String) (h : (Get c key).1 = none) :
    (Get c key).2 = c := by
  unfold Get at h ⊢
  cases hl : c.entries.lookup key with
  | none => rfl
  | some v =>
    rw [hl] at h
    simp at h

theorem store_Get_spec [lru.Value V] (c : Cache V) (key : String) (wf : WF c) :
    WF (Get c key).2 ∧ (Get c key).2.maxBytes = c.maxBytes ∧
      (∀ e ∈ (Get c key).2.entries, e ∈ c.entries) ∧
      (∀ v, (Get c key).1 = some v → ∃ rest, (Get c key).2.entries = (key, v) :: rest) := by
  unfold Get
  cases hl : c.entries.lookup key with
  | none =>
    refine ⟨wf, rfl, fun e he => he, ?_⟩
    intro v hv
    simp at hv
  | some w =>
    refine ⟨⟨?_, ?_⟩, rfl, ?_, ?_⟩
    · show c.usedBytes = sumBytes ((key, w) :: c.entries.filter (fun e => e.1 != key))
      rw [store_sumBytes_cons, wf.bytes]
      exact store_sumBytes_filter c.entries key w wf.keysNodup hl
    · show (((key, w) :: c.entries.filter (fun e => e.1 != key)).map Prod.fst).Nodup
      rw [List.map_cons, List.nodup_cons]
      exact ⟨store_filter_key_not_mem _ _, store_filter_keys_nodup _ _ wf.keysNodup⟩
    · intro e he
      rcases List.mem_cons.1 he with h1 | h1
      · rw [h1]
        exact store_lookup_mem _ _ _ hl
      · exact (List.mem_filter.1 h1).1
    · intro v hv
      simp only [Option.some.injEq] at hv
      subst hv
      exact ⟨_, rfl⟩

/-- A lookup of the key of the front entry hits with its value. -/
theorem store_Get_front (c : Cache V) (key : String) (v : V) (rest : List (String × V))
    (he : c.entries = (key, v) :: rest) : (Get c key).1 = some v := by
  unfold Get
  rw [he]
  simp [List.lookup_cons]

end lru

end continue_hash

/-! ## The shard on the store modelled from the spec -/

namespace geecache

theorem cache_get_nil (c : cache) (key : String) (hl : c.lru = none) :
    c.get key = ((⟨[]⟩, false), c) := by
  simp [cache.get, hl]

theorem cache_get_hit_eq (c : cache) (l l1 : continue_hash.lru.Cache ByteView) (key : String)
    (val : ByteView) (hl : c.lru = some l) (hg : continue_hash.lru.Get l key = (some val, l1)) :
    c.get key = ((val, true), { c with lru := some l1 }) := by
  simp [cache.get, hl, hg]

theorem cache_get_miss_eq (c : cache) (l l1 : continue_hash.lru.Cache ByteView) (key : String)
    (hl : c.lru = some l) (hg : continue_hash.lru.Get l key = (none, l1)) :
    c.get key = ((⟨[]⟩, false), { c with lru := some l1 }) := by
  simp [cache.get, hl, hg]

theorem cache_get_spec (c : cache) (key : String) (wf : c.WF) :
    (c.get key).2.WF ∧ (c.get key).2.cacheBytes = c.cacheBytes ∧
      (∀ l1, (c.get key).2.lru = some l1 →
        ∃ l, c.lru = some l ∧ ∀ e ∈ l1.entries, e ∈ l.entries) ∧
      (∀ v, (c.get key).1 = (v, true) →
        ∃ l1 rest, (c.get key).2.lru = some l1 ∧ l1.entries = (key, v) :: rest) ∧
      ((c.get key).1.2 = false → (c.get key).2 = c ∧ (c.get key).1.1 = ⟨[]⟩) := by
  cases hl : c.lru with
  | none =>
    rw [cache_get_nil c key hl]
    refine ⟨wf, rfl, ?_, ?_, fun _ => ⟨rfl, rfl⟩⟩
    · intro l1 h1
      simp only at h1
      rw [hl] at h1
      cases h1
    · intro v hv
      simp at hv
  | some l =>
    obtain ⟨wl, hm⟩ := wf l hl
    obtain ⟨w1, m1, e1, f1⟩ := continue_hash.lru.store_Get_spec l key wl
    cases hg : continue_hash.lru.Get l key with
    | mk r l1 =>
      rw [hg] at w1 m1 e1 f1
      simp only at w1 m1 e1 f1
      cases r with
      | some val =>
        rw [cache_get_hit_eq c l l1 key val hl hg]
        refine ⟨?_, rfl, ?_, ?_, ?_⟩
        · intro l2 h2
          simp only [Option.some.injEq] at h2
          subst h2
          exact ⟨w1, m1.trans hm⟩
        · intro l2 h2
          simp only [Option.some.injEq] at h2
          subst h2
          exact ⟨l, rfl, e1⟩
        · intro v hv
          simp only [Prod.mk.injEq, and_true] at hv
          subst hv
          obtain ⟨rest, hr⟩ := f1 val rfl
          exact ⟨l1, rest, rfl, hr⟩
        · intro hf
          simp at hf
      | none =>
        rw [cache_get_miss_eq c l l1 key hl hg]
        have hmiss := continue_hash.lru.store_Get_miss l key (by rw [hg])
        rw [hg] at hmiss
        simp only at hmiss
        subst hmiss
        refine ⟨?_, rfl, ?_, ?_, ?_⟩
        · intro l2 h2
          simp only [Option.some.injEq] at h2
          subst h2
          exact ⟨wl, hm⟩
        · intro l2 h2
          simp only [Option.some.injEq] at h2
          subst h2
          exact ⟨l1, rfl, fun e he => he⟩
        · intro v hv
          simp at hv
        · intro _
          refine ⟨?_, rfl⟩
          cases c
          simp only at hl
          subst hl
          rfl

theorem cache_add_spec (c c1 : cache) (key : String) (value : ByteView) (wf : c.WF)
    (h : c.add key value = some c1) :
    c1.WF ∧ c1.cacheBytes = c.cacheBytes ∧
      ∀ l1, c1.lru = some l1 → ∀ e ∈ l1.entries,
        e = (key, value) ∨ ∃ l, c.lru = some l ∧ e ∈ l.entries := by
  unfold cache.add at h
  cases hl : c.lru with
  | none =>
    rw [hl] at h
    simp only at h
    cases ha : continue_hash.lru.Add (continue_hash.lru.Init c.cacheBytes false) key value with
    | none =>
      rw [ha] at h
      cases h
    | some l1 =>
      rw [ha] at h
      simp only [Option.some.injEq] at h
      subst h
      obtain ⟨w1, m1, e1, -⟩ := continue_hash.lru.store_Add_spec _ l1 key value
        (continue_hash.lru.store_WF_Init _ _) ha
      refine ⟨?_, rfl, ?_⟩
      · intro l2 h2
        simp only [Option.some.injEq] at h2
        subst h2
        exact ⟨w1, m1⟩
      · intro l2 h2 e he
        simp only [Option.some.injEq] at h2
        subst h2
        rcases e1 e he with h3 | h3
        · exact Or.inl h3
        · simp [continue_hash.lru.Init] at h3
  | some l =>
    rw [hl] at h
    simp only at h
    obtain ⟨wl, hm⟩ := wf l hl
    cases ha : continue_hash.lru.Add l key value with
    | none =>
      rw [ha] at h
      cases h
    | some l1 =>
      rw [ha] at h
      simp only [Option.some.injEq] at h
      subst h
      obtain ⟨w1, m1, e1, -⟩ := continue_hash.lru.store_Add_spec l l1 key value wl ha
      refine ⟨?_, rfl, ?_⟩
      · intro l2 h2
        simp only [Option.some.injEq] at h2
        subst h2
        exact ⟨w1, m1.trans hm⟩
      · intro l2 h2 e he
        simp only [Option.some.injEq] at h2
        subst h2
        rcases e1 e he with h3 | h3
        · exact Or.inl h3
        · exact Or.inr ⟨l, rfl, h3⟩

theorem cache_add_fits (c : cache) (key : String) (value : ByteView) (wf : c.WF)
    (hfit : c.cacheBytes = 0 ∨ lru.strLen key + value.Len ≤ c.cacheBytes) :
    ∃ c1 l1 rest, c.add key value = some c1 ∧ c1.lru = some l1 ∧
      l1.entries = (key, value) :: rest := by
  unfold cache.add
  cases hl : c.lru with
  | none =>
    simp only
    obtain ⟨l1, rest, ha, he⟩ := continue_hash.lru.store_Add_fits
      (continue_hash.lru.Init c.cacheBytes false) key value
      (continue_hash.lru.store_WF_Init _ _) hfit
    rw [ha]
    exact ⟨_, l1, rest, rfl, rfl, he⟩
  | some l =>
    simp only
    obtain ⟨wl, hm⟩ := wf l hl
    obtain ⟨l1, rest, ha, he⟩ := continue_hash.lru.store_Add_fits l key value wl
      (by rw [hm]; exact hfit)
    rw [ha]
    exact ⟨_, l1, rest, rfl, rfl, he⟩

theorem cache_get_front (c : cache) (l : continue_hash.lru.Cache ByteView) (key : String)
    (v : ByteView) (rest : List (String × ByteView)) (hl : c.lru = some l)
    (he : l.entries = (key, v) :: rest) : (c.get key).1 = (v, true) := by
  have h := continue_hash.lru.store_Get_front l key v rest he
  cases hg : continue_hash.lru.Get l key with
  | mk r l1 =>
    rw [hg] at h
    simp only at h
    subst h
    rw [cache_get_hit_eq c l l1 key v hl hg]

end geecache

namespace geecache

namespace day4

theorem Get_of_hit (g : Group) (key : String) (v : ByteView) (hk : key ≠ "")
    (h : (g.mainCache.get key).1 = (v, true)) :
    Get g key = some ((v, none), { g with mainCache := (g.mainCache.get key).2 }) := by
  unfold Get
  rw [if_neg hk]
  cases hc : g.mainCache.get key with
  | mk r c1 =>
    rw [hc] at h
    simp only at h
    subst h
    rfl

theorem Get_of_miss (g : Group) (key : String) (hk : key ≠ "")
    (h : (g.mainCache.get key).1.2 = false) :
    Get g key = getLocally { g with mainCache := (g.mainCache.get key).2 } key := by
  unfold Get load
  rw [if_neg hk]
  cases hc : g.mainCache.get key with
  | mk r c1 =>
    obtain ⟨v, ok⟩ := r
    rw [hc] at h
    simp only at h
    subst h
    rfl

theorem getLocally_ok (g : Group) (key : String) (b : List UInt8) (c1 : cache)
    (h : g.getter key = (b, none)) (hadd : g.mainCache.add key { b := b } = some c1) :
    getLocally g key =
      some (({ b := b }, none), { g with loads := g.loads ++ [key], mainCache := c1 }) := by
  simp [getLocally, populateCache, h, cloneBytes, hadd]

theorem getLocally_Inv (g g1 : Group) (key : String) (r : ByteView × Error) (inv : Inv g)
    (h : getLocally g key = some (r, g1)) :
    Inv g1 ∧ g1.getter = g.getter ∧ g1.mainCache.cacheBytes = g.mainCache.cacheBytes := by
  unfold getLocally at h
  simp only at h
  cases he : (g.getter key).2 with
  | some e =>
    rw [he] at h
    simp only [Option.some.injEq, Prod.mk.injEq] at h
    obtain ⟨-, h2⟩ := h
    subst h2
    exact ⟨inv, rfl, rfl⟩
  | none =>
    rw [he] at h
    simp only [populateCache] at h
    cases ha : g.mainCache.add key { b := cloneBytes (g.getter key).1 } with
    | none =>
      rw [ha] at h
      cases h
    | some c1 =>
      rw [ha] at h
      simp only [Option.some.injEq, Prod.mk.injEq] at h
      obtain ⟨-, h2⟩ := h
      subst h2
      obtain ⟨w1, m1, e1⟩ := cache_add_spec g.mainCache c1 key _ inv.1 ha
      refine ⟨⟨w1, ?_⟩, rfl, m1⟩
      intro l1 hl1 e hmem
      rcases e1 l1 hl1 e hmem with h3 | ⟨l, hl, h3⟩
      · subst h3
        show g.getter key = (cloneBytes (g.getter key).1, none)
        rw [← he]
        rfl
      · exact inv.2 l hl e h3

theorem Get_Inv (g g1 : Group) (key : String) (r : ByteView × Error) (inv : Inv g)
    (h : Get g key = some (r, g1)) :
    Inv g1 ∧ g1.getter = g.getter ∧ g1.mainCache.cacheBytes = g.mainCache.cacheBytes := by
  by_cases hk : key = ""
  · unfold Get at h
    rw [if_pos hk] at h
    simp only [Option.some.injEq, Prod.mk.injEq] at h
    obtain ⟨-, h2⟩ := h
    subst h2
    exact ⟨inv, rfl, rfl⟩
  · obtain ⟨w1, m1, e1, -, miss⟩ := cache_get_spec g.mainCache key inv.1
    cases hc : (g.mainCache.get key).1 with
    | mk v ok =>
      cases ok with
      | true =>
        rw [Get_of_hit g key v hk hc] at h
        simp only [Option.some.injEq, Prod.mk.injEq] at h
        obtain ⟨-, h2⟩ := h
        subst h2
        refine ⟨⟨w1, ?_⟩, rfl, m1⟩
        intro l1 hl1 e hmem
        obtain ⟨l, hl, hsub⟩ := e1 l1 hl1
        exact inv.2 l hl e (hsub e hmem)
      | false =>
        have hmiss : (g.mainCache.get key).1.2 = false := by rw [hc]
        rw [Get_of_miss g key hk hmiss, (miss hmiss).1] at h
        exact getLocally_Inv g g1 key r inv h

theorem Inv_NewGroup (groups reg : List (String × Group)) (name : String) (cacheBytes : Int)
    (getter : Getter) (g0 : Group)
    (h : NewGroup groups name cacheBytes (some getter) = some (g0, reg)) :
    Inv g0 ∧ g0.getter = getter ∧ g0.mainCache.cacheBytes = cacheBytes := by
  simp only [NewGroup, Option.some.injEq, Prod.mk.injEq] at h
  obtain ⟨h1, -⟩ := h
  subst h1
  refine ⟨⟨?_, ?_⟩, rfl, rfl⟩
  · intro l hl
    cases hl
  · intro l hl
    cases hl

theorem getAll_Inv (keys : List String) (g g1 : Group) (inv : Inv g)
    (h : getAll g keys = some g1) :
    Inv g1 ∧ g1.getter = g.getter ∧ g1.mainCache.cacheBytes = g.mainCache.cacheBytes := by
  induction keys generalizing g with
  | nil =>
    simp only [getAll, Option.some.injEq] at h
    subst h
    exact ⟨inv, rfl, rfl⟩
  | cons k ks ih =>
    unfold getAll at h
    cases hg : Get g k with
    | none =>
      rw [hg] at h
      cases h
    | some p =>
      obtain ⟨r, g2⟩ := p
      rw [hg] at h
      simp only at h
      obtain ⟨i2, a2, b2⟩ := Get_Inv g g2 k r inv hg
      obtain ⟨i3, a3, b3⟩ := ih g2 i2 h
      exact ⟨i3, a3.trans a2, b3.trans b2⟩

/-- A `Get` of a key the loader serves with bytes that fit the capacity returns these
bytes and leaves the entry at the front of the store, whether it was a hit or a
load. -/
theorem Get_serves (g : Group) (key : String) (b : List UInt8) (inv : Inv g) (hk : key ≠ "")
    (hload : g.getter key = (b, none))
    (hfit : g.mainCache.cacheBytes = 0 ∨
      lru.strLen key + (b.length : Int) ≤ g.mainCache.cacheBytes) :
    ∃ g1 l1 rest, Get g key = some (({ b := b }, none), g1) ∧
      g1.mainCache.lru = some l1 ∧ l1.entries = (key, { b := b }) :: rest ∧
      (g1.loads = g.loads ∨ g1.loads = g.loads ++ [key]) := by
  obtain ⟨-, -, e1, f1, miss⟩ := cache_get_spec g.mainCache key inv.1
  cases hc : (g.mainCache.get key).1 with
  | mk v ok =>
    cases ok with
    | true =>
      obtain ⟨l1, rest, hl1, he1⟩ := f1 v hc
      obtain ⟨l, hl, hsub⟩ := e1 l1 hl1
      have hmem : (key, v) ∈ l.entries := hsub _ (by rw [he1]; exact List.mem_cons_self _ _)
      have hv := inv.2 l hl (key, v) hmem
      simp only at hv
      rw [hload] at hv
      have hb : v = { b := b } := by
        cases v
        simp only [Prod.mk.injEq, and_true] at hv
        subst hv
        rfl
      subst hb
      exact ⟨_, l1, rest, Get_of_hit g key _ hk hc, hl1, he1, Or.inl rfl⟩
    | false =>
      have hmiss : (g.mainCache.get key).1.2 = false := by rw [hc]
      obtain ⟨c1, l1, rest, ha, hl1, he1⟩ := cache_add_fits g.mainCache key { b := b } inv.1 hfit
      refine ⟨{ g with loads := g.loads ++ [key], mainCache := c1 }, l1, rest, ?_, hl1, he1,
        Or.inr rfl⟩
      rw [Get_of_miss g key hk hmiss, (miss hmiss).1]
      exact getLocally_ok g key b c1 hload ha

theorem Get_front (g : Group) (l : continue_hash.lru.Cache ByteView) (key : String)
    (v : ByteView) (rest : List (String × ByteView)) (hk : key ≠ "")
    (hl : g.mainCache.lru = some l) (he : l.entries = (key, v) :: rest) :
    (g.mainCache.get key).1 = (v, true) ∧
      ∃ g2, Get g key = some ((v, none), g2) ∧ g2.loads = g.loads := by
  have h := cache_get_front g.mainCache l key v rest hl he
  exact ⟨h, _, Get_of_hit g key v hk h, rfl⟩

/-- C9. For a group created by `NewGroup` and brought to any state by `Get` calls, and
a non-empty key whose loader result is the bytes `b` without error, with
`len(key) + len(b)` within the capacity (or the capacity 0, unbounded): `Get(key)`
returns `b`; a second `Get(key)` returns `b` again, as a hit in the local shard and
without a call of the loader; over both calls the loader is called at most once. -/
theorem get_twice_loads_once (groups reg : List (String × Group)) (name : String)
    (cacheBytes : Int) (getter : Getter) (keys : List String) (g0 g : Group)
    (key : String) (b : List UInt8)
    (hnew : NewGroup groups name cacheBytes (some getter) = some (g0, reg))
    (hrun : getAll g0 keys = some g)
    (hk : key ≠ "") (hload : getter key = (b, none))
    (hfit : cacheBytes = 0 ∨ lru.strLen key + (b.length : Int) ≤ cacheBytes) :
    ∃ g1 g2, Get g key = some (({ b := b }, none), g1) ∧
      (g1.mainCache.get key).1 = ({ b := b }, true) ∧
      Get g1 key = some (({ b := b }, none), g2) ∧
      g2.loads = g1.loads ∧ (g1.loads = g.loads ∨ g1.loads = g.loads ++ [key]) := by
  obtain ⟨i0, a0, b0⟩ := Inv_NewGroup groups reg name cacheBytes getter g0 hnew
  obtain ⟨i1, a1, b1⟩ := getAll_Inv keys g0 g i0 hrun
  obtain ⟨g1, l1, rest, h1, hl1, he1, hloads⟩ := Get_serves g key b i1 hk
    (by rw [a1, a0]; exact hload) (by rw [b1, b0]; exact hfit)
  obtain ⟨h2, g2, h3, h4⟩ := Get_front g1 l1 key { b := b } rest hk hl1 he1
  exact ⟨g1, g2, h1, h2, h3, h4, hloads⟩

/-- Witness of C9: the group of `TestGet` after `Get("Jack")`, and the key `"Tom"`. -/
theorem get_twice_loads_once_witness :
    NewGroup [] "scores" 2048 (some dbGetter) = some (scoresGroup, [("scores", scoresGroup)]) ∧
    getAll scoresGroup ["Jack"] = some scoresAfterJack ∧
    "Tom" ≠ "" ∧ dbGetter "Tom" = (bytesOf "630", none) ∧
    ((2048 : Int) = 0 ∨ lru.strLen "Tom" + ((bytesOf "630").length : Int) ≤ 2048) ∧
    ∃ g1 g2, Get scoresAfterJack "Tom" = some (({ b := bytesOf "630" }, none), g1) ∧
      (g1.mainCache.get "Tom").1 = ({ b := bytesOf "630" }, true) ∧
      Get g1 "Tom" = some (({ b := bytesOf "630" }, none), g2) ∧
      g2.loads = g1.loads ∧
      (g1.loads = scoresAfterJack.loads ∨ g1.loads = scoresAfterJack.loads ++ ["Tom"]) :=
  ⟨rfl, rfl, by decide, by decide, by decide,
    get_twice_loads_once [] [("scores", scoresGroup)] "scores" 2048 dbGetter ["Jack"]
      scoresGroup scoresAfterJack "Tom" (bytesOf "630") rfl rfl (by decide) (by decide)
      (by decide)⟩

end day4

end geecache

namespace geecache

namespace day7

/-- C10, counterexample. With a picker that elects a remote peer serving `"Tom"`,
`load("Tom")` returns the bytes of the peer without error and the shard is as empty as
before: a lookup of `"Tom"` in it misses. -/
theorem load_from_peer_leaves_shard_empty :
    (load remoteGroup "Tom").map (fun r => (r.1, r.2.mainCache))
      = some (({ b := bytesOf "630" }, none), { lru := none, cacheBytes := 2048 }) ∧
    (cache.get { lru := none, cacheBytes := 2048 } "Tom").1 = (⟨[]⟩, false) :=
  ⟨by decide, by decide⟩

end day7

end geecache

/-! ## Further properties of the LRU store -/

namespace lru

variable {V : Type}

theorem RemoveOldest_config [Value V] (c c1 : Cache V) (h : RemoveOldest c = some c1) :
    c1.maxBytes = c.maxBytes ∧ c1.OnEvicted = c.OnEvicted := by
  unfold RemoveOldest callOnEvicted at h
  split at h
  · cases h
  · split at h
    · cases h
      exact ⟨rfl, rfl⟩
    · cases h

theorem dropIfFull_maxBytes [Value V] (c c1 : Cache V) (h : dropIfFull c = some c1) :
    c1.maxBytes = c.maxBytes := by
  unfold dropIfFull at h
  split at h
  · split at h
    · cases h
    · cases h
      rfl
  · cases h
    rfl

theorem Add_config [Value V] (c c1 : Cache V) (key : String) (value : V)
    (h : Add c key value = some c1) :
    c1.maxBytes = c.maxBytes ∧ c1.OnEvicted = c.OnEvicted := by
  unfold Add at h
  split at h
  · split at h
    · cases h
    · cases h
      exact ⟨rfl, rfl⟩
  · split at h
    · cases h
    · rename_i c0 hd
      simp only at h
      split at h
      · cases h
      · rename_i c3 hl
        obtain ⟨-, hm, -⟩ := evictLoop_spec _ _ _ hl
        have ho := evictLoop_OnEvicted _ _ _ hl
        unfold callOnEvicted at h
        split at h
        · cases h
          refine ⟨?_, ?_⟩
          · show c3.maxBytes = c.maxBytes
            rw [hm]
            exact dropIfFull_maxBytes c c0 hd
          · show c3.OnEvicted = c.OnEvicted
            rw [ho]
            exact dropIfFull_OnEvicted c c0 hd
        · cases h

theorem run_config [Value V] (ops : List (Op V)) (c c1 : Cache V)
    (h : run c ops = some c1) :
    c1.maxBytes = c.maxBytes ∧ c1.OnEvicted = c.OnEvicted := by
  induction ops generalizing c with
  | nil =>
    simp only [run, Option.some.injEq] at h
    subst h
    exact ⟨rfl, rfl⟩
  | cons op ops ih =>
    unfold run at h
    split at h
    · cases h
    · rename_i c2 h2
      obtain ⟨h3, h4⟩ := ih c2 h
      have h5 : c2.maxBytes = c.maxBytes ∧ c2.OnEvicted = c.OnEvicted := by
        cases op with
        | add k v => exact Add_config c c2 k v h2
        | get k =>
          simp only [step, Option.some.injEq] at h2
          subst h2
          exact ⟨rfl, rfl⟩
        | removeOldest => exact RemoveOldest_config c c2 h2
      exact ⟨h3.trans h5.1, h4.trans h5.2⟩

theorem sumBytes_nonneg [Value V] (hpos : ∀ v : V, 0 ≤ Value.Len v) (l : List (Element V)) :
    0 ≤ sumBytes l := by
  induction l with
  | nil => simp [sumBytes]
  | cons e l ih =>
    rw [sumBytes_cons]
    have h1 : 0 ≤ strLen e.key := by
      unfold strLen
      exact Int.ofNat_nonneg _
    have h2 := hpos e.value
    omega

/-- With a callback, a positive capacity and a front entry larger than the capacity,
the overflow loop unlinks every entry, the front one included. -/
theorem evictLoop_drains [Value V] (hpos : ∀ v : V, 0 ≤ Value.Len v) (fuel : Nat)
    (c : Cache V) (wf : WF c) (hcb : c.OnEvicted = true) (hmax : 0 < c.maxBytes)
    (hfront : ∀ e ∈ c.ll.head?, c.maxBytes < strLen e.key + Value.Len e.value)
    (hfuel : c.ll.length < fuel) :
    ∃ c1, evictLoop fuel c = some c1 ∧ c1.ll = [] ∧ c1.nBytes = 0 ∧
      c1.OnEvicted = true ∧ WF c1 := by
  induction fuel generalizing c with
  | zero => omega
  | succ n ih =>
    unfold evictLoop
    cases hll : c.ll with
    | nil =>
      have hb : c.nBytes = 0 := by rw [wf.bytes, hll]; simp [sumBytes]
      have hcond : ¬ (c.nBytes > c.maxBytes ∧ c.maxBytes ≠ 0) := by
        intro h
        omega
      rw [if_neg hcond]
      exact ⟨c, rfl, hll, hb, hcb, wf⟩
    | cons front rest =>
      have hf := hfront front (by rw [hll]; simp)
      have hb : c.nBytes = strLen front.key + Value.Len front.value + sumBytes rest := by
        rw [wf.bytes, hll, sumBytes_cons]
      have hr := sumBytes_nonneg hpos rest
      have hcond : c.nBytes > c.maxBytes ∧ c.maxBytes ≠ 0 := by
        constructor <;> omega
      rw [if_pos hcond]
      cases hro : RemoveOldest c with
      | none =>
        exfalso
        unfold RemoveOldest callOnEvicted at hro
        rw [hll, hcb] at hro
        cases hgl : (front :: rest).getLast? with
        | none => simp at hgl
        | some ele =>
          rw [hgl] at hro
          simp at hro
      | some c2 =>
        simp only
        obtain ⟨e, hsplit, -⟩ := RemoveOldest_spec c c2 hro
        obtain ⟨hm2, ho2⟩ := RemoveOldest_config c c2 hro
        have wf2 := WF_RemoveOldest c c2 hro wf
        have hlen : c.ll.length = c2.ll.length + 1 := by rw [hsplit]; simp
        apply ih c2 wf2 (by rw [ho2, hcb]) (by rw [hm2]; exact hmax) _ (by omega)
        intro e2 he2
        rw [hm2]
        cases hc2 : c2.ll with
        | nil => rw [hc2] at he2; simp at he2
        | cons a l =>
          rw [hc2] at he2
          simp only [List.head?_cons, Option.mem_def, Option.some.injEq] at he2
          subst he2
          rw [hll, hc2] at hsplit
          simp only [List.cons_append, List.cons.injEq] at hsplit
          rw [← hsplit.1]
          exact hf

/-- With capacity zero the first `Add` on the empty cache panics: the byte count
equals the capacity, `c.ll.Back()` is nil and `c.ll.Remove(nil)` dereferences it. -/
theorem Add_unbounded_empty_panics [Value V] (cb : Bool) (key : String) (value : V) :
    Add (Init 0 cb) key value = none := by
  simp [Add, Init, mapGet, dropIfFull]

/-- C18 (the code departs from the claim). With `Init(0, cb)` the first
`Add("k", "v")` on the empty cache panics instead of returning with the entry
resident. -/
theorem add_unbounded_first_add_panics :
    (Init 0 true : Cache String).maxBytes = 0 ∧
    run (Init 0 true) [Op.add "k" "v"] = none :=
  ⟨rfl, by decide⟩

/-- C19, counterexample. After `Init(3, cb)` and `Add("a", "b")`, the call
`Add("abc", "cd")` of a new entry of 5 bytes returns with no entry linked at all:
`Len()` is 0 and `"abc"` is not in the map. -/
theorem oversized_entry_is_evicted_too :
    ∃ c : Cache String,
      run (Init 3 true) [.add "a" "b", .add "abc" "cd"] = some c ∧
      strLen "abc" + Value.Len "cd" > c.maxBytes ∧
      Len c = 0 ∧ mapGet c.cahce "abc" = none :=
  ⟨_, rfl, by decide, by decide, by decide⟩

/-- C19, amended. On a cache obtained from `Init(maxBytes, cb)` with `maxBytes > 0`
by any calls, with lengths that are not negative, `Add` of a key that is not
resident with `len(k) + v.Len() > maxBytes` returns after unlinking every entry, the
oversized one included: afterwards `Len()` is 0, `nBytes` is 0 and no key is in the
map. -/
theorem add_oversized_empties_cache [Value V] (hpos : ∀ v : V, 0 ≤ Value.Len v)
    (maxBytes : Int) (ops : List (Op V)) (c : Cache V) (key : String) (value : V)
    (hrun : run (Init maxBytes true) ops = some c) (hmax : 0 < maxBytes)
    (hnew : mapGet c.cahce key = none)
    (hbig : maxBytes < strLen key + Value.Len value) :
    ∃ c1, Add c key value = some c1 ∧ Len c1 = 0 ∧ c1.nBytes = 0 ∧
      ∀ k, mapGet c1.cahce k = none := by
  have wf := WF_run ops _ c hrun (WF_Init maxBytes true)
  obtain ⟨hm, hcb⟩ := run_config ops _ c hrun
  have hm1 : c.maxBytes = maxBytes := hm
  have hcb1 : c.OnEvicted = true := hcb
  -- the full-cache block does not panic and keeps the invariant
  have hd : ∃ c0, dropIfFull c = some c0 ∧ WF c0 ∧ mapGet c0.cahce key = none ∧
      c0.maxBytes = maxBytes ∧ c0.OnEvicted = true := by
    unfold dropIfFull
    by_cases hfull : c.nBytes = c.maxBytes
    · rw [if_pos hfull]
      cases hl : c.ll.getLast? with
      | none =>
        exfalso
        have hnil : c.ll = [] := List.getLast?_eq_none_iff.1 hl
        have hb := wf.bytes
        rw [hnil] at hb
        simp [sumBytes] at hb
        omega
      | some ele =>
        refine ⟨_, rfl, WF_dropBack c ele hl wf, ?_, hm1, hcb1⟩
        show mapGet (mapDelete c.cahce ele.key) key = none
        rw [mapGet_mapDelete, hnew]
        simp
    · rw [if_neg hfull]
      exact ⟨c, rfl, wf, hnew, hm1, hcb1⟩
  obtain ⟨c0, hd0, wf0, hnew0, hm0, hcb0⟩ := hd
  -- the cache after the insertion is well formed
  have wf2 : WF (pushFront c0 key value) := by
    have hnk : ∀ e ∈ c0.ll, e.key ≠ key := by
      intro e he hek
      have := (wf0.mapList key e.addr).2 ⟨e, he, hek, rfl⟩
      rw [hnew0] at this
      cases this
    refine ⟨?_, ?_, ?_, ?_, ?_, mapSet_keys_nodup _ _ _ wf0.mapNodup⟩
    · show c0.nBytes + (Value.Len value + strLen key) = sumBytes (_ :: c0.ll)
      rw [sumBytes_cons, wf0.bytes]
      ring
    · show ((_ :: c0.ll).map (fun e => e.key)).Nodup
      rw [List.map_cons, List.nodup_cons]
      refine ⟨?_, wf0.keysNodup⟩
      intro hmem
      obtain ⟨e, he, hek⟩ := List.mem_map.1 hmem
      exact hnk e he hek
    · show ((_ :: c0.ll).map (fun e => e.addr)).Nodup
      rw [List.map_cons, List.nodup_cons]
      refine ⟨?_, wf0.addrNodup⟩
      intro hmem
      obtain ⟨e, he, hea⟩ := List.mem_map.1 hmem
      have := wf0.fresh e he
      simp only at hea
      omega
    · intro e he
      show e.addr < c0.next + 1
      rcases List.mem_cons.1 he with he | he
      · subst he
        simp
      · have := wf0.fresh e he
        omega
    · intro k a1
      show mapGet (mapSet c0.cahce key c0.next) k = some a1 ↔
        ∃ e ∈ (_ :: c0.ll), e.key = k ∧ e.addr = a1
      rw [mapGet_mapSet]
      constructor
      · intro hh
        split at hh
        · rename_i hk
          simp only [Option.some.injEq] at hh
          exact ⟨_, List.mem_cons_self _ _, hk.symm, hh⟩
        · obtain ⟨e, he, hek, hea⟩ := (wf0.mapList k a1).1 hh
          exact ⟨e, List.mem_cons_of_mem _ he, hek, hea⟩
      · rintro ⟨e, he, hek, hea⟩
        rcases List.mem_cons.1 he with he | he
        · subst he
          simp only at hek hea
          simp [hek.symm, hea]
        · have hne : k ≠ key := by
            intro hk
            exact hnk e he (hek.trans hk)
          rw [if_neg hne]
          exact (wf0.mapList k a1).2 ⟨e, he, hek, hea⟩
  obtain ⟨c3, hloop, hll3, hb3, hcb3, wf3⟩ :=
    evictLoop_drains hpos ((pushFront c0 key value).ll.length + 1) (pushFront c0 key value)
      wf2 hcb0 (by show 0 < c0.maxBytes; omega)
      (by
        intro e he
        simp only [pushFront, List.head?_cons, Option.mem_def, Option.some.injEq] at he
        subst he
        show c0.maxBytes < strLen key + Value.Len value
        omega)
      (Nat.lt_succ_self _)
  refine ⟨{ c3 with calls := c3.calls ++ [(key, value)] }, ?_, ?_, hb3, ?_⟩
  · unfold Add
    rw [hnew]
    simp only [hd0, hloop, callOnEvicted, hcb3, if_true]
  · show ((c3.ll.length : Nat) : Int) = 0
    rw [hll3]
    rfl
  · intro k
    cases hk : mapGet c3.cahce k with
    | none => rfl
    | some a =>
      obtain ⟨e, he, -⟩ := (wf3.mapList k a).1 hk
      rw [hll3] at he
      cases he

/-- Witness of C19 (amended): `Add("abc", "cd")` after `Init(3, cb)`, `Add("a", "b")`. -/
theorem add_oversized_empties_cache_witness :
    run (Init 3 true) [Op.add "a" "b"] = some oversizedDemo ∧
    (0 : Int) < 3 ∧ mapGet oversizedDemo.cahce "abc" = none ∧
    (3 : Int) < strLen "abc" + Value.Len "cd" ∧
    ∃ c1, Add oversizedDemo "abc" "cd" = some c1 ∧ Len c1 = 0 ∧ c1.nBytes = 0 ∧
      ∀ k, mapGet c1.cahce k = none :=
  ⟨by decide, by decide, by decide, by decide,
    add_oversized_empties_cache
      (fun v => by show 0 ≤ strLen v; unfold strLen; exact Int.ofNat_nonneg _)
      3 [Op.add "a" "b"] oversizedDemo "abc" "cd" (by decide) (by decide) (by decide)
      (by decide)⟩

end lru

/-! ## Properties of the single-flight coordinator and of the group loader -/

namespace singleflight

theorem filter_cons_absent (m : List String) (key : String) (h : key ∉ m) :
    (key :: m).filter (fun k => k != key) = m := by
  rw [List.filter_cons]
  simp only [bne_self_eq_false, Bool.false_eq_true, if_false]
  rw [List.filter_eq_self]
  intro k hk
  have : k ≠ key := fun hkk => h (hkk ▸ hk)
  simpa using this

/-- C12. On a coordinator with no call in flight for `key`, `Do(key, fn)` with an
`fn` that returns runs `fn` once (the state is the one `fn` leaves after one run),
returns what `fn` returned and leaves the coordinator without an entry for `key`,
so that a following `Do(key, fn2)` runs `fn2` and returns its result. -/
theorem do_runs_fn_and_forgets_key {σ R : Type} (g : Group) (key : String)
    (fn : σ → Option (R × σ)) (s s1 : σ) (r : R)
    (hfl : key ∉ g.m) (hfn : fn s = some (r, s1)) :
    ∃ g1, Do g key fn s = some (r, g1, s1) ∧ key ∉ g1.m ∧ g1 = g ∧
      ∀ (fn2 : σ → Option (R × σ)) (r2 : R) (s2 : σ), fn2 s1 = some (r2, s2) →
        Do g1 key fn2 s1 = some (r2, g1, s2) := by
  have hdo : ∀ (f : σ → Option (R × σ)) (t t1 : σ) (q : R), f t = some (q, t1) →
      Do g key f t = some (q, g, t1) := by
    intro f t t1 q hf
    unfold Do
    rw [if_neg hfl, hf]
    simp only
    rw [filter_cons_absent g.m key hfl]
  exact ⟨g, hdo fn s s1 r hfn, hfl, rfl, fun fn2 r2 s2 h2 => hdo fn2 s1 s2 r2 h2⟩

/-- Witness of C12: two calls in a row with a function that counts its runs return 0
and then 1. -/
theorem do_runs_fn_and_forgets_key_witness :
    "Tom" ∉ ({ m := [] } : Group).m ∧ countingFn 0 = some (0, 1) ∧
    ∃ g1, Do { m := [] } "Tom" countingFn 0 = some (0, g1, 1) ∧ "Tom" ∉ g1.m ∧
      g1 = { m := [] } ∧
      ∀ (fn2 : Nat → Option (Nat × Nat)) (r2 : Nat) (s2 : Nat), fn2 1 = some (r2, s2) →
        Do g1 "Tom" fn2 1 = some (r2, g1, s2) :=
  ⟨by decide, rfl,
    do_runs_fn_and_forgets_key { m := [] } "Tom" countingFn 0 1 0 (by decide) rfl⟩

end singleflight

namespace geecache

namespace day7

theorem getLocally_shape (g g1 : Group) (key : String) (v : ByteView) (err : Error)
    (h : getLocally g key = some ((v, err), g1)) :
    g1.loader = g.loader ∧ g1.fetches = g.fetches ∧ (err ≠ none → v = ⟨[]⟩) := by
  unfold getLocally at h
  simp only at h
  split at h
  · cases h
    exact ⟨rfl, rfl, fun _ => rfl⟩
  · unfold populateCache at h
    simp only at h
    split at h
    · cases h
    · rename_i g2 h2
      split at h2
      · cases h2
      · cases h2
        cases h
        exact ⟨rfl, rfl, fun hne => absurd rfl hne⟩

/-- The part of `load` around the function it hands to the coordinator changes
nothing when that function ends in `getLocally`. -/
theorem load_of_loadFn_getLocally (g g0 : Group) (key : String)
    (hfl : key ∉ g.loader.m) (hl : g0.loader = g.loader)
    (hfn : loadFn key g = getLocally g0 key) : load g key = getLocally g0 key := by
  unfold load singleflight.Do
  rw [if_neg hfl, hfn]
  simp only
  cases hg : getLocally g0 key with
  | none => rfl
  | some r =>
    obtain ⟨⟨v, err⟩, g1⟩ := r
    obtain ⟨h1, -, h3⟩ := getLocally_shape g0 g1 key v err hg
    simp only
    rw [singleflight.filter_cons_absent g.loader.m key hfl]
    have hg1 : ({ g1 with loader := { m := g.loader.m } } : Group) = g1 := by
      have : g1.loader = { m := g.loader.m } := by rw [h1, hl]
      cases g1
      simp only at this
      subst this
      rfl
    rw [hg1]
    cases err with
    | none => rfl
    | some e =>
      simp only
      rw [h3 (by simp)]

theorem getLocally_fst_congr (g g0 : Group) (key : String)
    (hg : g0.getter = g.getter) (hc : g0.mainCache = g.mainCache) :
    (getLocally g0 key).map Prod.fst = (getLocally g key).map Prod.fst := by
  unfold getLocally populateCache
  simp only [hg, hc]
  cases (g.getter key).2 with
  | some e => rfl
  | none =>
    simp only
    cases g.mainCache.add key { b := cloneBytes (g.getter key).1 } <;> rfl

/-- C11. For a group with no call in flight for the key: when a picker is
configured, elects a remote getter and the fetch succeeds, `load` returns the bytes
of the peer without error and the loader is not invoked; when that fetch fails,
`load` is `getLocally` run after the one fetch, and returns what `getLocally`
returns; with no picker, or when the picker elects no peer, `load` is `getLocally`
and no fetch is attempted. -/
theorem load_peer_then_loader (g : Group) (key : String) (hfl : key ∉ g.loader.m) :
    (∀ pick peer, g.peers = some pick → pick key = some peer →
      (peer g.name key).2 = none →
      ∃ g1, load g key = some (({ b := (peer g.name key).1 }, none), g1) ∧
        g1.loads = g.loads) ∧
    (∀ pick peer, g.peers = some pick → pick key = some peer →
      (peer g.name key).2 ≠ none →
      load g key = getLocally { g with fetches := g.fetches ++ [(g.name, key)] } key ∧
      (load g key).map Prod.fst = (getLocally g key).map Prod.fst) ∧
    ((g.peers = none ∨ ∃ pick, g.peers = some pick ∧ pick key = none) →
      load g key = getLocally g key ∧
      ∀ r, load g key = some r → r.2.fetches = g.fetches) := by
  refine ⟨?_, ?_, ?_⟩
  · intro pick peer hp hpk hok
    unfold load singleflight.Do
    rw [if_neg hfl]
    simp only [loadFn, hp, hpk, getFromPeer, hok]
    exact ⟨_, rfl, rfl⟩
  · intro pick peer hp hpk hfail
    have hfn : loadFn key g
        = getLocally { g with fetches := g.fetches ++ [(g.name, key)] } key := by
      cases he : (peer g.name key).2 with
      | none => exact absurd he hfail
      | some e => simp only [loadFn, hp, hpk, getFromPeer, he]
    have h1 := load_of_loadFn_getLocally g
      { g with fetches := g.fetches ++ [(g.name, key)] } key hfl rfl hfn
    refine ⟨h1, ?_⟩
    rw [h1]
    exact getLocally_fst_congr g { g with fetches := g.fetches ++ [(g.name, key)] } key
      rfl rfl
  · intro hno
    have hfn : loadFn key g = getLocally g key := by
      rcases hno with hp | ⟨pick, hp, hpk⟩
      · simp only [loadFn, hp]
      · simp only [loadFn, hp, hpk]
    have h1 := load_of_loadFn_getLocally g g key hfl rfl hfn
    refine ⟨h1, ?_⟩
    intro r hr
    rw [h1] at hr
    obtain ⟨⟨v, err⟩, g1⟩ := r
    exact (getLocally_shape g g1 key v err hr).2.1

/-- Witness of C11 on `remoteGroup`, whose picker elects a peer that serves the
key: the loader is not invoked. -/
theorem load_peer_then_loader_witness :
    "Tom" ∉ remoteGroup.loader.m ∧ remoteGroup.peers = some remotePicker ∧
    remotePicker "Tom" = some scorePeer ∧ (scorePeer remoteGroup.name "Tom").2 = none ∧
    ∃ g1, load remoteGroup "Tom"
        = some (({ b := (scorePeer remoteGroup.name "Tom").1 }, none), g1) ∧
      g1.loads = remoteGroup.loads :=
  ⟨by decide, rfl, rfl, rfl,
    (load_peer_then_loader remoteGroup "Tom" (by decide)).1 remotePicker scorePeer
      rfl rfl rfl⟩

end day7

end geecache

namespace geecache

namespace day7

theorem cache_get_miss (c : cache) (key : String) (h : (c.get key).1.2 = false) :
    (c.get key).2 = c ∧ (c.get key).1.1 = ⟨[]⟩ := by
  cases hl : c.lru with
  | none =>
    rw [cache_get_nil c key hl]
    exact ⟨rfl, rfl⟩
  | some l =>
    cases hg : continue_hash.lru.Get l key with
    | mk r l1 =>
      cases r with
      | some val =>
        rw [cache_get_hit_eq c l l1 key val hl hg] at h
        simp at h
      | none =>
        rw [cache_get_miss_eq c l l1 key hl hg]
        have hmiss := continue_hash.lru.store_Get_miss l key (by rw [hg])
        rw [hg] at hmiss
        simp only at hmiss
        subst hmiss
        refine ⟨?_, rfl⟩
        cases c
        simp only at hl
        subst hl
        rfl

theorem Get_miss_is_load (g : Group) (key : String) (hk : key ≠ "")
    (h : (g.mainCache.get key).1.2 = false) : Get g key = load g key := by
  have hc := (cache_get_miss g.mainCache key h).1
  unfold Get
  rw [if_neg hk]
  cases hget : g.mainCache.get key with
  | mk r c1 =>
    obtain ⟨v, ok⟩ := r
    rw [hget] at h hc
    simp only at h hc
    subst h
    subst hc
    rfl

/-- With no call in flight for the key and no elected peer whose fetch succeeds,
`load` is `getLocally`, run on the group as it is or after the one failed fetch has
been recorded. -/
theorem load_reaches_loader (g : Group) (key : String) (hfl : key ∉ g.loader.m)
    (hpeer : ∀ pick peer, g.peers = some pick → pick key = some peer →
      (peer g.name key).2 ≠ none) :
    ∃ g0, load g key = getLocally g0 key ∧ g0.getter = g.getter ∧
      g0.mainCache = g.mainCache ∧ g0.loads = g.loads ∧ g0.name = g.name ∧
      g0.peers = g.peers ∧ g0.loader = g.loader := by
  cases hp : g.peers with
  | none =>
    have hfn : loadFn key g = getLocally g key := by simp only [loadFn, hp]
    exact ⟨g, load_of_loadFn_getLocally g g key hfl rfl hfn, rfl, rfl, rfl, rfl, hp, rfl⟩
  | some pick =>
    cases hpk : pick key with
    | none =>
      have hfn : loadFn key g = getLocally g key := by simp only [loadFn, hp, hpk]
      exact ⟨g, load_of_loadFn_getLocally g g key hfl rfl hfn, rfl, rfl, rfl, rfl, hp, rfl⟩
    | some peer =>
      have hfail := hpeer pick peer hp hpk
      have hfn : loadFn key g
          = getLocally { g with fetches := g.fetches ++ [(g.name, key)] } key := by
        cases he : (peer g.name key).2 with
        | none => exact absurd he hfail
        | some e => simp only [loadFn, hp, hpk, getFromPeer, he]
      exact ⟨{ g with fetches := g.fetches ++ [(g.name, key)] },
        load_of_loadFn_getLocally g _ key hfl rfl hfn, rfl, rfl, rfl, rfl, hp, rfl⟩

theorem getLocally_success (g : Group) (key : String) (b : List UInt8) (c1 : cache)
    (h : g.getter key = (b, none)) (hadd : g.mainCache.add key { b := b } = some c1) :
    getLocally g key =
      some (({ b := b }, none), { g with loads := g.loads ++ [key], mainCache := c1 }) := by
  simp [getLocally, populateCache, h, cloneBytes, hadd]

/-- C10, amended. For a group with no call in flight for the key: when a picker is
configured, elects a remote peer and the fetch succeeds, `load` returns a ByteView
over the bytes of the peer without error and leaves the local shard unchanged; when
the load reaches the loader (no picker, no peer elected, or a failed fetch), the
loader returns the bytes `b` without error and `len(key) + len(b)` is within the
capacity of the shard (or the capacity is 0), `load` returns a ByteView over `b` and
the shard afterwards holds the key with that ByteView: a lookup of the key hits and
yields it. -/
theorem load_populates_from_loader_only (g : Group) (key : String)
    (hfl : key ∉ g.loader.m) :
    (∀ pick peer bytes, g.peers = some pick → pick key = some peer →
      peer g.name key = (bytes, none) →
      ∃ g1, load g key = some (({ b := bytes }, none), g1) ∧ g1.mainCache = g.mainCache) ∧
    (∀ b, g.mainCache.WF →
      (∀ pick peer, g.peers = some pick → pick key = some peer →
        (peer g.name key).2 ≠ none) →
      g.getter key = (b, none) →
      (g.mainCache.cacheBytes = 0 ∨
        lru.strLen key + (b.length : Int) ≤ g.mainCache.cacheBytes) →
      ∃ g1, load g key = some (({ b := b }, none), g1) ∧
        (g1.mainCache.get key).1 = ({ b := b }, true) ∧ g1.mainCache.WF ∧
        g1.loads = g.loads ++ [key]) := by
  constructor
  · intro pick peer bytes hp hpk hf
    unfold load singleflight.Do
    rw [if_neg hfl]
    simp only [loadFn, hp, hpk, getFromPeer, hf]
    exact ⟨_, rfl, rfl⟩
  · intro b wf hpeer hload hfit
    obtain ⟨g0, h0, hg0, hc0, hl0, -⟩ := load_reaches_loader g key hfl hpeer
    obtain ⟨c1, l1, rest, ha, hl1, he1⟩ :=
      cache_add_fits g.mainCache key { b := b } wf hfit
    obtain ⟨w1, -⟩ := cache_add_spec g.mainCache c1 key { b := b } wf ha
    refine ⟨{ g0 with loads := g0.loads ++ [key], mainCache := c1 }, ?_, ?_, w1, ?_⟩
    · rw [h0]
      exact getLocally_success g0 key b c1 (by rw [hg0]; exact hload) (by rw [hc0]; exact ha)
    · exact cache_get_front c1 l1 key { b := b } rest hl1 he1
    · show g0.loads ++ [key] = g.loads ++ [key]
      rw [hl0]

/-- Witness of C10 (amended): on `remoteGroup` the peer serves `"Tom"` and the shard
stays as it was; on `scoresGroup`, which has no picker, the loader serves `"Tom"` and
the shard then holds it. -/
theorem load_populates_from_loader_only_witness :
    ("Tom" ∉ remoteGroup.loader.m ∧ remoteGroup.peers = some remotePicker ∧
      remotePicker "Tom" = some scorePeer ∧
      scorePeer remoteGroup.name "Tom" = (bytesOf "630", none) ∧
      ∃ g1, load remoteGroup "Tom" = some (({ b := bytesOf "630" }, none), g1) ∧
        g1.mainCache = remoteGroup.mainCache) ∧
    ("Tom" ∉ scoresGroup.loader.m ∧ scoresGroup.mainCache.WF ∧
      scoresGroup.getter "Tom" = (bytesOf "630", none) ∧
      (scoresGroup.mainCache.cacheBytes = 0 ∨
        lru.strLen "Tom" + ((bytesOf "630").length : Int) ≤ scoresGroup.mainCache.cacheBytes) ∧
      ∃ g1, load scoresGroup "Tom" = some (({ b := bytesOf "630" }, none), g1) ∧
        (g1.mainCache.get "Tom").1 = ({ b := bytesOf "630" }, true) ∧ g1.mainCache.WF ∧
        g1.loads = scoresGroup.loads ++ ["Tom"]) :=
  ⟨⟨by decide, rfl, rfl, rfl,
      (load_populates_from_loader_only remoteGroup "Tom" (by decide)).1 remotePicker
        scorePeer (bytesOf "630") rfl rfl rfl⟩,
    ⟨by decide, by intro l hl; simp [scoresGroup] at hl, by decide, by decide,
      (load_populates_from_loader_only scoresGroup "Tom" (by decide)).2 (bytesOf "630")
        (by intro l hl; simp [scoresGroup] at hl)
        (by intro pick peer hp; simp [scoresGroup] at hp) (by decide) (by decide)⟩⟩

/-- One `Get` of a non-empty key that is not in the shard, whose load reaches the
loader and whose loader returns an error: the error is returned with an empty
ByteView, the loader has been invoked once more, and nothing else in the group has
changed. -/
theorem Get_loader_error (g : Group) (key e : String) (hk : key ≠ "")
    (hfl : key ∉ g.loader.m) (hmiss : (g.mainCache.get key).1.2 = false)
    (herr : (g.getter key).2 = some e)
    (hpeer : ∀ pick peer, g.peers = some pick → pick key = some peer →
      (peer g.name key).2 ≠ none) :
    ∃ g1, Get g key = some ((⟨[]⟩, some e), g1) ∧ g1.mainCache = g.mainCache ∧
      g1.loads = g.loads ++ [key] ∧ g1.getter = g.getter ∧ g1.peers = g.peers ∧
      g1.name = g.name ∧ g1.loader = g.loader := by
  rw [Get_miss_is_load g key hk hmiss]
  obtain ⟨g0, h0, hg0, hc0, hl0, hn0, hp0, hd0⟩ := load_reaches_loader g key hfl hpeer
  rw [h0]
  have herr0 : (g0.getter key).2 = some e := by rw [hg0]; exact herr
  simp only [getLocally, herr0]
  exact ⟨_, rfl, hc0, by rw [hl0], hg0, hp0, hn0, hd0⟩

/-- C20, counterexample. The loader of `remoteGroup` returns an error for the key
`"unkown"`, yet `Get("unkown")` returns the bytes of the elected peer without error
and the loader is not invoked. -/
theorem get_served_by_peer_despite_loader_error :
    "unkown" ≠ "" ∧ (remoteGroup.getter "unkown").2 = some "unkown key not exist" ∧
      (Get remoteGroup "unkown").map (fun r => (r.1, r.2.loads)) =
        some (({ b := bytesOf "630" }, none), []) := by
  decide

/-- C20, amended. For a non-empty key that is not in the local shard, with no call
in flight, whose load reaches the loader (no picker, no peer elected, or a failing
fetch) and whose loader returns the error `e`: `Get` returns `e` with an empty
ByteView, the shard is unchanged, and a second `Get` invokes the loader again and
returns `e` again. -/
theorem get_surfaces_loader_error (g : Group) (key e : String) (hk : key ≠ "")
    (hfl : key ∉ g.loader.m) (hmiss : (g.mainCache.get key).1.2 = false)
    (herr : (g.getter key).2 = some e)
    (hpeer : ∀ pick peer, g.peers = some pick → pick key = some peer →
      (peer g.name key).2 ≠ none) :
    ∃ g1 g2, Get g key = some ((⟨[]⟩, some e), g1) ∧ g1.mainCache = g.mainCache ∧
      g1.loads = g.loads ++ [key] ∧
      Get g1 key = some ((⟨[]⟩, some e), g2) ∧ g2.mainCache = g.mainCache ∧
      g2.loads = g.loads ++ [key, key] := by
  obtain ⟨g1, h1, hc1, hl1, hg1, hp1, hn1, hd1⟩ :=
    Get_loader_error g key e hk hfl hmiss herr hpeer
  obtain ⟨g2, h2, hc2, hl2, -⟩ := Get_loader_error g1 key e hk (by rw [hd1]; exact hfl)
    (by rw [hc1]; exact hmiss) (by rw [hg1]; exact herr)
    (by
      intro pick peer hp hpk
      rw [hn1]
      exact hpeer pick peer (hp1 ▸ hp) hpk)
  refine ⟨g1, g2, h1, hc1, hl1, h2, hc2.trans hc1, ?_⟩
  rw [hl2, hl1]
  simp

/-- Witness of C20 (amended): the key `"unkown"` of the test, absent from the backing
map, on a group with an empty shard whose elected peer fails. -/
theorem get_surfaces_loader_error_witness :
    "unkown" ≠ "" ∧ "unkown" ∉ brokenPeerGroup.loader.m ∧
    (brokenPeerGroup.mainCache.get "unkown").1.2 = false ∧
    (brokenPeerGroup.getter "unkown").2 = some "unkown key not exist" ∧
    ∃ g1 g2, Get brokenPeerGroup "unkown" = some ((⟨[]⟩, some "unkown key not exist"), g1) ∧
      g1.mainCache = brokenPeerGroup.mainCache ∧
      g1.loads = brokenPeerGroup.loads ++ ["unkown"] ∧
      Get g1 "unkown" = some ((⟨[]⟩, some "unkown key not exist"), g2) ∧
      g2.mainCache = brokenPeerGroup.mainCache ∧
      g2.loads = brokenPeerGroup.loads ++ ["unkown", "unkown"] :=
  ⟨by decide, by decide, by decide, by decide,
    get_surfaces_loader_error brokenPeerGroup "unkown" "unkown key not exist"
      (by decide) (by decide) (by decide) (by decide)
      (by
        intro pick peer hp hpk
        have h1 : pick = fun _ => some brokenPeer := (Option.some.inj hp).symm
        subst h1
        have h2 : peer = brokenPeer := (Option.some.inj hpk).symm
        subst h2
        simp [brokenPeer])⟩

end day7

end geecache

/-! ## Properties of the peer transport -/

namespace geecache

namespace day5

/-- C14 (the code departs from the claim). For the peer address
`http://localhost:8002` registered through `Set`, group `scores` and key `Tom`: the
getter has base URL `http://localhost:8002/_geecache` and requests
`http://localhost:8002/_geecachescores/Tom`, with no slash between the base path and
the group; this is not `a + basePath + "/" + g + "/" + k`, and `ServeHTTP` takes the
path `/_geecachescores/Tom` (it holds no escape) apart into group `cores` and key
`Tom`. -/
theorem peer_url_lacks_separator :
    (Set (NewHTTPPool "http://localhost:8001")
        ["http://localhost:8001", "http://localhost:8002"]).httpGetters.lookup
      "http://localhost:8002" = some { baseURL := "http://localhost:8002/_geecache" } ∧
    requestURL { baseURL := "http://localhost:8002/_geecache" } "scores" "Tom"
      = "http://localhost:8002" ++ "/_geecachescores/Tom" ∧
    requestURL { baseURL := "http://localhost:8002/_geecache" } "scores" "Tom"
      ≠ "http://localhost:8002" ++ defaultBasePath ++ "/" ++ QueryEscape "scores" ++ "/"
          ++ QueryEscape "Tom" ∧
    parseRequest (NewHTTPPool "http://localhost:8002") "/_geecachescores/Tom"
      = some (some ("cores", "Tom")) :=
  ⟨by decide, by decide, by decide, by decide⟩

/-- C15 (the code departs from the claim). The path `/_geecache`, which begins with
the base path, makes `ServeHTTP` of day5 panic: the slice
`r.URL.Path[len(p.basePath)+1:]` starts beyond the end of the path.  The handler of
day4 answers 400 to the same path.  And the path `/_geecache-scores/Tom`, which is
not of the form base path, slash, group, slash, key, is taken apart into group
`scores` and key `Tom` and answered with 404 by a server without groups, not with
400. -/
theorem serve_base_path_panics :
    HasPrefix "/_geecache" (NewHTTPPool "http://localhost:8001").basePath = true ∧
    ServeHTTP (G := Unit) (NewHTTPPool "http://localhost:8001") (fun _ => none)
      (fun _ _ => none) "/_geecache" = none ∧
    (day4.ServeHTTP (day4.NewHTTPPool "localhost:8081") [] "/_geecache").map
      (fun r => r.1.status) = some 400 ∧
    (ServeHTTP (G := Unit) (NewHTTPPool "http://localhost:8001") (fun _ => none)
      (fun _ _ => none) "/_geecache-scores/Tom").map (fun r => r.1.status) = some 404 :=
  ⟨by decide, by decide, by decide, by decide⟩

end day5

end geecache

/-! ## Properties of the RPC client -/

namespace client

theorem lookup_filter_ne (m : List (Nat × Call)) (k s : Nat) (h : s ≠ k) :
    List.lookup s (m.filter (fun p => p.1 != k)) = List.lookup s m := by
  induction m with
  | nil => rfl
  | cons p m ih =>
    obtain ⟨k1, v1⟩ := p
    by_cases h1 : k1 = k
    · subst h1
      have hs : (s == k1) = false := by simpa using h
      simp [List.filter_cons, List.lookup_cons, hs, ih]
    · have hne : (k1 != k) = true := by simpa using h1
      simp only [List.filter_cons, hne, if_true, List.lookup_cons, ih]

theorem filter_fresh (m : List (Nat × Call)) (k : Nat) (h : ∀ p ∈ m, p.1 < k) :
    m.filter (fun p => p.1 != k) = m := by
  rw [List.filter_eq_self]
  intro p hp
  have := h p hp
  have hne : p.1 ≠ k := by omega
  simpa using hne

theorem filter_absent (m : List (Nat × Call)) (k : Nat) (h : List.lookup k m = none) :
    m.filter (fun p => p.1 != k) = m := by
  rw [List.filter_eq_self]
  intro p hp
  have := (List.lookup_eq_none_iff.1 h) p hp
  simpa [bne_iff_ne, ne_comm] using this

/-- Deleting a key that the map holds removes exactly the entry found under it. -/
theorem filter_found (m : List (Nat × Call)) (k : Nat) (v : Call)
    (hnd : (m.map Prod.fst).Nodup) (h : List.lookup k m = some v) :
    ∃ A B, m = A ++ (k, v) :: B ∧ m.filter (fun p => p.1 != k) = A ++ B := by
  induction m with
  | nil => simp at h
  | cons p m ih =>
    obtain ⟨k1, v1⟩ := p
    rw [List.map_cons, List.nodup_cons] at hnd
    by_cases h1 : k = k1
    · subst h1
      simp only [List.lookup_cons, beq_self_eq_true, Option.some.injEq] at h
      subst h
      refine ⟨[], m, rfl, ?_⟩
      simp only [List.filter_cons, bne_self_eq_false, Bool.false_eq_true, if_false,
        List.nil_append]
      rw [List.filter_eq_self]
      intro p hp
      have : p.1 ≠ k := by
        intro hpk
        apply hnd.1
        rw [← hpk]
        exact List.mem_map.2 ⟨p, hp, rfl⟩
      simpa using this
    · have hb : (k == k1) = false := by simpa using h1
      simp only [List.lookup_cons, hb] at h
      obtain ⟨A, B, hm, hf⟩ := ih hnd.2 h
      refine ⟨(k1, v1) :: A, B, by rw [hm]; rfl, ?_⟩
      have hne : (k1 != k) = true := by simpa using (Ne.symm h1)
      simp only [List.filter_cons, hne, if_true, hf, List.cons_append]

theorem Inv_new : Inv newClientCodec [] := by
  constructor <;> simp [newClientCodec, pendingIds, deliveredIds]

/-- Taking a call out of `pending` and sending it on its channel keeps the
invariant. -/
theorem Inv_remove_done (c : Client) (S : List Nat) (k : Nat) (call : Call)
    (e : Option String) (inv : Inv c S) (hs : c.shutdown = false)
    (hl : List.lookup k c.pending = some call) :
    Inv (done (removeCall c k).2 { call with Error := e }) S := by
  obtain ⟨A, B, hm, hf⟩ := filter_found c.pending k call inv.keys hl
  have hp := inv.live hs
  refine ⟨?_, ?_, inv.alive, ?_, ?_⟩
  · show ((c.pending.filter (fun p => p.1 != k)).map Prod.fst).Nodup
    exact inv.keys.sublist ((List.filter_sublist c.pending).map Prod.fst)
  · intro p hp1
    exact inv.keysLt p (List.mem_of_mem_filter hp1)
  · intro _
    show ((c.pending.filter (fun p => p.1 != k)).map (fun p : Nat × Call => p.2.id)
      ++ (c.delivered ++ [{ call with Error := e }]).map (fun x : Call => x.id)).Perm S
    rw [hf]
    unfold pendingIds deliveredIds at hp
    rw [hm] at hp
    refine List.Perm.trans ?_ hp
    simp only [List.map_append, List.map_cons, List.map_nil, List.append_assoc]
    apply List.Perm.append_left
    -- B ++ (D ++ [id])  ~  id :: (B ++ D)
    have h1 : (List.map (fun p : Nat × Call => p.2.id) B ++ (List.map (fun x : Call => x.id) c.delivered
        ++ [call.id])).Perm
        (call.id :: (List.map (fun p : Nat × Call => p.2.id) B ++ List.map (fun x : Call => x.id) c.delivered)) := by
      rw [← List.append_assoc]
      exact List.perm_append_singleton _ _
    exact h1
  · intro h
    change c.shutdown = true at h
    rw [hs] at h
    cases h

/-- Running `terminateCalls` at the end of the receive loop keeps the invariant. -/
theorem Inv_terminate (c : Client) (S : List Nat) (err : String) (inv : Inv c S)
    (hs : c.shutdown = false) :
    Inv { terminateCalls c err with receiving := false } S := by
  have hp := inv.live hs
  refine ⟨?_, ?_, ?_, ?_, ?_⟩
  · show ((c.pending.map (fun p : Nat × Call => (p.1, { p.2 with Error := some err }))).map Prod.fst).Nodup
    rw [List.map_map]
    exact inv.keys
  · intro p hp1
    change p ∈ c.pending.map (fun p : Nat × Call => (p.1, { p.2 with Error := some err })) at hp1
    obtain ⟨q, hq, rfl⟩ := List.mem_map.1 hp1
    exact inv.keysLt q hq
  · intro h
    cases h
  · intro h
    cases h
  · intro _
    show ((c.delivered ++ c.pending.map (fun p : Nat × Call => { p.2 with Error := some err })).map
      (fun x : Call => x.id)).Perm S
    refine List.Perm.trans ?_ hp
    unfold pendingIds deliveredIds
    simp only [List.map_append, List.map_map]
    exact List.perm_append_comm

/-- A successful `registerCall` of a new call keeps the invariant. -/
theorem Inv_register (c : Client) (S : List Nat) (call : Call) (inv : Inv c S)
    (hc : c.closing = false) (hs : c.shutdown = false) :
    (registerCall c call).1 = (c.seq, none) ∧
    (registerCall c call).2.shutdown = false ∧
    List.lookup c.seq (registerCall c call).2.pending = some { call with Seq := c.seq } ∧
    Inv (registerCall c call).2 (S ++ [call.id]) := by
  have hreg : registerCall c call = ((c.seq, none),
      { c with
        pending := (c.seq, { call with Seq := c.seq }) :: c.pending
        seq := c.seq + 1 }) := by
    unfold registerCall
    simp only [hc, hs, Bool.or_self, Bool.false_eq_true, if_false]
    rw [filter_fresh c.pending c.seq inv.keysLt]
  rw [hreg]
  refine ⟨rfl, hs, by simp [List.lookup_cons], ?_, ?_, inv.alive, ?_, ?_⟩
  · show (((c.seq, { call with Seq := c.seq }) :: c.pending).map Prod.fst).Nodup
    rw [List.map_cons, List.nodup_cons]
    refine ⟨?_, inv.keys⟩
    intro hmem
    obtain ⟨p, hp, hpk⟩ := List.mem_map.1 hmem
    have := inv.keysLt p hp
    omega
  · intro p hp
    show p.1 < c.seq + 1
    rcases List.mem_cons.1 hp with hp | hp
    · subst hp
      simp
    · have := inv.keysLt p hp
      omega
  · intro _
    have hp := inv.live hs
    show (call.id :: pendingIds c ++ deliveredIds c).Perm (S ++ [call.id])
    exact (List.Perm.cons call.id hp).trans (List.perm_append_singleton _ _).symm
  · intro h
    change c.shutdown = true at h
    rw [hs] at h
    cases h

theorem Inv_header (c : Client) (S : List Nat) (h : Header) (inv : Inv c S) :
    Inv { c with header := h } S :=
  ⟨inv.keys, inv.keysLt, inv.alive, inv.live, inv.dead⟩

/-- The method `send` on a new call keeps the invariant. -/
theorem Inv_send (c : Client) (S : List Nat) (call : Call) (write : Option String)
    (inv : Inv c S) : Inv (send c call write) (S ++ [call.id]) := by
  by_cases hopen : c.closing = false ∧ c.shutdown = false
  · obtain ⟨hc, hs⟩ := hopen
    obtain ⟨h1, h2, h3, h4⟩ := Inv_register c S call inv hc hs
    unfold send
    cases hr : registerCall c call with
    | mk res c1 =>
      rw [hr] at h1 h2 h3 h4
      simp only at h1 h2 h3 h4
      subst h1
      simp only
      cases write with
      | none => exact Inv_header c1 _ _ h4
      | some e =>
        simp only
        have h5 := Inv_remove_done
          { c1 with header := { ServiceMethod := call.ServiceMethod, Seq := c.seq, Error := "" } }
          (S ++ [call.id]) c.seq { call with Seq := c.seq } (some e)
          (Inv_header c1 _ _ h4) h2 h3
        unfold removeCall at h5 ⊢
        simp only at h5 ⊢
        rw [h3]
        exact h5
  · have hclosed : (c.closing || c.shutdown) = true := by
      cases hc : c.closing <;> cases hs : c.shutdown <;> simp_all
    have hreg : registerCall c call = ((0, some ErrShutdown), c) := by
      unfold registerCall
      rw [if_pos hclosed]
    unfold send
    rw [hreg]
    simp only
    refine ⟨inv.keys, inv.keysLt, inv.alive, ?_, ?_⟩
    · intro hs
      have hp := inv.live hs
      show (pendingIds c ++ (c.delivered ++ [{ call with Error := some ErrShutdown }]).map
        (fun x : Call => x.id)).Perm (S ++ [call.id])
      unfold pendingIds deliveredIds at hp
      unfold pendingIds
      simp only [List.map_append, List.map_cons, List.map_nil]
      rw [← List.append_assoc]
      exact List.Perm.append_right _ hp
    · intro hs
      have hp := inv.dead hs
      show ((c.delivered ++ [{ call with Error := some ErrShutdown }]).map
        (fun x : Call => x.id)).Perm (S ++ [call.id])
      unfold deliveredIds at hp
      simp only [List.map_append, List.map_cons, List.map_nil]
      exact List.Perm.append_right _ hp

theorem sentIds_cons (ev : Event) (evs : List Event) :
    sentIds (ev :: evs) = sentIds [ev] ++ sentIds evs := by
  cases ev <;> simp [sentIds]

/-- Every event keeps the invariant. -/
theorem Inv_step (c : Client) (S : List Nat) (ev : Event) (inv : Inv c S) :
    Inv (stepEvent c ev) (S ++ sentIds [ev]) := by
  cases ev with
  | send call write => exact Inv_send c S call write inv
  | close =>
    simp only [sentIds, List.append_nil, stepEvent, Close]
    split
    · exact inv
    · exact ⟨inv.keys, inv.keysLt, inv.alive, inv.live, inv.dead⟩
  | incoming inc =>
    simp only [sentIds, List.append_nil, stepEvent]
    by_cases hr : c.receiving = true
    · rw [if_pos hr]
      have hs := inv.alive hr
      cases inc with
      | fail err =>
        simp only [receiveStep]
        exact Inv_terminate c S err inv hs
      | header h body =>
        simp only [receiveStep]
        cases hl : List.lookup h.Seq c.pending with
        | none =>
          have hc1 : (removeCall c h.Seq) = (none, c) := by
            unfold removeCall
            rw [hl, filter_absent c.pending h.Seq hl]
          rw [hc1]
          exact inv
        | some call =>
          have hc1 : (removeCall c h.Seq) = (some call, (removeCall c h.Seq).2) := by
            unfold removeCall
            rw [hl]
          rw [hc1]
          simp only
          by_cases herr : h.Error ≠ ""
          · rw [if_pos herr]
            exact Inv_remove_done c S h.Seq call _ inv hs hl
          · rw [if_neg herr]
            cases body with
            | none => exact Inv_remove_done c S h.Seq call call.Error inv hs hl
            | some e =>
              simp only
              apply Inv_terminate _ S e (Inv_remove_done c S h.Seq call _ inv hs hl)
              exact hs
    · rw [if_neg hr]
      exact inv

theorem Inv_run (evs : List Event) (c : Client) (S : List Nat) (inv : Inv c S) :
    Inv (runEvents c evs) (S ++ sentIds evs) := by
  induction evs generalizing c S with
  | nil => simpa [sentIds, runEvents] using inv
  | cons ev evs ih =>
    rw [sentIds_cons, ← List.append_assoc]
    exact ih _ _ (Inv_step c S ev inv)

end client

namespace client

theorem send_seq (c : Client) (call : Call) (write : Option String) :
    (send c call write).seq
      = if c.closing || c.shutdown then c.seq else c.seq + 1 := by
  by_cases h : (c.closing || c.shutdown) = true
  · have hreg : registerCall c call = ((0, some ErrShutdown), c) := by
      unfold registerCall
      rw [if_pos h]
    unfold send
    rw [hreg, if_pos h]
    rfl
  · have hreg : registerCall c call = ((c.seq, none),
        { c with
          pending := (c.seq, { call with Seq := c.seq })
            :: c.pending.filter (fun p => p.1 != c.seq)
          seq := c.seq + 1 }) := by
      unfold registerCall
      rw [if_neg h]
    unfold send
    rw [hreg, if_neg h]
    cases write with
    | none => rfl
    | some e => simp [removeCall, List.lookup_cons, done]

theorem receiveStep_seq (c : Client) (inc : Incoming) :
    (receiveStep c inc).1.seq = c.seq := by
  cases inc with
  | fail err => rfl
  | header hd body =>
    simp only [receiveStep, removeCall]
    cases List.lookup hd.Seq c.pending with
    | none => rfl
    | some call =>
      simp only
      by_cases herr : hd.Error ≠ ""
      · rw [if_pos herr]
        rfl
      · rw [if_neg herr]
        cases body <;> rfl

theorem stepEvent_seq_of_not_send (c : Client) (ev : Event)
    (h : ∀ call write, ev ≠ .send call write) : (stepEvent c ev).seq = c.seq := by
  cases ev with
  | send call write => exact absurd rfl (h call write)
  | close =>
    simp only [stepEvent, Close]
    split <;> rfl
  | incoming inc =>
    simp only [stepEvent]
    split
    · have hseq := receiveStep_seq c inc
      cases hr : receiveStep c inc with
      | mk c1 e =>
        rw [hr] at hseq
        cases e with
        | none => exact hseq
        | some err => exact hseq
    · rfl

/-- The successful registrations of a history are numbered consecutively from the
counter of the client it starts on. -/
theorem registered_from (evs : List Event) (c : Client) :
    registered c evs = List.range' c.seq (registered c evs).length := by
  induction evs generalizing c with
  | nil => simp [registered]
  | cons ev evs ih =>
    cases ev with
    | send call write =>
      have hseq := send_seq c call write
      by_cases h : (c.closing || c.shutdown) = true
      · have hreg : (registerCall c call).1 = (0, some ErrShutdown) := by
          unfold registerCall
          rw [if_pos h]
        rw [if_pos h] at hseq
        simp only [registered, hreg]
        have := ih (stepEvent c (.send call write))
        simp only [stepEvent, hseq] at this ⊢
        exact this
      · have hreg : (registerCall c call).1 = (c.seq, none) := by
          unfold registerCall
          rw [if_neg h]
        rw [if_neg h] at hseq
        simp only [registered, hreg, List.length_cons]
        have := ih (stepEvent c (.send call write))
        simp only [stepEvent, hseq] at this ⊢
        rw [List.range'_succ]
        rw [← this]
    | incoming inc =>
      have hseq := stepEvent_seq_of_not_send c (.incoming inc) (by intro _ _ h; cases h)
      simp only [registered]
      have := ih (stepEvent c (.incoming inc))
      rw [hseq] at this
      exact this
    | close =>
      have hseq := stepEvent_seq_of_not_send c .close (by intro _ _ h; cases h)
      simp only [registered]
      have := ih (stepEvent c .close)
      rw [hseq] at this
      exact this

/-- C16. A client made by `newClientCodec` starts with the counter 1, an empty map
and neither flag set; in every history the successful `registerCall`s return 1, 2,
3, ... in this order; on a client that is neither closing nor shut down
`registerCall` returns the counter, stores the call with that `Seq` under it, leaves
the other entries of `pending` as they are and adds one to the counter; once
`closing` or `shutdown` is set it returns `ErrShutdown` and changes nothing. -/
theorem registerCall_numbers_calls_from_one :
    (newClientCodec.seq = 1 ∧ newClientCodec.pending = [] ∧
      newClientCodec.closing = false ∧ newClientCodec.shutdown = false) ∧
    (∀ evs : List Event,
      registered newClientCodec evs
        = List.range' 1 (registered newClientCodec evs).length) ∧
    (∀ (c : Client) (call : Call), c.closing = false → c.shutdown = false →
      (registerCall c call).1 = (c.seq, none) ∧
      (registerCall c call).2.seq = c.seq + 1 ∧
      List.lookup c.seq (registerCall c call).2.pending = some { call with Seq := c.seq } ∧
      (∀ s, s ≠ c.seq →
        List.lookup s (registerCall c call).2.pending = List.lookup s c.pending) ∧
      (registerCall c call).2.closing = false ∧ (registerCall c call).2.shutdown = false) ∧
    (∀ (c : Client) (call : Call), c.closing = true ∨ c.shutdown = true →
      registerCall c call = ((0, some ErrShutdown), c)) := by
  refine ⟨⟨rfl, rfl, rfl, rfl⟩, fun evs => registered_from evs newClientCodec, ?_, ?_⟩
  · intro c call hc hs
    have hreg : registerCall c call = ((c.seq, none),
        { c with
          pending := (c.seq, { call with Seq := c.seq })
            :: c.pending.filter (fun p => p.1 != c.seq)
          seq := c.seq + 1 }) := by
      unfold registerCall
      simp only [hc, hs, Bool.or_self, Bool.false_eq_true, if_false]
    rw [hreg]
    refine ⟨rfl, rfl, by simp [List.lookup_cons], ?_, hc, hs⟩
    intro s hne
    have hb : (s == c.seq) = false := by simpa using hne
    simp only [List.lookup_cons, hb]
    exact lookup_filter_ne c.pending c.seq s hne
  · intro c call h
    have hclosed : (c.closing || c.shutdown) = true := by
      rcases h with h | h <;> simp [h]
    unfold registerCall
    rw [if_pos hclosed]

/-- C17. In every history of `send`s of distinct calls, iterations of the receive
loop and `Close`s on a client made by `newClientCodec`: no call is delivered twice,
only calls handed to `send` are delivered, and once the receive loop has ended and
`terminateCalls` has set `shutdown`, every call handed to `send` has been delivered
exactly once; before that, every such call is either still pending or delivered, not
both.  When `ReadHeader` fails with `err` in a running loop, `shutdown` is set and
the calls still in `pending` are delivered, each once, with that error. -/
theorem calls_delivered_exactly_once (evs : List Event) (hids : (sentIds evs).Nodup) :
    (∀ id, (deliveredIds (runEvents newClientCodec evs)).count id ≤ 1) ∧
    (∀ id ∈ deliveredIds (runEvents newClientCodec evs), id ∈ sentIds evs) ∧
    ((runEvents newClientCodec evs).shutdown = true →
      ∀ id ∈ sentIds evs, (deliveredIds (runEvents newClientCodec evs)).count id = 1) ∧
    ((runEvents newClientCodec evs).shutdown = false →
      ∀ id ∈ sentIds evs,
        (pendingIds (runEvents newClientCodec evs)
          ++ deliveredIds (runEvents newClientCodec evs)).count id = 1) ∧
    (∀ (c : Client) (err : String), c.receiving = true →
      (stepEvent c (.incoming (.fail err))).shutdown = true ∧
      (stepEvent c (.incoming (.fail err))).delivered
        = c.delivered ++ c.pending.map (fun p => { p.2 with Error := some err })) := by
  have inv := Inv_run evs newClientCodec [] Inv_new
  rw [List.nil_append] at inv
  generalize runEvents newClientCodec evs = c at inv
  have hD : (deliveredIds c).Nodup ∧ ∀ id ∈ deliveredIds c, id ∈ sentIds evs := by
    cases hs : c.shutdown with
    | true =>
      have hp := inv.dead hs
      exact ⟨hp.nodup_iff.2 hids, fun id hid => hp.mem_iff.1 hid⟩
    | false =>
      have hp := inv.live hs
      have hnd := hp.nodup_iff.2 hids
      exact ⟨(List.nodup_append.1 hnd).2.1,
        fun id hid => hp.mem_iff.1 (List.mem_append_right _ hid)⟩
  refine ⟨?_, hD.2, ?_, ?_, ?_⟩
  · intro id
    exact List.nodup_iff_count_le_one.1 hD.1 id
  · intro hs id hid
    have hp := inv.dead hs
    exact List.count_eq_one_of_mem hD.1 (hp.mem_iff.2 hid)
  · intro hs id hid
    have hp := inv.live hs
    exact List.count_eq_one_of_mem (hp.nodup_iff.2 hids) (hp.mem_iff.2 hid)
  · intro c1 err hr
    simp only [stepEvent, hr, if_true, receiveStep]
    exact ⟨rfl, rfl⟩

/-- Witness of C17 on `demoHistory`: after the server has gone away the four calls
have been delivered once each. -/
theorem calls_delivered_exactly_once_witness :
    (sentIds demoHistory).Nodup ∧
    (runEvents newClientCodec demoHistory).shutdown = true ∧
    deliveredIds (runEvents newClientCodec demoHistory) = [11, 10, 12, 13] ∧
    ∀ id ∈ sentIds demoHistory,
      (deliveredIds (runEvents newClientCodec demoHistory)).count id = 1 :=
  ⟨by decide, by decide, by decide,
    (calls_delivered_exactly_once demoHistory (by decide)).2.2.1 (by decide)⟩

end client

/-! ## Registration of peers and of groups, the empty key -/

namespace geecache

namespace day7

theorem lookup_filter_other {β : Type} (l : List (String × β)) (n m : String) (h : m ≠ n) :
    List.lookup m (l.filter (fun p => p.1 != n)) = List.lookup m l := by
  induction l with
  | nil => rfl
  | cons p l ih =>
    obtain ⟨k, v⟩ := p
    by_cases hk : k = n
    · subst hk
      have hne : (m == k) = false := by simpa using h
      simp [List.filter_cons, List.lookup_cons, hne, ih]
    · have hkn : (k != n) = true := by simpa using hk
      simp only [List.filter_cons, hkn, if_true, List.lookup_cons, ih]

/-- C21, counterexample. A first call of `RegisterPeers` with the nil picker returns
and leaves the group without a picker, so a second call on the same group does not
fault: it returns and sets the picker. -/
theorem register_peers_after_nil_succeeds :
    ∃ g1 g2, RegisterPeers scoresGroup none = some g1 ∧ g1.peers.isSome = false ∧
      RegisterPeers g1 (some remotePicker) = some g2 ∧ g2.peers.isSome = true :=
  ⟨_, _, rfl, rfl, rfl, rfl⟩

/-- C21, amended. On a group without a picker, `RegisterPeers` with a non-nil
picker returns and sets the picker to its argument, leaving the other fields as they
were, and every later call on the group faults, whatever its argument; a call with
the nil picker on a group without a picker returns and leaves the group without
one. -/
theorem register_peers_once (g : Group) (p : PeerPicker) (hg : g.peers = none) :
    (∃ g1, RegisterPeers g (some p) = some g1 ∧ g1 = { g with peers := some p } ∧
      g1.peers = some p ∧ ∀ q, RegisterPeers g1 q = none) ∧
    RegisterPeers g none = some g := by
  refine ⟨⟨{ g with peers := some p }, ?_, rfl, rfl, fun q => rfl⟩, ?_⟩
  · simp [RegisterPeers, hg]
  · cases g
    simp only at hg
    subst hg
    rfl

/-- Witness of C21 (amended) on `scoresGroup` and the picker `remotePicker`. -/
theorem register_peers_once_witness :
    scoresGroup.peers = none ∧
      ((∃ g1, RegisterPeers scoresGroup (some remotePicker) = some g1 ∧
        g1 = { scoresGroup with peers := some remotePicker } ∧
        g1.peers = some remotePicker ∧ ∀ q, RegisterPeers g1 q = none) ∧
      RegisterPeers scoresGroup none = some scoresGroup) :=
  ⟨rfl, register_peers_once scoresGroup remotePicker rfl⟩

/-- C22. For every registry, name `n`, capacity and non-nil loader, `NewGroup`
returns a group `g` named `n` and a registry in which `GetGroup(n)` is `g` and
`GetGroup` of every other name is what it was before (nil for a name that was never
registered); with a nil loader `NewGroup` faults. -/
theorem newGroup_registers_under_name (groups : List (String × Group)) (n : String)
    (cacheBytes : Int) (loader : Getter) :
    (∃ g reg, NewGroup groups n cacheBytes (some loader) = some (g, reg) ∧
      GetGroup reg n = some g ∧ g.name = n ∧
      (∀ m, m ≠ n → GetGroup reg m = GetGroup groups m) ∧
      (∀ m, m ≠ n → GetGroup groups m = none → GetGroup reg m = none)) ∧
    (∀ m, GetGroup ([] : List (String × Group)) m = none) ∧
    NewGroup groups n cacheBytes none = none := by
  have hother : ∀ (reg : List (String × Group)) (g : Group) (m : String), m ≠ n →
      GetGroup ((n, g) :: reg.filter (fun p => p.1 != n)) m = GetGroup reg m := by
    intro reg g m hm
    have hne : (m == n) = false := by simpa using hm
    simp only [GetGroup, List.lookup_cons, hne]
    exact lookup_filter_other reg n m hm
  refine ⟨⟨_, _, rfl, ?_, rfl, ?_, ?_⟩, fun m => rfl, rfl⟩
  · simp [GetGroup, List.lookup_cons]
  · intro m hm
    exact hother groups _ m hm
  · intro m hm hnone
    rw [hother groups _ m hm, hnone]

/-- C23. For every group, `Get("")` returns the empty `ByteView` and the error
"key is required", and the group is left as it was: the shard is unchanged and
neither the loader nor a remote peer has been called. -/
theorem get_empty_key_is_rejected (g : Group) :
    Get g "" = some ((⟨[]⟩, some "key is required"), g) := by
  simp [Get]

end day7

end geecache

/-! ## The nil callback and the callback of the test -/

namespace lru

variable {V : Type}

/-- C27. On every cache whose eviction callback is nil, as `Init(maxBytes, nil)`
makes it, `Add` of a key that is not resident faults and `RemoveOldest` faults, on a
non-empty cache as on an empty one. -/
theorem nil_callback_faults [Value V] (c : Cache V) (key : String) (value : V)
    (hcb : c.OnEvicted = false) :
    (mapGet c.cahce key = none → Add c key value = none) ∧ RemoveOldest c = none ∧
      (Init c.maxBytes false : Cache V).OnEvicted = false := by
  refine ⟨fun hget => Add_absent_key_nil_callback c key value hcb hget, ?_, rfl⟩
  unfold RemoveOldest
  cases c.ll.getLast? with
  | none => rfl
  | some ele => simp [callOnEvicted, hcb]

/-- Witness of C27 on `nilCallbackDemo`, a non-empty cache with a nil callback, and the
key `"k"`, which is not resident. -/
theorem nil_callback_faults_witness :
    nilCallbackDemo.OnEvicted = false ∧ nilCallbackDemo.ll ≠ [] ∧
      mapGet nilCallbackDemo.cahce "k" = none ∧
      ((mapGet nilCallbackDemo.cahce "k" = none → Add nilCallbackDemo "k" "v" = none) ∧
        RemoveOldest nilCallbackDemo = none ∧
        (Init nilCallbackDemo.maxBytes false : Cache String).OnEvicted = false) :=
  ⟨rfl, by decide, by decide, nil_callback_faults nilCallbackDemo "k" "v" rfl⟩

/-- C28. After `Init(10, cb)`, `Add("key1", "123456")` and `Add("k2", "k2")` both
calls return and the keys the callback has been called with are, in order, "key1"
and "k2". -/
theorem test_onEvicted_keys :
    (run (Init 10 true) onEvictedOps).map (fun c => c.calls.map Prod.fst) =
      some ["key1", "k2"] := by
  decide

end lru

/-! ## The keys of the ring -/

namespace consistenthash

theorem virtualNodes_congr (m1 m2 : Map) (hh : m1.hash = m2.hash)
    (hr : m1.repllicas = m2.repllicas) : virtualNodes m1 = virtualNodes m2 := by
  funext key
  simp [virtualNodes, hashOf, hh, hr]

theorem foldl_addReplicas (keys : List String) (m : Map) :
    (keys.foldl addReplicas m).keys = m.keys ++ keys.flatMap (virtualNodes m) ∧
      (keys.foldl addReplicas m).hash = m.hash ∧
      (keys.foldl addReplicas m).repllicas = m.repllicas := by
  induction keys generalizing m with
  | nil => simp
  | cons k ks ih =>
    obtain ⟨h1, h2, h3⟩ := ih (addReplicas m k)
    have hh : (addReplicas m k).hash = m.hash := by rw [addReplicas_eq]
    have hr : (addReplicas m k).repllicas = m.repllicas := by rw [addReplicas_eq]
    have hk : (addReplicas m k).keys = m.keys ++ virtualNodes m k := by rw [addReplicas_eq]
    refine ⟨?_, ?_, ?_⟩
    · rw [List.foldl_cons, h1, hk, virtualNodes_congr _ _ hh hr]
      simp [List.flatMap_cons]
    · rw [List.foldl_cons, h2, hh]
    · rw [List.foldl_cons, h3, hr]

theorem Add_keys (m : Map) (keys : List String) :
    (Add m keys).keys.Perm (m.keys ++ keys.flatMap (virtualNodes m)) ∧
      (Add m keys).hash = m.hash ∧ (Add m keys).repllicas = m.repllicas := by
  obtain ⟨h1, h2, h3⟩ := foldl_addReplicas keys m
  refine ⟨?_, h2, h3⟩
  show (sortInts (keys.foldl addReplicas m).keys).Perm _
  rw [h1]
  exact List.perm_insertionSort _ _

theorem foldl_Add_keys (adds : List (List String)) (m : Map) :
    (adds.foldl Add m).keys.Perm (m.keys ++ adds.flatten.flatMap (virtualNodes m)) ∧
      (adds.foldl Add m).hash = m.hash ∧ (adds.foldl Add m).repllicas = m.repllicas := by
  induction adds generalizing m with
  | nil => simp
  | cons a as ih =>
    obtain ⟨h1, h2, h3⟩ := ih (Add m a)
    obtain ⟨k1, k2, k3⟩ := Add_keys m a
    refine ⟨?_, ?_, ?_⟩
    · rw [List.foldl_cons]
      refine h1.trans ?_
      rw [virtualNodes_congr _ _ k2 k3]
      simp only [List.flatten_cons, List.flatMap_append, ← List.append_assoc]
      exact k1.append_right _
    · rw [List.foldl_cons, h2, k2]
    · rw [List.foldl_cons, h3, k3]

theorem length_flatMap_virtualNodes (m : Map) (peers : List String) :
    (peers.flatMap (virtualNodes m)).length = peers.length * m.repllicas.toNat := by
  induction peers with
  | nil => simp
  | cons p ps ih =>
    simp only [List.flatMap_cons, List.length_append, ih, List.length_cons]
    simp [virtualNodes, Nat.succ_mul, Nat.add_comm]

/-- C26. On the ring built by `New(replicas, hash)` and any sequence of `Add`
calls, the keys are sorted ascending, are a rearrangement of the hashes
`hash(decimal(i) ++ peer)` over every added peer (one occurrence per mention) and
every `i` from 0 below `replicas`, so their number is the number of peers added
times `replicas`, and every one of them is a key of the hash-to-peer map. -/
theorem ring_keys_are_sorted_virtual_nodes (replicas : Int) (fn : Option Hash)
    (adds : List (List String)) :
    (build replicas fn adds).keys.Sorted (fun a b => a ≤ b) ∧
      (build replicas fn adds).keys.Perm
        (adds.flatten.flatMap (fun peer =>
          (List.range replicas.toNat).map
            (fun i => hashOf (New replicas fn) (toString i ++ peer)))) ∧
      (build replicas fn adds).keys.length = adds.flatten.length * replicas.toNat ∧
      (0 ≤ replicas →
        ((build replicas fn adds).keys.length : Int) = adds.flatten.length * replicas) ∧
      Covered (build replicas fn adds) := by
  obtain ⟨hs, hc⟩ := build_invariant replicas fn adds
  obtain ⟨hp, -, -⟩ := foldl_Add_keys adds (New replicas fn)
  have hp1 : (build replicas fn adds).keys.Perm
      (adds.flatten.flatMap (virtualNodes (New replicas fn))) := by
    simpa [build, New] using hp
  have hlen : (build replicas fn adds).keys.length = adds.flatten.length * replicas.toNat := by
    rw [hp1.length_eq, length_flatMap_virtualNodes]
    rfl
  refine ⟨hs, hp1, hlen, ?_, hc⟩
  intro h0
  rw [hlen]
  push_cast
  rw [Int.toNat_of_nonneg h0]

end consistenthash

/-! ## The registry of codecs and the handshake -/

namespace client

theorem lookup_codec (t : String) :
    codec.NewCodecFuncMap.lookup t =
      if t = codec.GobType then some codec.NewCodecFunc.NewGobCodec else none := by
  by_cases h : t = codec.GobType
  · subst h
    rfl
  · have hne : (t == codec.GobType) = false := by simpa using h
    simp [codec.NewCodecFuncMap, List.lookup_cons, hne, h]

/-- C24, counterexample. The registry has no constructor for `JsonType`; `NewClient`
returns the error "invalid codec type application/json" for a handshake carrying
it, and `ServeConn` returns without serving the connection, the magic number being
the right one. -/
theorem json_codec_is_not_registered :
    codec.NewCodecFuncMap.lookup codec.JsonType = none ∧
      jsonOption.MagicNumber = MagicNumber ∧
      NewClient jsonOption none = some (.error "invalid codec type application/json") ∧
      ServeConn (.ok jsonOption) [.header sumHeader (.ok "x")] = some .invalidCodec := by
  refine ⟨by decide, rfl, ?_, by decide⟩
  rfl

/-- C24, amended. After initialisation the registry maps `GobType` to
`NewGobCodec` and nothing else.  A handshake with the correct magic number is
accepted by `NewClient` and `ServeConn` when it carries `GobType`; with any other
codec type, `JsonType` included, `NewClient` returns the error "invalid codec type"
followed by the type, and `ServeConn` returns without serving. -/
theorem handshake_accepts_gob_only (opt : Options) (hmagic : opt.MagicNumber = MagicNumber) :
    (codec.NewCodecFuncMap.lookup codec.GobType = some codec.NewCodecFunc.NewGobCodec ∧
      codec.NewCodecFuncMap.lookup codec.JsonType = none) ∧
    (opt.CodecType = codec.GobType →
      NewClient opt none = some (.ok newClientCodec) ∧
      ∀ reqs, ServeConn (.ok opt) reqs = (serveCodec reqs []).map Served.served) ∧
    (opt.CodecType ≠ codec.GobType →
      (∀ enc, NewClient opt enc = some (.error ("invalid codec type " ++ opt.CodecType))) ∧
      ∀ reqs, ServeConn (.ok opt) reqs = some Served.invalidCodec) := by
  refine ⟨⟨by decide, by decide⟩, ?_, ?_⟩
  · intro hgob
    constructor
    · simp [NewClient, lookup_codec, hgob]
    · intro reqs
      simp [ServeConn, lookup_codec, hgob, hmagic]
  · intro hne
    constructor
    · intro enc
      simp [NewClient, lookup_codec, hne]
    · intro reqs
      simp [ServeConn, lookup_codec, hne, hmagic]

/-- Witness of C24 (amended) on the handshake asking for the JSON codec. -/
theorem handshake_accepts_gob_only_witness :
    jsonOption.MagicNumber = MagicNumber ∧
    ((codec.NewCodecFuncMap.lookup codec.GobType = some codec.NewCodecFunc.NewGobCodec ∧
      codec.NewCodecFuncMap.lookup codec.JsonType = none) ∧
    (jsonOption.CodecType = codec.GobType →
      NewClient jsonOption none = some (.ok newClientCodec) ∧
      ∀ reqs, ServeConn (.ok jsonOption) reqs = (serveCodec reqs []).map Served.served) ∧
    (jsonOption.CodecType ≠ codec.GobType →
      (∀ enc, NewClient jsonOption enc =
        some (.error ("invalid codec type " ++ jsonOption.CodecType))) ∧
      ∀ reqs, ServeConn (.ok jsonOption) reqs = some Served.invalidCodec)) :=
  ⟨rfl, handshake_accepts_gob_only jsonOption rfl⟩

/-! ## A request whose body cannot be read -/

theorem readRequest_never_fails_with_request (a : Arriving) (rq : request) (err : String) :
    readRequest a ≠ some (some rq, some err) := by
  cases a with
  | header h body =>
    cases body <;> simp [readRequest, readRequestHeader]
  | fail eof err1 =>
    cases eof <;> simp [readRequest, readRequestHeader]

theorem serveCodec_body_error (h : Header) (e : String) (rest : List Arriving)
    (written : List codec.Message) :
    serveCodec (.header h (.error e) :: rest) written =
      serveCodec rest
        (written ++ [{ h := h, body := .reply ("geerpc resp " ++ toString h.Seq) }]) := by
  simp [serveCodec, readRequest, readRequestHeader, handleRequest, sendResponse, codec.Write]

/-- C25 (the code departs from the claim). A request with sequence number 7 whose header is read and
whose body read fails with "unexpected EOF" is answered by the normal handler: the
one message written carries the header with an empty `Error` and the reply
"geerpc resp 7", not the error and `invalidRequest`. -/
theorem body_read_error_is_dispatched :
    serveCodec [.header sumHeader (.error "unexpected EOF")] [] =
      some [{ h := { ServiceMethod := "Foo.Sum", Seq := 7, Error := "" },
              body := .reply "geerpc resp 7" }] := by
  decide

end client

/-! ## The receive loop on the values of a connection -/

namespace client

theorem receiveOnce_receiveStep (c : Client) (conn : List codec.Frame) :
    (receiveOnce c conn).1 = receiveStep c (incomingOf conn) := by
  unfold receiveOnce incomingOf receiveStep
  cases hh : codec.ReadHeader conn with
  | mk r rest =>
    cases r with
    | error e => rfl
    | ok h =>
      simp only
      cases hr : removeCall c h.Seq with
      | mk call c1 =>
        cases call with
        | none => rfl
        | some call =>
          simp only
          by_cases herr : h.Error ≠ ""
          · simp only [if_pos herr]
          · simp only [if_neg herr]
            cases hb : codec.ReadBody rest with
            | mk e rest1 =>
              cases e <;> rfl

theorem ReadHeader_shrinks (conn rest : List codec.Frame) (h : Header)
    (hr : codec.ReadHeader conn = (.ok h, rest)) : rest.length < conn.length := by
  cases conn with
  | nil => simp [codec.ReadHeader] at hr
  | cons f fs =>
    cases f with
    | header h1 =>
      simp only [codec.ReadHeader, Prod.mk.injEq] at hr
      rw [← hr.2]
      simp
    | body b => simp [codec.ReadHeader] at hr

theorem ReadBody_le (conn : List codec.Frame) :
    (codec.ReadBody conn).2.length ≤ conn.length := by
  cases conn with
  | nil => simp [codec.ReadBody]
  | cons f fs => cases f <;> simp [codec.ReadBody]

theorem receiveOnce_shrinks (c c1 : Client) (conn rest : List codec.Frame)
    (h : receiveOnce c conn = ((c1, none), rest)) : rest.length < conn.length := by
  unfold receiveOnce at h
  cases hh : codec.ReadHeader conn with
  | mk r rest0 =>
    rw [hh] at h
    cases r with
    | error e => simp at h
    | ok hd =>
      have hlt := ReadHeader_shrinks conn rest0 hd hh
      simp only at h
      cases hr : removeCall c hd.Seq with
      | mk call c2 =>
        rw [hr] at h
        cases call with
        | none =>
          simp only [Prod.mk.injEq] at h
          rw [← h.2]
          exact hlt
        | some call =>
          simp only at h
          by_cases herr : hd.Error ≠ ""
          · simp only [if_pos herr, Prod.mk.injEq] at h
            rw [← h.2]
            exact hlt
          · simp only [if_neg herr] at h
            have hle := ReadBody_le rest0
            cases hb : codec.ReadBody rest0 with
            | mk e rest1 =>
              rw [hb] at h hle
              cases e with
              | none =>
                simp only [Prod.mk.injEq] at h
                rw [← h.2]
                exact Nat.lt_of_le_of_lt hle hlt
              | some e => simp at h

theorem receiveLoop_fuel (fuel n : Nat) (c : Client) (conn : List codec.Frame)
    (hf : conn.length < fuel) (hn : conn.length < n) :
    receiveLoop fuel c conn = receiveLoop n c conn := by
  induction fuel generalizing n c conn with
  | zero => omega
  | succ fuel ih =>
    cases n with
    | zero => omega
    | succ n =>
      unfold receiveLoop
      cases hr : receiveOnce c conn with
      | mk p rest =>
        obtain ⟨c1, err⟩ := p
        cases err with
        | some e => rfl
        | none =>
          have hlt := receiveOnce_shrinks c c1 conn rest hr
          simp only
          exact ih n c1 rest (by omega) (by omega)

theorem receiveLoop_ends (fuel : Nat) (c : Client) (conn : List codec.Frame)
    (hf : conn.length < fuel) :
    (receiveLoop fuel c conn).receiving = false ∧
      (receiveLoop fuel c conn).shutdown = true := by
  induction fuel generalizing c conn with
  | zero => omega
  | succ fuel ih =>
    unfold receiveLoop
    cases hr : receiveOnce c conn with
    | mk p rest =>
      obtain ⟨c1, err⟩ := p
      cases err with
      | some e => exact ⟨rfl, rfl⟩
      | none =>
        have hlt := receiveOnce_shrinks c c1 conn rest hr
        simp only
        exact ih c1 rest (by omega)

theorem receive_ends (c : Client) (conn : List codec.Frame) :
    (receive c conn).receiving = false ∧ (receive c conn).shutdown = true :=
  receiveLoop_ends (conn.length + 1) c conn (by omega)

theorem receiveOnce_unknown_seq (c : Client) (h : Header) (rest : List codec.Frame)
    (hseq : c.pending.lookup h.Seq = none) :
    receiveOnce c (.header h :: rest) = (((removeCall c h.Seq).2, none), rest) := by
  simp [receiveOnce, codec.ReadHeader, removeCall, hseq]

/-- C29 (the code departs from the claim). With one call pending under sequence number 1, a response
with sequence number 9 arrives, followed by the response for 1.  The iteration that
reads the header for 9 leaves its body on the connection; the next `ReadHeader`
meets that body, fails, and the loop ends: the pending call is delivered with the
error of the decoder and the client is shut down, its response unread. -/
theorem stray_response_body_is_not_read :
    oneCallPending.pending.lookup 9 = none ∧
      (receiveOnce oneCallPending strayResponse).2 =
        [.body "geerpc resp 9",
          .header { ServiceMethod := "Foo.Sum", Seq := 1, Error := "" },
          .body "geerpc resp 1"] ∧
      (receive oneCallPending strayResponse).delivered =
        [{ id := 10, Seq := 1, ServiceMethod := "Foo.Sum",
           Error := some codec.typeMismatch }] ∧
      (receive oneCallPending strayResponse).shutdown = true := by
  decide

end client

/-! ## A panic of the function run by the coordinator -/

namespace singleflight

theorem Do_of_DoOutcome {σ R : Type} (g : Group) (key : String) (fn : σ → Option (R × σ))
    (s : σ) :
    Do g key fn s =
      match DoOutcome g key fn s with
      | .returned r g1 s1 => some (r, g1, s1)
      | .panicked _ => none
      | .waits _ => none := by
  unfold Do DoOutcome
  by_cases hk : key ∈ g.m
  · simp only [if_pos hk]
  · simp only [if_neg hk]
    cases fn s with
    | none => rfl
    | some p => rfl

/-- C30, counterexample. The function `fn` panics inside `Do("Tom", fn)` on an empty coordinator.
The panic leaves `Do` with the entry for "Tom" still in the map, and a later
`Do("Tom", fn2)` finds it and waits on its latch, without running `fn2`. -/
theorem panic_leaves_key_in_flight :
    DoOutcome { m := [] } "Tom" panickingFn 0 = .panicked { m := ["Tom"] } ∧
      DoOutcome { m := ["Tom"] } "Tom" countingFn 0 = .waits { m := ["Tom"] } ∧
      Do { m := ["Tom"] } "Tom" countingFn 0 = none := by
  decide

/-- C30, amended. If `fn` panics inside `Do(key, fn)` on a coordinator with no
call in flight for `key`, the panic leaves `Do` with the entry for `key` in the
map (the latch is not signaled and the entry is not removed), and every later
`Do(key, fn2)` on that coordinator waits on the latch instead of running `fn2`, so
it does not return. -/
theorem do_panic_keeps_entry {σ R : Type} (g : Group) (key : String)
    (fn : σ → Option (R × σ)) (s : σ) (hk : key ∉ g.m) (hf : fn s = none) :
    DoOutcome g key fn s = .panicked { m := key :: g.m } ∧
      key ∈ (key :: g.m) ∧
      ∀ (fn2 : σ → Option (R × σ)) (s2 : σ),
        DoOutcome { m := key :: g.m } key fn2 s2 = .waits { m := key :: g.m } ∧
        Do { m := key :: g.m } key fn2 s2 = none := by
  refine ⟨?_, List.mem_cons_self _ _, fun fn2 s2 => ⟨?_, ?_⟩⟩
  · simp [DoOutcome, hk, hf]
  · simp [DoOutcome]
  · simp [Do]

/-- Witness of C30 (amended): the key `"Tom"` on an empty coordinator with a function
that panics. -/
theorem do_panic_keeps_entry_witness :
    "Tom" ∉ ({ m := [] } : Group).m ∧ panickingFn 0 = none ∧
      (DoOutcome { m := [] } "Tom" panickingFn 0 = .panicked { m := "Tom" :: [] } ∧
      "Tom" ∈ ("Tom" :: ([] : List String)) ∧
      ∀ (fn2 : Nat → Option (Nat × Nat)) (s2 : Nat),
        DoOutcome { m := "Tom" :: [] } "Tom" fn2 s2 = .waits { m := "Tom" :: [] } ∧
        Do { m := "Tom" :: [] } "Tom" fn2 s2 = none) :=
  ⟨by decide, rfl, do_panic_keeps_entry { m := [] } "Tom" panickingFn 0 (by decide) rfl⟩

end singleflight
